import Mathlib

/-!
# Device-tree value emitters: marker chains, chunking and rendering

A shallow embedding of the property-value emitters of `treesource.c`
(`write_propval` and its helpers) and of the chunk walk of `yamltree.c`
(`yaml_propval`), followed by theorems about them.

Conventions of the embedding
* a value buffer is a list of bytes (`Fin 256`), its `len` is the list length;
* the singly linked marker chain is a list of markers, `NULL` is `[]`,
  `m->next` is the tail;
* the text written to the `FILE *` is a list of characters;
* an `assert` that fails, or a read outside the buffer, makes the emitter
  return `none`;
* counters and lengths are natural numbers: a property buffer is far smaller
  than `2^31` bytes, so no `int`/`size_t` arithmetic of the emitters
  overflows, except the subtraction `next->offset - m->offset`, whose
  wrap-around on an ill-ordered chain is modelled explicitly.
-/

namespace Dtc

/-! ## Data model -/

/-- One byte of a value buffer. -/
abbrev Byte := Fin 256

/-- Modelled from the spec: `enum markertype` of `dtc.h`, which is not among
the sources. The spec lists the annotation kinds LABEL, REF_PHANDLE, REF_PATH
and the five type kinds; `treesource.c` names the type kinds `MARKER_*` and
uses `MARKER_NONE` for "no type chosen yet". -/
inductive markertype
  | MARKER_NONE
  | REF_PHANDLE
  | REF_PATH
  | LABEL
  | MARKER_UINT8
  | MARKER_UINT16
  | MARKER_UINT32
  | MARKER_UINT64
  | MARKER_STRING
  deriving DecidableEq, Repr

open markertype

/-- Modelled from the spec: `struct marker` of `dtc.h` (kind, byte offset,
payload `ref`; the `next` link is the tail of the list holding the marker). -/
structure marker where
  type : markertype
  offset : Nat
  ref : String
  deriving DecidableEq, Repr

/-- Modelled from the spec: `struct data` of `dtc.h`: the bytes `val` (with
`len = val.length`) and the marker chain. -/
structure data where
  val : List Byte
  markers : List marker
  deriving DecidableEq, Repr

/-- Modelled from the spec: `struct property` of `dtc.h`, reduced to the
fields the emitters read. -/
structure property where
  name : String
  val : data
  deriving DecidableEq, Repr

/-- The length field `prop->val.len`. -/
def data.len (d : data) : Nat := d.val.length

/-- The ordering invariant of the data model: marker offsets are
non-decreasing along the chain and none exceeds the buffer length. -/
def markers_ordered (len : Nat) (ms : List marker) : Prop :=
  ms.Pairwise (fun a b => a.offset ≤ b.offset) ∧ ∀ m ∈ ms, m.offset ≤ len

instance (len : Nat) (ms : List marker) : Decidable (markers_ordered len ms) := by
  unfold markers_ordered; infer_instance

/-! ## Character classes (libc, "C" locale) -/

/-- The libc `isprint` on an `unsigned char`, "C" locale: 0x20 .. 0x7e. -/
def isprint (c : Byte) : Bool := 0x20 ≤ c.val && c.val ≤ 0x7e

/-- `isstring` of treesource.c: printable, NUL, or one of `\a\b\t\n\v\f\r`
(`strchr` on the literal; it also finds the terminator for NUL). -/
def isstring (c : Byte) : Bool :=
  isprint c || c.val == 0 || [7, 8, 9, 10, 11, 12, 13, 0].contains c.val

/-! ## The type guess of `write_propval` (lines 175-209) -/

/-- The test of `next_type_marker`: the three annotation kinds are skipped. -/
def is_annot_kind (t : markertype) : Bool :=
  t == LABEL || t == REF_PHANDLE || t == REF_PATH

/-- `next_type_marker` of treesource.c: the chain from its first marker that is
not LABEL, REF_PHANDLE or REF_PATH on (`[]` for NULL). -/
def next_type_marker : List marker → List marker
  | [] => []
  | m :: rest => if is_annot_kind m.type then next_type_marker rest else m :: rest

/-- Line 176: `chunk_len = (next_type ? next_type->offset : len)`. -/
def leading_chunk_len (len : Nat) (ms : List marker) : Nat :=
  match next_type_marker ms with
  | [] => len
  | m :: _ => m.offset

/-- Lines 180-185, the counter `nnotstring` over the first `chunk_len` bytes. -/
def count_notstring (p : List Byte) : Nat :=
  p.foldl (fun n c => if !isstring c then n + 1 else n) 0

/-- Lines 180-185, the counter `nnul` over the first `chunk_len` bytes. -/
def count_nul (p : List Byte) : Nat :=
  p.foldl (fun n c => if c.val == 0 then n + 1 else n) 0

/-- Lines 187-194: `for_each_marker_of_type(m, LABEL)` with its `break`;
the result is `(nnotstringlbl, nnotcelllbl)`. -/
def label_counts (val : List Byte) (chunk_len : Nat) :
    List marker → Nat × Nat → Nat × Nat
  | [], acc => acc
  | m :: rest, acc =>
    if m.type = LABEL then
      if m.offset ≥ chunk_len then acc
      else
        let a := if m.offset > 0 ∧ (val.getD (m.offset - 1) 0).val ≠ 0
          then acc.1 + 1 else acc.1
        let b := if m.offset % 4 ≠ 0 then acc.2 + 1 else acc.2
        label_counts val chunk_len rest (a, b)
    else label_counts val chunk_len rest acc

/-- Lines 179-203: the type given to the dummy marker, for `chunk_len > 0`
bytes that lie inside the buffer. -/
def guess_type (val : List Byte) (ms : List marker) (chunk_len : Nat) : markertype :=
  let p := val.take chunk_len
  let nnotstring := count_notstring p
  let nnul := count_nul p
  let lbl := label_counts val chunk_len ms (0, 0)
  if (val.getD (chunk_len - 1) 0).val = 0 ∧ nnotstring = 0 ∧ nnul < chunk_len - nnul
      ∧ lbl.1 = 0 then MARKER_STRING
  else if chunk_len % 4 = 0 ∧ lbl.2 = 0 then MARKER_UINT32
  else MARKER_UINT8

/-- Lines 175-209: the chain the rendering loop walks. When the leading chunk
is non-empty a dummy marker of the guessed type is put in front of the chain;
`none` when the guess would read past the end of the buffer. -/
def write_propval_chain (d : data) : Option (List marker) :=
  let chunk_len := leading_chunk_len d.len d.markers
  if chunk_len = 0 then some d.markers
  else if d.len < chunk_len then none
  else some ({ type := guess_type d.val d.markers chunk_len, offset := 0, ref := "" }
              :: d.markers)

/-! ## printf conversions (libc) -/

/-- The libc conversion `%02x` (and `%02lx`, `%02llx`) of an unsigned value:
lowercase hexadecimal, padded with zeros to at least two digits. -/
def printf_02x (v : Nat) : List Char :=
  let ds := Nat.toDigits 16 v
  if ds.length < 2 then '0' :: ds else ds

/-- What `%x` sees when handed a plain `char` holding byte `c`: the `char` is
promoted to `int` and read as `unsigned int`. Where plain `char` is signed
(x86) a byte from 0x80 on is sign-extended; `PRIx8` is `"x"` in glibc and
musl, so nothing narrows the value again. -/
def char_as_unsigned (char_is_signed : Bool) (c : Byte) : Nat :=
  if char_is_signed && 128 ≤ c.val then 2 ^ 32 - 256 + c.val else c.val

/-- Big-endian value of a run of bytes (`fdt16_to_cpu`, `fdt32_to_cpu`,
`fdt64_to_cpu` applied to the bytes as stored). -/
def be_value (p : List Byte) : Nat :=
  p.foldl (fun acc b => acc * 256 + b.val) 0

/-! ## `write_propval_string` (lines 64-111) -/

/-- The `switch (c)` of `write_propval_string`: the text written for one byte
in front of the final NUL. -/
def string_case (char_is_signed : Bool) (c : Byte) : List Char :=
  match c.val with
  | 7 => ['\\', 'a']
  | 8 => ['\\', 'b']
  | 9 => ['\\', 't']
  | 10 => ['\\', 'n']
  | 11 => ['\\', 'v']
  | 12 => ['\\', 'f']
  | 13 => ['\\', 'r']
  | 92 => ['\\', '\\']
  | 34 => ['\\', '"']
  | 0 => ['"', ',', ' ', '"']
  | _ =>
    if isprint c then [Char.ofNat c.val]
    else '\\' :: 'x' :: printf_02x (char_as_unsigned char_is_signed c)

/-- The `while (s < end)` loop of `write_propval_string`. -/
def write_string_loop (char_is_signed : Bool) : List Byte → List Char
  | [] => []
  | c :: rest => string_case char_is_signed c ++ write_string_loop char_is_signed rest

/-- `write_propval_string` of treesource.c on the `len > 0` bytes `s`;
`none` when `assert(*end == '\0')` fails. -/
def write_propval_string (char_is_signed : Bool) (s : List Byte) : Option (List Char) :=
  match s.getLast? with
  | none => none
  | some e =>
    if e.val = 0 then
      some ('"' :: (write_string_loop char_is_signed s.dropLast ++ ['"']))
    else none

/-! ## `write_propval_int` (lines 113-134) -/

/-- The `switch (width)` of `write_propval_int`: the text written for the
element at the head of `p`. -/
def int_case (width : Nat) (p : List Byte) : List Char :=
  match width with
  | 1 => ' ' :: printf_02x (be_value (p.take 1))
  | 2 => ' ' :: '0' :: 'x' :: printf_02x (be_value (p.take 2))
  | 4 => ' ' :: '0' :: 'x' :: printf_02x (be_value (p.take 4))
  | 8 => ' ' :: '0' :: 'x' :: printf_02x (be_value (p.take 8))
  | _ => []

/-- The `for (; p < end; p += width)` loop of `write_propval_int`: `p < end`
holds exactly when at least `width` bytes remain. The first argument bounds
the number of iterations; the remaining length is always enough. -/
def write_int_loop (width : Nat) : Nat → List Byte → List Char
  | 0, _ => []
  | fuel + 1, p =>
    if width ≤ p.length then
      int_case width p ++ write_int_loop width fuel (p.drop width)
    else []

/-- `write_propval_int` of treesource.c on the bytes `p` (called with width
1, 2, 4 or 8 only); `none` when `assert(len % width == 0)` fails. -/
def write_propval_int (p : List Byte) (width : Nat) : Option (List Char) :=
  if p.length % width = 0 then some (write_int_loop width p.length p) else none

/-! ## The rendering loop of `write_propval` (lines 211-254) -/

/-- The table `delim_start`; the entries of the other kinds are never read. -/
def delim_start : markertype → List Char
  | MARKER_UINT8 => "[".toList
  | MARKER_UINT16 => "/bits/ 16 <".toList
  | MARKER_UINT32 => "<".toList
  | MARKER_UINT64 => "/bits/ 64 <".toList
  | _ => []

/-- The table `delim_end`; a NULL entry is only read by the last `fprintf`,
whose `?: ""` turns it into the empty text. -/
def delim_end : markertype → List Char
  | MARKER_UINT8 => " ]".toList
  | MARKER_UINT16 => " >".toList
  | MARKER_UINT32 => " >".toList
  | MARKER_UINT64 => " >".toList
  | _ => []

/-- The five kinds of the first `case` group of the loop's `switch (m->type)`. -/
def is_type_marker (t : markertype) : Bool :=
  t == MARKER_UINT8 || t == MARKER_UINT16 || t == MARKER_UINT32 || t == MARKER_UINT64
    || t == MARKER_STRING

/-- Lines 215-231, the text written on meeting marker `m` before any data. -/
def marker_text (emit_type : markertype) (m : marker) : List Char :=
  if is_type_marker m.type then
    (if emit_type ≠ MARKER_NONE then delim_end emit_type ++ ", ".toList else [])
      ++ delim_start m.type
  else if m.type = LABEL then ' ' :: (m.ref.toList ++ [':'])
  else []

/-- Lines 215-231, `emit_type` after meeting marker `m`. -/
def next_emit_type (emit_type : markertype) (m : marker) : markertype :=
  if is_type_marker m.type then m.type else emit_type

/-- Lines 236-251, the `switch (emit_type)` that renders one data segment. -/
def write_chunk (char_is_signed : Bool) (emit_type : markertype) (p : List Byte) :
    Option (List Char) :=
  match emit_type with
  | MARKER_UINT16 => write_propval_int p 2
  | MARKER_UINT32 => write_propval_int p 4
  | MARKER_UINT64 => write_propval_int p 8
  | MARKER_STRING => write_propval_string char_is_signed p
  | _ => write_propval_int p 1

/-- Line 212, the offset that ends the segment of a marker followed by `rest`. -/
def next_offset (len : Nat) (rest : List marker) : Nat :=
  match rest with
  | [] => len
  | n :: _ => n.offset

/-- Lines 211-254: `for_each_marker(m)` and the final `fprintf`. `none` when
an assertion of a helper fails or a segment does not lie inside the buffer
(this includes an offset that decreases: the `size_t` difference wraps to a
length that no buffer has). -/
def write_propval_loop (char_is_signed : Bool) (val : List Byte) :
    markertype → List marker → Option (List Char)
  | emit_type, [] => some (delim_end emit_type ++ ";\n".toList)
  | emit_type, m :: rest =>
    let e := next_emit_type emit_type m
    if next_offset val.length rest = m.offset then
      (write_propval_loop char_is_signed val e rest).map (marker_text emit_type m ++ ·)
    else if next_offset val.length rest < m.offset ∨ val.length < next_offset val.length rest then
      none
    else
      match write_chunk char_is_signed e
          ((val.drop m.offset).take (next_offset val.length rest - m.offset)),
        write_propval_loop char_is_signed val e rest with
      | some d, some r => some (marker_text emit_type m ++ d ++ r)
      | _, _ => none

/-- `write_propval` of treesource.c: the text written after the property
name. `char_is_signed` tells whether plain `char` is signed on the target. -/
def write_propval (char_is_signed : Bool) (prop : property) : Option (List Char) :=
  if prop.val.len = 0 then some ";\n".toList
  else
    match write_propval_chain prop.val with
    | none => none
    | some ms =>
      (write_propval_loop char_is_signed prop.val.val MARKER_NONE ms).map
        (" = ".toList ++ ·)

/-! ## The data segments the two emitters render -/

/-- Lines 211-234 of treesource.c, keeping only which bytes reach the data
`switch`: one `(m->offset, chunk_len)` per marker whose `chunk_len` is not
zero. `chunk_len` is a `size_t`: when the next offset is smaller the
difference wraps around `2^64`. -/
def write_segments_loop (len : Nat) : List marker → List (Nat × Nat)
  | [] => []
  | m :: rest =>
    let chunk_len :=
      if next_offset len rest < m.offset then next_offset len rest + 2 ^ 64 - m.offset
      else next_offset len rest - m.offset
    if chunk_len = 0 then write_segments_loop len rest
    else (m.offset, chunk_len) :: write_segments_loop len rest

/-- The data segments `write_propval` renders, in order: none for an empty
buffer, else those of the walk over the chain built by lines 175-209. -/
def write_propval_segments (d : data) : Option (List (Nat × Nat)) :=
  if d.len = 0 then some []
  else (write_propval_chain d).map (write_segments_loop d.len)

/-- Lines 160-172 of yamltree.c, keeping only which bytes reach the data
`switch`: one `(m->offset, chunk_len)` per marker with `chunk_len > 0`;
here `chunk_len` is an `int`. -/
def yaml_segments_loop (len : Nat) : List marker → List (Nat × Nat)
  | [] => []
  | m :: rest =>
    let chunk_len : Int := (next_offset len rest : Int) - (m.offset : Int)
    if chunk_len ≤ 0 then yaml_segments_loop len rest
    else (m.offset, chunk_len.toNat) :: yaml_segments_loop len rest

/-- The data segments `yaml_propval` renders, in order: none for an empty
buffer (line 142), those of the marker walk when the chain is not empty
(line 153), else the whole buffer as one segment (line 205). -/
def yaml_propval_segments (d : data) : List (Nat × Nat) :=
  if d.len = 0 then []
  else if d.markers ≠ [] then yaml_segments_loop d.len d.markers
  else [(0, d.len)]

/-- The bytes of segment `(offset, length)` of a buffer. -/
def segment_bytes (val : List Byte) (s : Nat × Nat) : List Byte :=
  (val.drop s.1).take s.2

/-- Segments that tile `[a, b)`: the first starts at `a`, each is non-empty
and starts where the one before ends, the last ends at `b`. -/
def tiles : Nat → Nat → List (Nat × Nat) → Prop
  | a, b, [] => a = b
  | a, b, s :: rest => s.1 = a ∧ 0 < s.2 ∧ tiles (a + s.2) b rest

instance decTiles : ∀ (a b : Nat) (l : List (Nat × Nat)), Decidable (tiles a b l)
  | a, b, [] => by unfold tiles; infer_instance
  | a, b, s :: rest => by
    unfold tiles
    have := decTiles (a + s.2) b rest
    infer_instance

/-! ## The guessing rule in the words of the specification -/

/-- The offset `c` that ends the leading chunk: the offset of the first marker
of the chain that is not an annotation, the buffer length when there is none. -/
def first_type_offset (d : data) : Nat :=
  match d.markers.find? (fun m => !is_annot_kind m.type) with
  | some m => m.offset
  | none => d.len

/-- The leading chunk `[0, c)` qualifies as a string: its last byte is NUL,
every byte is printable, NUL or one of `\a \b \t \n \v \f \r`, NUL bytes are
fewer than the other bytes, and no LABEL with offset in `(0, c)` follows a
byte that is not NUL. -/
def leading_is_string (d : data) (c : Nat) : Prop :=
  d.val[c - 1]? = some 0 ∧
  (∀ b ∈ d.val.take c, isprint b = true ∨ b = 0 ∨ b.val ∈ [7, 8, 9, 10, 11, 12, 13]) ∧
  (d.val.take c).countP (fun b => b == 0) < (d.val.take c).countP (fun b => b != 0) ∧
  (∀ m ∈ d.markers, m.type = LABEL → 0 < m.offset → m.offset < c →
    d.val[m.offset - 1]? = some 0)

/-- The leading chunk `[0, c)` qualifies as cells: `c` is a multiple of 4 and
every LABEL with offset below `c` sits at a multiple of 4. -/
def leading_is_cells (d : data) (c : Nat) : Prop :=
  c % 4 = 0 ∧ ∀ m ∈ d.markers, m.type = LABEL → m.offset < c → m.offset % 4 = 0

/-- The gap the YAML walk leaves in front: `[0, o)` when the first marker of a
non-empty chain sits at an offset `o > 0`. -/
def leading_gap (d : data) : List (Nat × Nat) :=
  match d.markers with
  | [] => []
  | m :: _ => if m.offset = 0 then [] else [(0, m.offset)]


/-- Example input: a cell at offset 0, then a labelled string at offset 4. -/
def ex_cell_then_string : data :=
  ⟨[0, 0, 0, 1, 0x61, 0x62, 0x63, 0],
   [⟨MARKER_UINT32, 0, ""⟩, ⟨LABEL, 4, "l"⟩, ⟨MARKER_STRING, 4, ""⟩]⟩

/-- Example input: four bytes without a marker of their own, then a cell whose
type marker sits at offset 4. -/
def ex_untyped_then_cell : data :=
  ⟨[1, 2, 3, 4, 0, 0, 0, 1], [⟨MARKER_UINT32, 4, ""⟩]⟩

/-! ## Reading hexadecimal text (used to state what the emitter prints) -/

/-- The sixteen lowercase hexadecimal digits. -/
def hex_chars : List Char := "0123456789abcdef".toList

/-- The value of a hexadecimal digit: its position among `hex_chars`. -/
def hex_digit_value (c : Char) : Nat := hex_chars.indexOf c

/-- The number a string of hexadecimal digits denotes, most significant
digit first. -/
def hex_value (cs : List Char) : Nat :=
  cs.foldl (fun acc c => acc * 16 + hex_digit_value c) 0

/-! ## Integer chunks in the words of the specification -/

/-- The type marker kind of the integers of `w` bytes. -/
def width_type : Nat → markertype
  | 1 => MARKER_UINT8
  | 2 => MARKER_UINT16
  | 4 => MARKER_UINT32
  | 8 => MARKER_UINT64
  | _ => MARKER_NONE

/-- The opening delimiter of the source grammar for integers of `w` bytes. -/
def open_delim : Nat → List Char
  | 1 => "[".toList
  | 2 => "/bits/ 16 <".toList
  | 4 => "<".toList
  | 8 => "/bits/ 64 <".toList
  | _ => []

/-- The closing delimiter of the source grammar for integers of `w` bytes. -/
def close_delim : Nat → List Char
  | 1 => " ]".toList
  | 2 => " >".toList
  | 4 => " >".toList
  | 8 => " >".toList
  | _ => []

/-- The elements of a buffer read as integers of `w` bytes: element `i` is the
big-endian value of the bytes `[i * w, i * w + w)`. -/
def elements (w : Nat) (p : List Byte) : List Nat :=
  (List.range (p.length / w)).map (fun i => be_value ((p.drop (i * w)).take w))

/-- The token of one element: a space, `0x` unless the element is a single
byte, and the value in hexadecimal. -/
def element_token (w : Nat) (v : Nat) : List Char :=
  ' ' :: ((if w = 1 then [] else ['0', 'x']) ++ printf_02x v)

/-- The tokens of all elements of a buffer, in buffer order. -/
def int_tokens (w : Nat) (p : List Byte) : List Char :=
  ((elements w p).map (element_token w)).flatten

/-! ## String chunks in the words of the specification -/

/-- The escaped form of a run of bytes: the text of each byte in turn. -/
def escaped (char_is_signed : Bool) (s : List Byte) : List Char :=
  (s.map (string_case char_is_signed)).flatten

/-- A run of bytes between double quotes. -/
def quoted (char_is_signed : Bool) (s : List Byte) : List Char :=
  '"' :: (escaped char_is_signed s ++ ['"'])

/-- The chunk that packs the strings `ss`, each followed by its NUL. -/
def pack_strings (ss : List (List Byte)) : List Byte :=
  (ss.map (fun s => s ++ [0])).flatten

/-! ## The walk over a part of the chain -/

/-- The part of the loop of `write_propval` that handles the markers `ms`
when the marker after them sits at offset `stop`: the text written for them
and `emit_type` afterwards. It is `write_propval_loop` without the final
`fprintf`, with `stop` in place of the buffer length as the end of the last
segment. -/
def write_propval_walk (char_is_signed : Bool) (val : List Byte) (stop : Nat) :
    markertype → List marker → Option (List Char × markertype)
  | emit_type, [] => some ([], emit_type)
  | emit_type, m :: rest =>
    let e := next_emit_type emit_type m
    if next_offset stop rest = m.offset then
      (write_propval_walk char_is_signed val stop e rest).map
        (fun r => (marker_text emit_type m ++ r.1, r.2))
    else if next_offset stop rest < m.offset ∨ val.length < next_offset stop rest then
      none
    else
      match write_chunk char_is_signed e
          ((val.drop m.offset).take (next_offset stop rest - m.offset)),
        write_propval_walk char_is_signed val stop e rest with
      | some d, some r => some (marker_text emit_type m ++ d ++ r.1, r.2)
      | _, _ => none

/-! ## Typed chunks in the words of the specification -/

/-- A chunk is well-formed for its type: an integer chunk has a length that is
a multiple of the width, a STRING chunk ends in NUL. -/
def chunk_ok (t : markertype) (p : List Byte) : Bool :=
  match t with
  | MARKER_UINT8 => true
  | MARKER_UINT16 => p.length % 2 == 0
  | MARKER_UINT32 => p.length % 4 == 0
  | MARKER_UINT64 => p.length % 8 == 0
  | MARKER_STRING => p.getLast? == some 0
  | _ => false

/-- The data of a chunk as text: the tokens of its elements, or its quoted
strings. -/
def chunk_text (char_is_signed : Bool) (t : markertype) (p : List Byte) : List Char :=
  match t with
  | MARKER_UINT8 => int_tokens 1 p
  | MARKER_UINT16 => int_tokens 2 p
  | MARKER_UINT32 => int_tokens 4 p
  | MARKER_UINT64 => int_tokens 8 p
  | MARKER_STRING => '"' :: (escaped char_is_signed p.dropLast ++ ['"'])
  | _ => []

/-! ## Reading back the text of a string (used to show that escaping is injective) -/

/-- How many characters the text of the first byte of an escaped string takes,
read off its first three characters. -/
def string_code_len (char_is_signed : Bool) : List Char → Nat
  | [] => 0
  | c :: rest =>
    if c = '"' then 4
    else if c ≠ '\\' then 1
    else
      match rest with
      | [] => 2
      | e :: rest' =>
        if e ≠ 'x' then 2
        else
          match rest' with
          | [] => 4
          | h :: _ => if char_is_signed && h == 'f' then 10 else 4

/-- The byte a text of `string_case` stands for. -/
def string_decode (l : List Char) : Nat :=
  match l with
  | ['"', ',', ' ', '"'] => 0
  | ['\\', 'a'] => 7
  | ['\\', 'b'] => 8
  | ['\\', 't'] => 9
  | ['\\', 'n'] => 10
  | ['\\', 'v'] => 11
  | ['\\', 'f'] => 12
  | ['\\', 'r'] => 13
  | ['\\', '\\'] => 92
  | ['\\', '"'] => 34
  | '\\' :: 'x' :: hs => hex_value hs % 256
  | [c] => c.toNat
  | _ => 0

/-! ## The typed segments and the pieces of the source text -/

/-- Lines 211-251 of treesource.c, keeping for each marker whose `chunk_len`
is not zero the type the data `switch` sees and the segment:
`(emit_type, m->offset, chunk_len)`. -/
def write_typed_segments (len : Nat) : markertype → List marker → List (markertype × Nat × Nat)
  | _, [] => []
  | emit_type, m :: rest =>
    let e := next_emit_type emit_type m
    let chunk_len :=
      if next_offset len rest < m.offset then next_offset len rest + 2 ^ 64 - m.offset
      else next_offset len rest - m.offset
    if chunk_len = 0 then write_typed_segments len e rest
    else (e, m.offset, chunk_len) :: write_typed_segments len e rest

/-- What the two assertions of the helpers ask of a segment handed to them
under `emit_type`: a NUL at the end for `write_propval_string`, a length that
is a multiple of the width for `write_propval_int`. -/
def assert_ok (emit_type : markertype) (p : List Byte) : Bool :=
  match emit_type with
  | MARKER_UINT16 => p.length % 2 == 0
  | MARKER_UINT32 => p.length % 4 == 0
  | MARKER_UINT64 => p.length % 8 == 0
  | MARKER_STRING => p.getLast? == some 0
  | _ => p.length % 1 == 0

/-- One piece of what the loop of `write_propval` writes. -/
inductive piece
  | delim (text : List Char)
  | label (name : String)
  | data (offset len : Nat) (text : List Char)
  deriving DecidableEq, Repr

/-- The characters of a piece: a label is written as `" %s:"`. -/
def piece.text : piece → List Char
  | piece.delim t => t
  | piece.label n => ' ' :: (n.toList ++ [':'])
  | piece.data _ _ t => t

/-- The label a piece renders, if it renders one. -/
def piece.label_name : piece → Option String
  | piece.label n => some n
  | _ => none

/-- The segment a piece renders, if it renders data. -/
def piece.segment : piece → Option (Nat × Nat)
  | piece.data o n _ => some (o, n)
  | _ => none

/-- Lines 215-231 as a piece: the delimiters of a type marker, the label of a
LABEL, nothing for the other kinds. -/
def marker_piece (emit_type : markertype) (m : marker) : List piece :=
  if is_type_marker m.type then [piece.delim (marker_text emit_type m)]
  else if m.type = LABEL then [piece.label m.ref]
  else []

/-- Lines 211-252, the loop of `write_propval` with what it writes kept apart
piece by piece (the final `fprintf` left out). -/
def write_propval_pieces (char_is_signed : Bool) (val : List Byte) :
    markertype → List marker → Option (List piece)
  | _, [] => some []
  | emit_type, m :: rest =>
    let e := next_emit_type emit_type m
    if next_offset val.length rest = m.offset then
      (write_propval_pieces char_is_signed val e rest).map (marker_piece emit_type m ++ ·)
    else if next_offset val.length rest < m.offset ∨ val.length < next_offset val.length rest then
      none
    else
      (write_chunk char_is_signed e
          ((val.drop m.offset).take (next_offset val.length rest - m.offset))).bind
        (fun d => (write_propval_pieces char_is_signed val e rest).map
          (fun r => marker_piece emit_type m ++
            piece.data m.offset (next_offset val.length rest - m.offset) d :: r))

/-- The value of `emit_type` when the loop ends. -/
def final_emit_type : markertype → List marker → markertype
  | emit_type, [] => emit_type
  | emit_type, m :: rest => final_emit_type (next_emit_type emit_type m) rest

/-! ## The tree (`struct node`, `struct dt_info`) -/

/-- Modelled from the spec: `struct node` of `dtc.h`, as a pointer: `null`,
or a node with its name, labels, properties in declaration order (each with
its own label list), deletion flag, first child (`children`) and
`next_sibling`. -/
inductive node
  | null : node
  | mk (name : String) (labels : List String) (proplist : List (List String × property))
      (deleted : Bool) (children : node) (next_sibling : node) : node
  deriving DecidableEq, Repr

/-- Modelled from the spec: `struct reserve_info` of `dtc.h`. -/
structure reserve_info where
  address : Nat
  size : Nat
  labels : List String
  deriving DecidableEq, Repr

/-- Modelled from the spec: `struct dt_info` of `dtc.h`: the reservation list
and the root node. -/
structure dt_info where
  reservelist : List reserve_info
  dt : node
  deriving DecidableEq, Repr

/-! ## `write_tree_source_node` and `dt_to_source` (lines 257-304) -/

/-- `write_prefix`: `level` tab characters. -/
def write_prefix (level : Nat) : List Char := List.replicate level '\t'

/-- Modelled from the spec: the macro `for_each_label` of `dtc.h` with the
body `fprintf(f, "%s: ", l->label)`: every label of the set, in order. -/
def write_labels (labels : List String) : List Char :=
  (labels.map (fun l => l.toList ++ ": ".toList)).flatten

/-- Sequencing of two writes either of which may abort. -/
def seq_write {α : Type} (a b : Option (List α)) : Option (List α) :=
  a.bind (fun x => b.map (fun y => x ++ y))

/-- Lines 271-277: the loop over the properties (modelled from the spec: the
macro `for_each_property` of `dtc.h` visits them in declaration order). Each
is written as the prefix, its labels, its name and `write_propval`. -/
def write_properties (char_is_signed : Bool) (level : Nat) :
    List (List String × property) → Option (List Char)
  | [] => some []
  | lp :: rest =>
    seq_write
      ((write_propval char_is_signed lp.2).map
        (fun v => write_prefix (level + 1) ++ write_labels lp.1 ++ lp.2.name.toList ++ v))
      (write_properties char_is_signed level rest)

/-- Lines 263-269: the prefix, the labels, and the name (or `/`) with ` {`. -/
def write_node_open (level : Nat) (name : String) (labels : List String) : List Char :=
  write_prefix level ++ write_labels labels ++
    (if name ≠ "" then name.toList ++ " \x7b\n".toList else "/ \x7b\n".toList)

/-- Lines 282-283: the prefix and `};`. -/
def write_node_close (level : Nat) : List Char :=
  write_prefix level ++ "\x7d;\n".toList

/-- Lines 278-281 on the sibling chain that starts at `child` (modelled from
the spec: the macro `for_each_child` of `dtc.h` skips the children whose
deletion flag is set): for each child that is visited a newline and the child
written at `level` by the body of `write_tree_source_node`. -/
def write_children (char_is_signed : Bool) : node → Nat → Option (List Char)
  | node.null, _ => some []
  | node.mk name labels proplist deleted children next_sibling, level =>
    if deleted then write_children char_is_signed next_sibling level
    else
      seq_write
        (seq_write (some ('\n' :: write_node_open level name labels))
          (seq_write (write_properties char_is_signed level proplist)
            (seq_write (write_children char_is_signed children (level + 1))
              (some (write_node_close level)))))
        (write_children char_is_signed next_sibling level)

/-- `write_tree_source_node` of treesource.c on the node `tree` (`none` also
for a NULL pointer). -/
def write_tree_source_node (char_is_signed : Bool) (tree : node) (level : Nat) :
    Option (List Char) :=
  match tree with
  | node.null => none
  | node.mk name labels proplist _ children _ =>
    seq_write (some (write_node_open level name labels))
      (seq_write (write_properties char_is_signed level proplist)
        (seq_write (write_children char_is_signed children (level + 1))
          (some (write_node_close level))))

/-- The libc conversion `0x%016llx`: sixteen hexadecimal digits after `0x`. -/
def printf_016llx (v : Nat) : List Char :=
  '0' :: 'x' :: (List.replicate (16 - (Nat.toDigits 16 v).length) '0' ++ Nat.toDigits 16 v)

/-- Lines 293-301: the `/memreserve/` lines. -/
def write_reserves : List reserve_info → List Char
  | [] => []
  | re :: rest =>
    write_labels re.labels ++ "/memreserve/\t".toList ++ printf_016llx re.address ++ [' ']
      ++ printf_016llx re.size ++ ";\n".toList ++ write_reserves rest

/-- `dt_to_source` of treesource.c. -/
def dt_to_source (char_is_signed : Bool) (dti : dt_info) : Option (List Char) :=
  (write_tree_source_node char_is_signed dti.dt 0).map
    (fun t => "/dts-v1/;\n\n".toList ++ write_reserves dti.reservelist ++ t)

/-! ## The YAML emitter (yamltree.c) -/

/-- The styles of libyaml that the emitter passes. -/
inductive yaml_style
  | YAML_PLAIN_SCALAR_STYLE
  | YAML_DOUBLE_QUOTED_SCALAR_STYLE
  | YAML_FLOW_SEQUENCE_STYLE
  | YAML_ANY_SEQUENCE_STYLE
  | YAML_ANY_MAPPING_STYLE
  deriving DecidableEq, Repr

open yaml_style

/-- The events handed to `yaml_emitter_emit` of libyaml, with the arguments
of their `..._event_initialize` calls that the emitter sets (anchors are
always NULL). The emitted document is the sequence of these events; libyaml
is taken to accept them. -/
inductive yaml_event
  | stream_start
  | stream_end
  | document_start (implicit : Bool)
  | document_end (implicit : Bool)
  | sequence_start (tag : String) (implicit : Bool) (style : yaml_style)
  | sequence_end
  | mapping_start (tag : String) (implicit : Bool) (style : yaml_style)
  | mapping_end
  | scalar (tag : String) (value : List Char) (plain_implicit quoted_implicit : Bool)
      (style : yaml_style)
  deriving DecidableEq, Repr

open yaml_event

/-- The tag `YAML_STR_TAG` of libyaml. -/
def YAML_STR_TAG : String := "tag:yaml.org,2002:str"
/-- The tag `YAML_BOOL_TAG` of libyaml. -/
def YAML_BOOL_TAG : String := "tag:yaml.org,2002:bool"
/-- The tag `YAML_INT_TAG` of libyaml. -/
def YAML_INT_TAG : String := "tag:yaml.org,2002:int"
/-- The tag `YAML_SEQ_TAG` of libyaml. -/
def YAML_SEQ_TAG : String := "tag:yaml.org,2002:seq"
/-- The tag `YAML_MAP_TAG` of libyaml. -/
def YAML_MAP_TAG : String := "tag:yaml.org,2002:map"

/-- The libc `isascii` on a `char`: no bit above the low seven is set, so a
byte from 0x80 on is refused whether plain `char` is signed or not. -/
def isascii (c : Byte) : Bool := c.val < 128

/-- Lines 58-65 of yamltree.c: the tag of a width, `none` for `die`. -/
def yaml_width_tag : Nat → Option String
  | 1 => some "!u8"
  | 2 => some "!u16"
  | 8 => some "!u64"
  | 4 => some "!u32"
  | _ => none

/-- Lines 73-90: the scalar of the element at the head of `data`: the text of
`sprintf(buf, "0x%x", value)` with the big-endian value of `width` bytes. -/
def yaml_int_scalar (width : Nat) (data : List Byte) : yaml_event :=
  scalar YAML_INT_TAG ('0' :: 'x' :: Nat.toDigits 16 (be_value (data.take width))) true true
    YAML_PLAIN_SCALAR_STYLE

/-- The loop `for (; data < dataend; data += width)` of `yaml_propval_int`;
the first argument bounds the number of iterations. -/
def yaml_int_loop (width : Nat) : Nat → List Byte → List yaml_event
  | 0, _ => []
  | fuel + 1, data =>
    if 0 < data.length then
      yaml_int_scalar width data :: yaml_int_loop width fuel (data.drop width)
    else []

/-- `yaml_propval_int` of yamltree.c on the bytes `data` (`len` is their
number): a length that is not a multiple of the width turns the width into 1. -/
def yaml_propval_int (data : List Byte) (width : Nat) : Option (List yaml_event) :=
  let w := if data.length % width ≠ 0 then 1 else width
  match yaml_width_tag w with
  | none => none
  | some tag =>
    some (sequence_start tag (w == 4) YAML_FLOW_SEQUENCE_STYLE ::
      (yaml_int_loop w data.length data ++ [sequence_end]))

/-- A byte of a string scalar as a character. -/
def byte_char (b : Byte) : Char := Char.ofNat b.val

/-- `yaml_propval_string` of yamltree.c on the `len > 0` bytes `str`; `none`
when `assert(str[len-1] == '\0')` fails. -/
def yaml_propval_string (str : List Byte) : Option (List yaml_event) :=
  match str.getLast? with
  | none => none
  | some e =>
    if e.val ≠ 0 then none
    else if str.all isascii then
      some [scalar YAML_STR_TAG (str.dropLast.map byte_char) false true
        YAML_DOUBLE_QUOTED_SCALAR_STYLE]
    else yaml_propval_int str 1

/-- Lines 164-169: `emit_type` after meeting marker `m`: a LABEL leaves it,
every other kind sets it. -/
def yaml_next_emit_type (emit_type : markertype) (m : marker) : markertype :=
  if m.type = LABEL then emit_type else m.type

/-- Lines 174-193, the `switch (emit_type)` that renders one data segment. -/
def yaml_chunk (emit_type : markertype) (data : List Byte) : Option (List yaml_event) :=
  match emit_type with
  | REF_PHANDLE => yaml_propval_int data 4
  | MARKER_UINT16 => yaml_propval_int data 2
  | MARKER_UINT32 => yaml_propval_int data 4
  | MARKER_UINT64 => yaml_propval_int data 8
  | MARKER_STRING => yaml_propval_string data
  | _ => yaml_propval_int data 1

/-- Lines 160-194: `for_each_marker(m)` of `yaml_propval`; `len` ends the
segment of the last marker. `none` when a segment that is rendered does not
lie inside the buffer or the assertion of `yaml_propval_string` fails. -/
def yaml_propval_loop (val : List Byte) (len : Nat) :
    markertype → List marker → Option (List yaml_event)
  | _, [] => some []
  | emit_type, m :: rest =>
    let e := yaml_next_emit_type emit_type m
    if (next_offset len rest : Int) - (m.offset : Int) ≤ 0 then
      yaml_propval_loop val len e rest
    else if val.length < next_offset len rest then none
    else
      seq_write (yaml_chunk e ((val.drop m.offset).take (next_offset len rest - m.offset)))
        (yaml_propval_loop val len e rest)

/-- `yaml_propval` of yamltree.c (the code after the second `return` is never
reached). -/
def yaml_propval (prop : property) : Option (List yaml_event) :=
  if prop.val.len = 0 then
    some [scalar YAML_STR_TAG prop.name.toList true true YAML_PLAIN_SCALAR_STYLE,
      scalar YAML_BOOL_TAG "true".toList true false YAML_PLAIN_SCALAR_STYLE]
  else if prop.val.markers ≠ [] then
    (yaml_propval_loop prop.val.val prop.val.len MARKER_UINT8 prop.val.markers).map
      (fun evs => scalar YAML_STR_TAG prop.name.toList true true YAML_PLAIN_SCALAR_STYLE ::
        sequence_start YAML_SEQ_TAG true YAML_FLOW_SEQUENCE_STYLE :: (evs ++ [sequence_end]))
  else
    (yaml_propval_int prop.val.val 1).map
      (fun evs => scalar YAML_STR_TAG prop.name.toList true true YAML_PLAIN_SCALAR_STYLE :: evs)

/-- Lines 254-255: `yaml_propval` on every property, in declaration order. -/
def yaml_properties : List (List String × property) → Option (List yaml_event)
  | [] => some []
  | lp :: rest => seq_write (yaml_propval lp.2) (yaml_properties rest)

/-- Lines 258-265 on the sibling chain that starts at `child` (modelled from
the spec: `for_each_child` skips the children whose deletion flag is set):
for each child that is visited its name as a key and the mapping that
`yaml_tree` emits for it. -/
def yaml_children : node → Option (List yaml_event)
  | node.null => some []
  | node.mk name _ proplist deleted children next_sibling =>
    if deleted then yaml_children next_sibling
    else
      seq_write
        (seq_write
          (some [scalar YAML_STR_TAG name.toList true false YAML_PLAIN_SCALAR_STYLE,
            mapping_start YAML_MAP_TAG true YAML_ANY_MAPPING_STYLE])
          (seq_write (yaml_properties proplist)
            (seq_write (yaml_children children) (some [mapping_end]))))
        (yaml_children next_sibling)

/-- `yaml_tree` of yamltree.c on the node `tree` (`none` also for a NULL
pointer). -/
def yaml_tree (tree : node) : Option (List yaml_event) :=
  match tree with
  | node.null => none
  | node.mk _ _ proplist deleted children _ =>
    if deleted then some []
    else
      seq_write (some [mapping_start YAML_MAP_TAG true YAML_ANY_MAPPING_STYLE])
        (seq_write (yaml_properties proplist)
          (seq_write (yaml_children children) (some [mapping_end])))

/-- `dt_to_yaml` of yamltree.c. -/
def dt_to_yaml (dti : dt_info) : Option (List yaml_event) :=
  (yaml_tree dti.dt).map
    (fun t => [stream_start, document_start false,
        sequence_start YAML_SEQ_TAG true YAML_ANY_SEQUENCE_STYLE] ++ t ++
      [sequence_end, document_end false, stream_end])

/-- Example input: a cell, then two labels in front of a string at offset 4. -/
def ex_labels_between : data :=
  ⟨[0, 0, 0, 1, 0x61, 0],
   [⟨MARKER_UINT32, 0, ""⟩, ⟨LABEL, 4, "a"⟩, ⟨LABEL, 4, "b"⟩, ⟨MARKER_STRING, 4, ""⟩]⟩

/-- Example input: one cell with a label at offset 2, inside the cell. -/
def ex_label_in_cell : data :=
  ⟨[0, 0, 0, 1], [⟨MARKER_UINT32, 0, ""⟩, ⟨LABEL, 2, "l"⟩]⟩

/-! ## Removing deleted nodes -/

/-- A sibling chain without the nodes whose deletion flag is set, at every
depth below it. -/
def remove_deleted : node → node
  | node.null => node.null
  | node.mk name labels proplist deleted children next_sibling =>
    if deleted then remove_deleted next_sibling
    else node.mk name labels proplist deleted (remove_deleted children)
      (remove_deleted next_sibling)

/-- Example input: a deleted root whose only child is deleted with it. -/
def ex_deleted_root : dt_info :=
  ⟨[], node.mk "" [] [] true (node.mk "a" [] [] true node.null node.null) node.null⟩

/-! ## YAML sequences in the words of the specification -/

/-- The scalar of one integer element: `0x` and its value in hexadecimal,
plain, with the integer tag. -/
def yaml_int_event (v : Nat) : yaml_event :=
  scalar YAML_INT_TAG ('0' :: 'x' :: Nat.toDigits 16 v) true true YAML_PLAIN_SCALAR_STYLE

/-- A flow sequence with tag `tag` holding the integers `vs`. -/
def yaml_sequence (tag : String) (implicit : Bool) (vs : List Nat) : List yaml_event :=
  sequence_start tag implicit YAML_FLOW_SEQUENCE_STYLE :: (vs.map yaml_int_event ++ [sequence_end])

/-- The tag of the integers of `w` bytes. -/
def width_tag : Nat → String
  | 2 => "!u16"
  | 4 => "!u32"
  | 8 => "!u64"
  | _ => "!u8"


/-- Example input: six bytes under a UINT32 marker. -/
def ex_six_bytes_cells : data :=
  ⟨[0, 0, 0, 1, 0, 2], [⟨MARKER_UINT32, 0, ""⟩]⟩

/-- Example input: six bytes behind a phandle reference at offset 0. -/
def ex_six_bytes_phandle : data :=
  ⟨[0, 0, 0, 1, 0, 2], [⟨MARKER_UINT32, 0, ""⟩, ⟨REF_PHANDLE, 0, "/a"⟩]⟩

/-- Example input: two tabs and a NUL, without markers. -/
def ex_tabs : data := ⟨[9, 9, 0], []⟩

/-- Example input: seven tabs and a NUL, without markers. -/
def ex_tabs_eight : data := ⟨[9, 9, 9, 9, 9, 9, 9, 0], []⟩

/-- Example input: the strings `ab` and `cd`, a label in front of the second
and one at the end, no type marker. -/
def ex_labelled_strings : data :=
  ⟨[0x61, 0x62, 0, 0x63, 0x64, 0], [⟨LABEL, 3, "l"⟩, ⟨LABEL, 6, "e"⟩]⟩

/-! ## The typed segments of the YAML emitter -/

/-- Lines 160-194 of yamltree.c, keeping for each marker whose `chunk_len` is
positive the type the data `switch` sees and the segment:
`(emit_type, m->offset, chunk_len)`. -/
def yaml_typed_segments (len : Nat) : markertype → List marker → List (markertype × Nat × Nat)
  | _, [] => []
  | emit_type, m :: rest =>
    let e := yaml_next_emit_type emit_type m
    if (next_offset len rest : Int) - (m.offset : Int) ≤ 0 then yaml_typed_segments len e rest
    else (e, m.offset, next_offset len rest - m.offset) :: yaml_typed_segments len e rest

/-- The typed segments `yaml_propval` renders: none for an empty value, the
walk over the chain from `emit_type = MARKER_UINT8` when there is a marker,
else the whole buffer with width 1 (line 205). -/
def yaml_propval_typed_segments (d : data) : List (markertype × Nat × Nat) :=
  if d.len = 0 then []
  else if d.markers ≠ [] then yaml_typed_segments d.len MARKER_UINT8 d.markers
  else [(MARKER_UINT8, 0, d.len)]

/-- The type under which `yaml_propval` renders byte `i`: the type of the
segment that holds it, `none` when no segment does. -/
def yaml_byte_type (d : data) (i : Nat) : Option markertype :=
  ((yaml_propval_typed_segments d).find? (fun s => s.2.1 ≤ i && i < s.2.1 + s.2.2)).map
    (fun s => s.1)

/-- The events of a list of typed segments: each rendered by the data
`switch` of `yaml_propval`, in order. -/
def yaml_render_segments (val : List Byte) :
    List (markertype × Nat × Nat) → Option (List yaml_event)
  | [] => some []
  | s :: rest => seq_write (yaml_chunk s.1 (segment_bytes val s.2)) (yaml_render_segments val rest)

/-! ## The type in force in the words of the specification -/

/-- The type in force at byte `i`: the type of the last marker of the chain,
LABEL markers apart, whose offset is at most `i`; UINT8 when there is none. -/
def type_in_force (ms : List marker) (i : Nat) : markertype :=
  match (ms.filter (fun m => m.type != LABEL && decide (m.offset ≤ i))).getLast? with
  | some m => m.type
  | none => MARKER_UINT8

/-- The value without its LABEL markers. -/
def remove_labels (d : data) : data :=
  ⟨d.val, d.markers.filter (fun m => m.type != LABEL)⟩

/-- Example input: a path reference, a STRING marker and a REF_PATH marker at
offset 0. -/
def ex_path_string : data :=
  ⟨[0x61, 0x62, 0x63, 0], [⟨MARKER_STRING, 0, ""⟩, ⟨REF_PATH, 0, "/a"⟩]⟩

/-- Example input: the same bytes under the STRING marker alone. -/
def ex_string_only : data :=
  ⟨[0x61, 0x62, 0x63, 0], [⟨MARKER_STRING, 0, ""⟩]⟩

/-- Example input: four bytes with a label at offset 2 as their only marker. -/
def ex_label_gap : data := ⟨[1, 2, 3, 4], [⟨LABEL, 2, "l"⟩]⟩

/-- Example input: a labelled string followed by a labelled cell. -/
def ex_labelled_chunks : data :=
  ⟨[0x61, 0x62, 0x63, 0, 0, 0, 0, 1],
   [⟨MARKER_STRING, 0, ""⟩, ⟨LABEL, 0, "l"⟩, ⟨LABEL, 4, "m"⟩, ⟨MARKER_UINT32, 4, ""⟩]⟩

/-! ## Well-formed event streams -/

/-- What a reader of an event stream is inside of: the stream (outside a
document), a document that has shown `nodes` root nodes so far, a sequence, a
mapping where a key is due, a mapping where the value of the last key is due,
or behind the end of the stream. -/
inductive yaml_frame
  | in_stream
  | in_document (nodes : Nat)
  | in_sequence
  | in_mapping_key
  | in_mapping_value
  | at_end
  deriving DecidableEq, Repr

open yaml_frame

/-- The open frames after a node has been completed inside the innermost one:
a document counts it, a sequence takes any number of nodes, a mapping takes a
key and then its value in turn. -/
def yaml_node_done : List yaml_frame → Option (List yaml_frame)
  | in_document n :: s => some (in_document (n + 1) :: s)
  | in_sequence :: s => some (in_sequence :: s)
  | in_mapping_key :: s => some (in_mapping_value :: s)
  | in_mapping_value :: s => some (in_mapping_key :: s)
  | _ => none

/-- A sequence or a mapping may start here: as a root node, as an item of a
sequence, or as the value of a key; a key itself is a scalar. -/
def yaml_node_may_start : List yaml_frame → Bool
  | in_document _ :: _ => true
  | in_sequence :: _ => true
  | in_mapping_value :: _ => true
  | _ => false

/-- The open frames after one more event, innermost first; `none` when the
event is not allowed there. A sequence ends only inside a sequence, a mapping
ends only where a key is due (each key has had its value), a document ends
after exactly one root node. -/
def yaml_step (st : List yaml_frame) (ev : yaml_event) : Option (List yaml_frame) :=
  match ev with
  | stream_start => if st = [] then some [in_stream] else none
  | stream_end => if st = [in_stream] then some [at_end] else none
  | document_start _ => if st = [in_stream] then some [in_document 0, in_stream] else none
  | document_end _ =>
    match st with
    | in_document 1 :: s => some s
    | _ => none
  | sequence_start _ _ _ => if yaml_node_may_start st then some (in_sequence :: st) else none
  | sequence_end =>
    match st with
    | in_sequence :: s => yaml_node_done s
    | _ => none
  | mapping_start _ _ _ => if yaml_node_may_start st then some (in_mapping_key :: st) else none
  | mapping_end =>
    match st with
    | in_mapping_key :: s => yaml_node_done s
    | _ => none
  | scalar _ _ _ _ _ => yaml_node_done st

/-- The open frames after a run of events. -/
def yaml_run : List yaml_frame → List yaml_event → Option (List yaml_frame)
  | st, [] => some st
  | st, ev :: rest => (yaml_step st ev).bind (fun st' => yaml_run st' rest)

/-- A well-formed event stream: read from the start, every event is allowed
where it stands and the stream is closed at the end. -/
def yaml_well_formed (evs : List yaml_event) : Bool :=
  yaml_run [] evs == some [at_end]

/-- The number of complete nodes a run of events consists of, `none` when it
is not a run of complete nodes. -/
def yaml_nodes (evs : List yaml_event) : Option Nat :=
  match yaml_run [in_document 0] evs with
  | some [in_document n] => some n
  | _ => none

/-! ## Trees that `dt_to_yaml` renders, in the words of the data model -/

/-- The value can be rendered by `yaml_propval`: its chain is ordered inside
the buffer and every segment rendered as a string ends in NUL. -/
def yaml_renderable (d : data) : Bool :=
  decide (markers_ordered d.len d.markers) &&
    (yaml_propval_typed_segments d).all
      (fun s => s.1 != MARKER_STRING || (segment_bytes d.val s.2).getLast? == some 0)

/-- Every property of every node that is not deleted, along a sibling chain
and below it, can be rendered. -/
def yaml_children_renderable : node → Bool
  | node.null => true
  | node.mk _ _ proplist deleted children next_sibling =>
    (deleted || (proplist.all (fun lp => yaml_renderable lp.2.val) &&
        yaml_children_renderable children)) &&
      yaml_children_renderable next_sibling

/-- The tree is there and, unless it is deleted, every property of every node
that is not deleted can be rendered. -/
def yaml_tree_renderable : node → Bool
  | node.null => false
  | node.mk _ _ proplist deleted children _ =>
    deleted || (proplist.all (fun lp => yaml_renderable lp.2.val) &&
      yaml_children_renderable children)

/-- Example input: a root with a string, a boolean and an untyped property,
and two children, the second of them deleted. -/
def ex_small_tree : dt_info :=
  ⟨[], node.mk "" []
    [([], ⟨"compatible", ⟨[0x61, 0], [⟨MARKER_STRING, 0, ""⟩]⟩⟩), ([], ⟨"ok", ⟨[], []⟩⟩),
      ([], ⟨"raw", ⟨[1, 2], []⟩⟩)]
    false
    (node.mk "cpu" [] [([], ⟨"reg", ⟨[0, 0, 0, 1], [⟨MARKER_UINT32, 0, ""⟩]⟩⟩)] false node.null
      (node.mk "gone" [] [] true node.null node.null))
    node.null⟩

/-- The events of `dt_to_yaml` on `ex_small_tree`. -/
def ex_small_tree_events : List yaml_event :=
  [stream_start, document_start false,
    sequence_start YAML_SEQ_TAG true YAML_ANY_SEQUENCE_STYLE,
    mapping_start YAML_MAP_TAG true YAML_ANY_MAPPING_STYLE,
    scalar YAML_STR_TAG "compatible".toList true true YAML_PLAIN_SCALAR_STYLE,
    sequence_start YAML_SEQ_TAG true YAML_FLOW_SEQUENCE_STYLE,
    scalar YAML_STR_TAG "a".toList false true YAML_DOUBLE_QUOTED_SCALAR_STYLE,
    sequence_end,
    scalar YAML_STR_TAG "ok".toList true true YAML_PLAIN_SCALAR_STYLE,
    scalar YAML_BOOL_TAG "true".toList true false YAML_PLAIN_SCALAR_STYLE,
    scalar YAML_STR_TAG "raw".toList true true YAML_PLAIN_SCALAR_STYLE,
    sequence_start "!u8" false YAML_FLOW_SEQUENCE_STYLE,
    scalar YAML_INT_TAG "0x1".toList true true YAML_PLAIN_SCALAR_STYLE,
    scalar YAML_INT_TAG "0x2".toList true true YAML_PLAIN_SCALAR_STYLE,
    sequence_end,
    scalar YAML_STR_TAG "cpu".toList true false YAML_PLAIN_SCALAR_STYLE,
    mapping_start YAML_MAP_TAG true YAML_ANY_MAPPING_STYLE,
    scalar YAML_STR_TAG "reg".toList true true YAML_PLAIN_SCALAR_STYLE,
    sequence_start YAML_SEQ_TAG true YAML_FLOW_SEQUENCE_STYLE,
    sequence_start "!u32" true YAML_FLOW_SEQUENCE_STYLE,
    scalar YAML_INT_TAG "0x1".toList true true YAML_PLAIN_SCALAR_STYLE,
    sequence_end,
    sequence_end,
    mapping_end,
    mapping_end,
    sequence_end, document_end false, stream_end]

/-- Example input: a root whose property `p` is the single byte `a` under a
STRING marker, with no NUL at its end. -/
def ex_unterminated : dt_info :=
  ⟨[], node.mk "" [] [([], ⟨"p", ⟨[0x61], [⟨MARKER_STRING, 0, ""⟩]⟩⟩)] false node.null
    node.null⟩

/-- The events handed to libyaml on `ex_unterminated` before the assertion of
`yaml_propval_string` fails: those of lines 280, 284 and 288 of `dt_to_yaml`,
of line 251 of `yaml_tree`, and of lines 138 and 157 of `yaml_propval`
(the assertion is line 105). -/
def ex_unterminated_emitted : List yaml_event :=
  [stream_start, document_start false,
    sequence_start YAML_SEQ_TAG true YAML_ANY_SEQUENCE_STYLE,
    mapping_start YAML_MAP_TAG true YAML_ANY_MAPPING_STYLE,
    scalar YAML_STR_TAG "p".toList true true YAML_PLAIN_SCALAR_STYLE,
    sequence_start YAML_SEQ_TAG true YAML_FLOW_SEQUENCE_STYLE]

/-! # Theorems -/

/-! ## The type guess (C1) -/

theorem foldl_count_eq {α : Type} (P : α → Bool) (p : List α) (k : Nat) :
    p.foldl (fun n c => if P c then n + 1 else n) k = k + (p.filter P).length := by
  induction p generalizing k with
  | nil => simp
  | cons x xs ih =>
    simp only [List.foldl_cons, List.filter_cons]
    rw [ih]
    by_cases h : P x <;> simp [h]; omega

theorem count_notstring_eq (p : List Byte) :
    count_notstring p = (p.filter (fun c => !isstring c)).length := by
  unfold count_notstring
  rw [foldl_count_eq (fun c => !isstring c) p 0]; simp

theorem count_nul_eq (p : List Byte) :
    count_nul p = (p.filter (fun c => c.val == 0)).length := by
  unfold count_nul
  rw [foldl_count_eq (fun c => c.val == 0) p 0]; simp

theorem count_notstring_zero (p : List Byte) :
    count_notstring p = 0 ↔ ∀ b ∈ p, isstring b = true := by
  rw [count_notstring_eq]
  simp [List.filter_eq_nil_iff]

theorem leading_chunk_len_eq (len : Nat) (ms : List marker) :
    leading_chunk_len len ms =
      match ms.find? (fun m => !is_annot_kind m.type) with
      | some m => m.offset
      | none => len := by
  induction ms with
  | nil => simp [leading_chunk_len, next_type_marker]
  | cons m rest ih =>
    by_cases h : is_annot_kind m.type
    · simpa [leading_chunk_len, next_type_marker, h, List.find?_cons] using ih
    · simp [leading_chunk_len, next_type_marker, h, List.find?_cons]

/-- The label counters under the ordering invariant. -/
theorem label_counts_zero (val : List Byte) (c : Nat) (ms : List marker)
    (hs : ms.Pairwise (fun a b => a.offset ≤ b.offset)) (acc : Nat × Nat) :
    ((label_counts val c ms acc).1 = 0 ↔ acc.1 = 0 ∧ ∀ m ∈ ms, m.type = LABEL → m.offset < c →
        ¬ (m.offset > 0 ∧ (val.getD (m.offset - 1) 0).val ≠ 0)) ∧
    ((label_counts val c ms acc).2 = 0 ↔ acc.2 = 0 ∧ ∀ m ∈ ms, m.type = LABEL → m.offset < c →
        ¬ (m.offset % 4 ≠ 0)) := by
  induction ms generalizing acc with
  | nil => simp [label_counts]
  | cons m rest ih =>
    rw [List.pairwise_cons] at hs
    unfold label_counts
    by_cases ht : m.type = LABEL
    · rw [if_pos ht]
      by_cases hc : m.offset ≥ c
      · rw [if_pos hc]
        have hrest : ∀ x ∈ rest, ¬ (x.offset < c) := fun x hx => by
          have := hs.1 x hx; omega
        have hm : ¬ (m.offset < c) := by omega
        constructor
        · constructor
          · intro h; refine ⟨h, ?_⟩
            intro x hx _ hlt
            rcases List.mem_cons.1 hx with rfl | hx
            · exact absurd hlt hm
            · exact absurd hlt (hrest x hx)
          · exact fun h => h.1
        · constructor
          · intro h; refine ⟨h, ?_⟩
            intro x hx _ hlt
            rcases List.mem_cons.1 hx with rfl | hx
            · exact absurd hlt hm
            · exact absurd hlt (hrest x hx)
          · exact fun h => h.1
      · rw [if_neg hc]
        have hm : m.offset < c := by omega
        have ih1 := (ih hs.2 (if m.offset > 0 ∧ (val.getD (m.offset - 1) 0).val ≠ 0
          then acc.1 + 1 else acc.1, if m.offset % 4 ≠ 0 then acc.2 + 1 else acc.2))
        constructor
        · rw [ih1.1]
          constructor
          · rintro ⟨h1, h2⟩
            by_cases hx : m.offset > 0 ∧ (val.getD (m.offset - 1) 0).val ≠ 0
            · rw [if_pos hx] at h1; exact absurd h1 (Nat.succ_ne_zero _)
            · rw [if_neg hx] at h1
              refine ⟨h1, ?_⟩
              intro x hx' hxt hxc
              rcases List.mem_cons.1 hx' with rfl | hx'
              · exact hx
              · exact h2 x hx' hxt hxc
          · rintro ⟨h1, h2⟩
            have hx := h2 m (List.mem_cons_self _ _) ht hm
            refine ⟨?_, fun x hx' => h2 x (List.mem_cons_of_mem _ hx')⟩
            show (if m.offset > 0 ∧ (val.getD (m.offset - 1) 0).val ≠ 0
              then acc.1 + 1 else acc.1) = 0
            rw [if_neg hx]; exact h1
        · rw [ih1.2]
          constructor
          · rintro ⟨h1, h2⟩
            by_cases hx : m.offset % 4 ≠ 0
            · rw [if_pos hx] at h1; exact absurd h1 (Nat.succ_ne_zero _)
            · rw [if_neg hx] at h1
              refine ⟨h1, ?_⟩
              intro x hx' hxt hxc
              rcases List.mem_cons.1 hx' with rfl | hx'
              · exact hx
              · exact h2 x hx' hxt hxc
          · rintro ⟨h1, h2⟩
            have hx := h2 m (List.mem_cons_self _ _) ht hm
            refine ⟨?_, fun x hx' => h2 x (List.mem_cons_of_mem _ hx')⟩
            show (if m.offset % 4 ≠ 0 then acc.2 + 1 else acc.2) = 0
            rw [if_neg hx]; exact h1
    · rw [if_neg ht]
      have ih1 := ih hs.2 acc
      constructor
      · rw [ih1.1]
        constructor
        · rintro ⟨h1, h2⟩
          refine ⟨h1, ?_⟩
          intro x hx' hxt hxc
          rcases List.mem_cons.1 hx' with rfl | hx'
          · exact absurd hxt ht
          · exact h2 x hx' hxt hxc
        · rintro ⟨h1, h2⟩
          exact ⟨h1, fun x hx' => h2 x (List.mem_cons_of_mem _ hx')⟩
      · rw [ih1.2]
        constructor
        · rintro ⟨h1, h2⟩
          refine ⟨h1, ?_⟩
          intro x hx' hxt hxc
          rcases List.mem_cons.1 hx' with rfl | hx'
          · exact absurd hxt ht
          · exact h2 x hx' hxt hxc
        · rintro ⟨h1, h2⟩
          exact ⟨h1, fun x hx' => h2 x (List.mem_cons_of_mem _ hx')⟩

set_option maxRecDepth 100000 in
theorem isstring_iff (b : Byte) :
    isstring b = true ↔ (isprint b = true ∨ b = 0 ∨ b.val ∈ [7, 8, 9, 10, 11, 12, 13]) := by
  revert b; decide

theorem countP_nul_add (p : List Byte) :
    p.countP (fun b => b == 0) + p.countP (fun b => b != 0) = p.length := by
  induction p with
  | nil => rfl
  | cons x xs ih =>
    simp only [bne] at ih ⊢
    cases h : (x == 0) <;> simp [List.countP_cons, h] <;> omega

theorem count_nul_countP (p : List Byte) : count_nul p = p.countP (fun b => b == 0) := by
  rw [count_nul_eq, List.countP_eq_length_filter]
  congr 1
  apply List.filter_congr
  intro b _
  by_cases h : b = 0
  · simp [h]
  · have : ¬ b.val = 0 := fun hv => h (Fin.ext hv)
    simp [h, this]

theorem first_type_offset_bounds (d : data) (hne : d.val ≠ [])
    (hord : markers_ordered d.len d.markers)
    (h0 : ∀ m ∈ d.markers, is_annot_kind m.type = false → m.offset ≠ 0) :
    first_type_offset d ≠ 0 ∧ first_type_offset d ≤ d.len := by
  unfold first_type_offset
  cases hf : d.markers.find? (fun m => !is_annot_kind m.type) with
  | none =>
    simp only
    refine ⟨?_, le_refl _⟩
    simpa [data.len] using hne
  | some m =>
    simp only
    have hm := List.mem_of_find?_eq_some hf
    have hp := List.find?_some hf
    simp at hp
    exact ⟨h0 m hm hp, hord.2 m hm⟩

/-- C1: for a non-empty buffer whose ordered chain has no type marker at
offset 0, `write_propval` puts a dummy marker in front of the chain whose type
is STRING iff the leading chunk `[0, c)` qualifies as a string, else UINT32
iff it qualifies as cells, else UINT8. -/
theorem guess_type_rule (d : data) (hne : d.val ≠ [])
    (hord : markers_ordered d.len d.markers)
    (h0 : ∀ m ∈ d.markers, is_annot_kind m.type = false → m.offset ≠ 0) :
    write_propval_chain d = some (marker.mk (guess_type d.val d.markers (first_type_offset d)) 0 ""
        :: d.markers) ∧
      (guess_type d.val d.markers (first_type_offset d) = MARKER_STRING ↔
        leading_is_string d (first_type_offset d)) ∧
      (guess_type d.val d.markers (first_type_offset d) = MARKER_UINT32 ↔
        ¬ leading_is_string d (first_type_offset d) ∧ leading_is_cells d (first_type_offset d)) ∧
      (guess_type d.val d.markers (first_type_offset d) = MARKER_UINT8 ↔
        ¬ leading_is_string d (first_type_offset d) ∧ ¬ leading_is_cells d (first_type_offset d)) := by
  obtain ⟨hc0, hcl⟩ := first_type_offset_bounds d hne hord h0
  have hc : leading_chunk_len d.len d.markers = first_type_offset d :=
    leading_chunk_len_eq d.len d.markers
  generalize first_type_offset d = c at *
  have hlc := label_counts_zero d.val c d.markers hord.1 (0, 0)
  have hlen : c - 1 < d.val.length := by unfold data.len at hcl; omega
  -- the string test of the code against the spec's wording
  have hS : ((d.val.getD (c - 1) 0).val = 0 ∧ count_notstring (d.val.take c) = 0 ∧
      count_nul (d.val.take c) < c - count_nul (d.val.take c) ∧
      (label_counts d.val c d.markers (0, 0)).1 = 0) ↔ leading_is_string d c := by
    unfold leading_is_string
    have e1 : (d.val.getD (c - 1) 0).val = 0 ↔ d.val[c - 1]? = some 0 := by
      rw [List.getD_eq_getElem?_getD, List.getElem?_eq_getElem hlen]
      simp [Fin.ext_iff]
    have e2 : count_notstring (d.val.take c) = 0 ↔
        ∀ b ∈ d.val.take c, isprint b = true ∨ b = 0 ∨ b.val ∈ [7, 8, 9, 10, 11, 12, 13] := by
      rw [count_notstring_zero]
      exact forall₂_congr (fun b _ => isstring_iff b)
    have htl : (d.val.take c).length = c := by
      rw [List.length_take]; unfold data.len at hcl; omega
    have e3 : count_nul (d.val.take c) < c - count_nul (d.val.take c) ↔
        (d.val.take c).countP (fun b => b == 0) < (d.val.take c).countP (fun b => b != 0) := by
      rw [count_nul_countP]
      have := countP_nul_add (d.val.take c)
      omega
    have e4 : (label_counts d.val c d.markers (0, 0)).1 = 0 ↔
        ∀ m ∈ d.markers, m.type = LABEL → 0 < m.offset → m.offset < c →
          d.val[m.offset - 1]? = some 0 := by
      rw [hlc.1]
      constructor
      · rintro ⟨_, h⟩ m hm ht hpos hlt
        have := h m hm ht hlt
        have hb : m.offset - 1 < d.val.length := by omega
        rw [List.getD_eq_getElem?_getD, List.getElem?_eq_getElem hb] at this
        rw [List.getElem?_eq_getElem hb]
        simp only [Option.getD_some, gt_iff_lt, ne_eq, not_and, not_not] at this
        have := this hpos
        simp [Fin.ext_iff, this]
      · intro h
        refine ⟨rfl, ?_⟩
        intro m hm ht hlt
        rintro ⟨hpos, hne'⟩
        have := h m hm ht hpos hlt
        have hb : m.offset - 1 < d.val.length := by omega
        rw [List.getD_eq_getElem?_getD, this] at hne'
        simp at hne'
    rw [e1, e2, e3, e4]
  have hU : (c % 4 = 0 ∧ (label_counts d.val c d.markers (0, 0)).2 = 0) ↔
      leading_is_cells d c := by
    unfold leading_is_cells
    rw [hlc.2]
    simp
  refine ⟨?_, ?_⟩
  · unfold write_propval_chain
    simp only [hc]
    rw [if_neg hc0, if_neg (by omega)]
  · unfold guess_type
    simp only
    by_cases h1 : leading_is_string d c
    · rw [if_pos (hS.2 h1)]
      simp [h1]
    · rw [if_neg (fun h => h1 (hS.1 h))]
      by_cases h2 : leading_is_cells d c
      · rw [if_pos (hU.2 h2)]
        simp [h1, h2]
      · rw [if_neg (fun h => h2 (hU.1 h))]
        simp [h1, h2]


theorem guess_type_rule_witness :
    write_propval_chain ⟨[0x61, 0x62, 0x63, 0, 1, 2, 3, 4],
          [⟨LABEL, 4, "l"⟩, ⟨MARKER_UINT8, 4, ""⟩]⟩
        = some (marker.mk (guess_type [0x61, 0x62, 0x63, 0, 1, 2, 3, 4]
              [⟨LABEL, 4, "l"⟩, ⟨MARKER_UINT8, 4, ""⟩] 4) 0 "" ::
            [⟨LABEL, 4, "l"⟩, ⟨MARKER_UINT8, 4, ""⟩]) ∧
      (guess_type [0x61, 0x62, 0x63, 0, 1, 2, 3, 4]
          [⟨LABEL, 4, "l"⟩, ⟨MARKER_UINT8, 4, ""⟩] 4 = MARKER_STRING ↔
        leading_is_string ⟨[0x61, 0x62, 0x63, 0, 1, 2, 3, 4],
          [⟨LABEL, 4, "l"⟩, ⟨MARKER_UINT8, 4, ""⟩]⟩ 4) ∧
      (guess_type [0x61, 0x62, 0x63, 0, 1, 2, 3, 4]
          [⟨LABEL, 4, "l"⟩, ⟨MARKER_UINT8, 4, ""⟩] 4 = MARKER_UINT32 ↔
        ¬ leading_is_string ⟨[0x61, 0x62, 0x63, 0, 1, 2, 3, 4],
          [⟨LABEL, 4, "l"⟩, ⟨MARKER_UINT8, 4, ""⟩]⟩ 4 ∧
        leading_is_cells ⟨[0x61, 0x62, 0x63, 0, 1, 2, 3, 4],
          [⟨LABEL, 4, "l"⟩, ⟨MARKER_UINT8, 4, ""⟩]⟩ 4) ∧
      (guess_type [0x61, 0x62, 0x63, 0, 1, 2, 3, 4]
          [⟨LABEL, 4, "l"⟩, ⟨MARKER_UINT8, 4, ""⟩] 4 = MARKER_UINT8 ↔
        ¬ leading_is_string ⟨[0x61, 0x62, 0x63, 0, 1, 2, 3, 4],
          [⟨LABEL, 4, "l"⟩, ⟨MARKER_UINT8, 4, ""⟩]⟩ 4 ∧
        ¬ leading_is_cells ⟨[0x61, 0x62, 0x63, 0, 1, 2, 3, 4],
          [⟨LABEL, 4, "l"⟩, ⟨MARKER_UINT8, 4, ""⟩]⟩ 4) :=
  guess_type_rule ⟨[0x61, 0x62, 0x63, 0, 1, 2, 3, 4],
    [⟨LABEL, 4, "l"⟩, ⟨MARKER_UINT8, 4, ""⟩]⟩ (by decide) (by decide) (by decide)

/-! ## Coverage of the buffer by the rendered segments (C2, C3) -/

theorem next_offset_ge (len : Nat) (m : marker) (rest : List marker)
    (hord : markers_ordered len (m :: rest)) : m.offset ≤ next_offset len rest := by
  cases rest with
  | nil => exact hord.2 m (List.mem_cons_self _ _)
  | cons n r =>
    have := (List.pairwise_cons.1 hord.1).1 n (List.mem_cons_self _ _)
    simpa [next_offset] using this

theorem markers_ordered_tail (len : Nat) (m : marker) (rest : List marker)
    (hord : markers_ordered len (m :: rest)) : markers_ordered len rest :=
  ⟨(List.pairwise_cons.1 hord.1).2, fun x hx => hord.2 x (List.mem_cons_of_mem _ hx)⟩

/-- The walk of `write_propval` over an ordered chain tiles the bytes from the
offset of its first marker to the end of the buffer. -/
theorem write_segments_loop_tiles (len : Nat) (m : marker) (rest : List marker)
    (hord : markers_ordered len (m :: rest)) :
    tiles m.offset len (write_segments_loop len (m :: rest)) := by
  induction rest generalizing m with
  | nil =>
    have hle : m.offset ≤ len := hord.2 m (List.mem_cons_self _ _)
    unfold write_segments_loop
    simp only [next_offset]
    rw [if_neg (show ¬ len < m.offset by omega)]
    by_cases h : len - m.offset = 0
    · rw [if_pos h]; simp only [write_segments_loop, tiles]; omega
    · rw [if_neg h]
      refine ⟨rfl, by omega, ?_⟩
      show m.offset + (len - m.offset) = len
      omega
  | cons n r ih =>
    have hle := next_offset_ge len m (n :: r) hord
    have ih' := ih n (markers_ordered_tail len m (n :: r) hord)
    simp only [next_offset] at hle
    rw [write_segments_loop]
    simp only [next_offset]
    rw [if_neg (show ¬ n.offset < m.offset by omega)]
    by_cases h : n.offset - m.offset = 0
    · rw [if_pos h]
      have : m.offset = n.offset := by omega
      rw [this]; exact ih'
    · rw [if_neg h]
      refine ⟨rfl, by omega, ?_⟩
      have : m.offset + (n.offset - m.offset) = n.offset := by omega
      simp only [this]; exact ih'

theorem tiles_pairwise (a b : Nat) (segs : List (Nat × Nat)) (h : tiles a b segs) :
    (∀ s ∈ segs, a ≤ s.1 ∧ 0 < s.2 ∧ s.1 + s.2 ≤ b) ∧
      segs.Pairwise (fun s t => s.1 + s.2 ≤ t.1) := by
  induction segs generalizing a with
  | nil => simp
  | cons s rest ih =>
    obtain ⟨h1, h2, h3⟩ := h
    obtain ⟨ih1, ih2⟩ := ih (a + s.2) h3
    refine ⟨?_, ?_⟩
    · intro x hx
      rcases List.mem_cons.1 hx with rfl | hx
      · refine ⟨by omega, h2, ?_⟩
        cases rest with
        | nil => simp only [tiles] at h3; omega
        | cons t r =>
          have := ih1 t (List.mem_cons_self _ _)
          omega
      · have := ih1 x hx; omega
    · rw [List.pairwise_cons]
      refine ⟨fun t ht => ?_, ih2⟩
      have := ih1 t ht; omega

theorem tiles_join (val : List Byte) (a b : Nat) (segs : List (Nat × Nat))
    (h : tiles a b segs) (hb : b ≤ val.length) :
    (segs.map (segment_bytes val)).flatten = (val.drop a).take (b - a) := by
  induction segs generalizing a with
  | nil => simp only [tiles] at h; subst h; simp
  | cons s rest ih =>
    obtain ⟨h1, h2, h3⟩ := h
    have hb' := (tiles_pairwise _ _ _ h3).1
    have hle : a + s.2 ≤ b := by
      cases rest with
      | nil => simp only [tiles] at h3; omega
      | cons t r =>
        have := hb' t (List.mem_cons_self _ _)
        omega
    rw [List.map_cons, List.flatten_cons, ih (a + s.2) h3]
    unfold segment_bytes
    rw [h1]
    have e : b - a = s.2 + (b - (a + s.2)) := by omega
    rw [e, List.take_add, List.drop_drop]

/-- The chain walked by `write_propval`: the chain itself when it starts at
offset 0 with a type marker there, else the chain behind a dummy marker. -/
theorem write_propval_chain_cases (d : data) (hne : d.val ≠ [])
    (hord : markers_ordered d.len d.markers) :
    (write_propval_chain d = some d.markers ∧
        ∃ m rest, d.markers = m :: rest ∧ m.offset = 0) ∨
      (write_propval_chain d =
        some (marker.mk (guess_type d.val d.markers (leading_chunk_len d.len d.markers)) 0 ""
          :: d.markers)) := by
  have hlen : d.len ≠ 0 := by simpa [data.len] using hne
  unfold write_propval_chain
  simp only
  by_cases hc : leading_chunk_len d.len d.markers = 0
  · left
    rw [if_pos hc]
    refine ⟨rfl, ?_⟩
    rw [leading_chunk_len_eq] at hc
    cases hf : d.markers.find? (fun m => !is_annot_kind m.type) with
    | none => rw [hf] at hc; exact absurd hc hlen
    | some n =>
      rw [hf] at hc
      simp only at hc
      have hn := List.mem_of_find?_eq_some hf
      cases hm : d.markers with
      | nil => rw [hm] at hn; cases hn
      | cons m rest =>
        refine ⟨m, rest, rfl, ?_⟩
        rw [hm] at hn
        have hp := hord.1
        rw [hm, List.pairwise_cons] at hp
        rcases List.mem_cons.1 hn with rfl | hn
        · exact hc
        · have := hp.1 n hn; omega
  · right
    rw [if_neg hc]
    have hle : leading_chunk_len d.len d.markers ≤ d.len := by
      rw [leading_chunk_len_eq]
      cases hf : d.markers.find? (fun m => !is_annot_kind m.type) with
      | none => exact le_refl _
      | some n => exact hord.2 n (List.mem_of_find?_eq_some hf)
    rw [if_neg (show ¬ d.len < leading_chunk_len d.len d.markers by omega)]

theorem markers_ordered_dummy (len : Nat) (ms : List marker) (t : markertype) (r : String)
    (hord : markers_ordered len ms) : markers_ordered len (marker.mk t 0 r :: ms) := by
  refine ⟨List.pairwise_cons.2 ⟨fun x _ => Nat.zero_le _, hord.1⟩, ?_⟩
  intro x hx
  rcases List.mem_cons.1 hx with rfl | hx
  · exact Nat.zero_le _
  · exact hord.2 x hx

/-- The segments of `write_propval` on a non-empty buffer with an ordered
chain tile the buffer. -/
theorem write_propval_segments_tile (d : data) (hne : d.val ≠ [])
    (hord : markers_ordered d.len d.markers) :
    ∃ segs, write_propval_segments d = some segs ∧ tiles 0 d.len segs := by
  have hlen : d.len ≠ 0 := by simpa [data.len] using hne
  have key : ∃ m rest, write_propval_chain d = some (m :: rest) ∧ m.offset = 0 ∧
      markers_ordered d.len (m :: rest) := by
    rcases write_propval_chain_cases d hne hord with ⟨h, m, rest, hm, h0⟩ | h
    · exact ⟨m, rest, by rw [h, hm], h0, by rw [← hm]; exact hord⟩
    · exact ⟨_, _, h, rfl, markers_ordered_dummy _ _ _ _ hord⟩
  obtain ⟨m, rest, hch, h0, ho⟩ := key
  have ht := write_segments_loop_tiles d.len m rest ho
  rw [h0] at ht
  refine ⟨write_segments_loop d.len (m :: rest), ?_, ht⟩
  unfold write_propval_segments
  rw [if_neg hlen, hch]; rfl

/-- C2: for a non-empty buffer of length `n` and an ordered chain, the data
segments `write_propval` renders tile `[0, n)`: they start at 0, each is
non-empty and starts where the one before ends, the last ends at `n`; so they
are pairwise disjoint and in increasing order, and the concatenation of their
bytes is the buffer. -/
theorem write_propval_segments_cover (d : data) (hne : d.val ≠ [])
    (hord : markers_ordered d.len d.markers) :
    ∃ segs, write_propval_segments d = some segs ∧
      tiles 0 d.len segs ∧
      segs.Pairwise (fun s t => s.1 + s.2 ≤ t.1) ∧
      (segs.map (segment_bytes d.val)).flatten = d.val := by
  obtain ⟨segs, hs, ht⟩ := write_propval_segments_tile d hne hord
  refine ⟨segs, hs, ht, (tiles_pairwise _ _ _ ht).2, ?_⟩
  rw [tiles_join d.val 0 d.len _ ht (le_refl _)]
  simp [data.len]

theorem yaml_segments_loop_eq (len : Nat) (ms : List marker) (hord : markers_ordered len ms) :
    yaml_segments_loop len ms = write_segments_loop len ms := by
  induction ms with
  | nil => rfl
  | cons m rest ih =>
    have hle := next_offset_ge len m rest hord
    have ih' := ih (markers_ordered_tail len m rest hord)
    rw [yaml_segments_loop, write_segments_loop, ih']
    rw [if_neg (show ¬ next_offset len rest < m.offset by omega)]
    by_cases h : next_offset len rest - m.offset = 0
    · rw [if_pos h, if_pos (by omega)]
    · rw [if_neg h, if_neg (by omega)]
      congr 2
      omega

/-- C3, amended: for a non-empty buffer and an ordered chain, the segments
`write_propval` renders are the leading gap (the bytes `[0, o)` in front of a
first marker at offset `o > 0`), which `yaml_propval` does not render,
followed by exactly the segments `yaml_propval` renders; when there is no such
gap (empty chain, or first marker at offset 0) the two sequences are equal and
the YAML segments tile `[0, length)`. -/
theorem yaml_segments_vs_source (d : data) (hne : d.val ≠ [])
    (hord : markers_ordered d.len d.markers) :
    write_propval_segments d = some (leading_gap d ++ yaml_propval_segments d) ∧
      (leading_gap d = [] → tiles 0 d.len (yaml_propval_segments d)) := by
  have hlen : d.len ≠ 0 := by simpa [data.len] using hne
  have hy : yaml_propval_segments d =
      if d.markers ≠ [] then write_segments_loop d.len d.markers else [(0, d.len)] := by
    unfold yaml_propval_segments
    rw [if_neg hlen, yaml_segments_loop_eq d.len d.markers hord]
  have hmain : write_propval_segments d = some (leading_gap d ++ yaml_propval_segments d) := by
    rw [hy]
    unfold write_propval_segments leading_gap
    rw [if_neg hlen]
    rcases write_propval_chain_cases d hne hord with ⟨h, m, rest, hm, h0⟩ | h
    · rw [h, hm]
      simp [h0]
    · rw [h]
      cases hm : d.markers with
      | nil =>
        simp only [Option.map_some', write_segments_loop, next_offset, ne_eq, not_true_eq_false,
          if_false, List.nil_append]
        rw [if_neg (show ¬ d.len < 0 by omega), if_neg (show ¬ d.len - 0 = 0 by omega)]
        rfl
      | cons m rest =>
        simp only [Option.map_some', ne_eq, reduceCtorEq, not_false_eq_true, if_true]
        rw [write_segments_loop]
        simp only [next_offset]
        rw [if_neg (show ¬ m.offset < 0 by omega)]
        by_cases h0 : m.offset = 0
        · rw [if_pos (by omega), if_pos h0]; rfl
        · rw [if_neg (by omega), if_neg h0]; rfl
  refine ⟨hmain, ?_⟩
  intro hg
  obtain ⟨segs, hs, ht⟩ := write_propval_segments_tile d hne hord
  rw [hmain, hg, List.nil_append] at hs
  rw [Option.some.inj hs]
  exact ht


theorem write_propval_segments_cover_witness :
    ∃ segs, write_propval_segments ex_cell_then_string = some segs ∧
      tiles 0 ex_cell_then_string.len segs ∧
      segs.Pairwise (fun s t => s.1 + s.2 ≤ t.1) ∧
      (segs.map (segment_bytes ex_cell_then_string.val)).flatten = ex_cell_then_string.val :=
  write_propval_segments_cover ex_cell_then_string (by decide) (by decide)

theorem yaml_segments_vs_source_witness :
    write_propval_segments ex_cell_then_string
        = some (leading_gap ex_cell_then_string ++ yaml_propval_segments ex_cell_then_string) ∧
      (leading_gap ex_cell_then_string = [] →
        tiles 0 ex_cell_then_string.len (yaml_propval_segments ex_cell_then_string)) :=
  yaml_segments_vs_source ex_cell_then_string (by decide) (by decide)

/-- C3 as stated fails: on an 8-byte buffer whose only marker is a UINT32 type
marker at offset 4 (an ordered chain), `write_propval` renders `[0, 4)` and
`[4, 8)` while `yaml_propval` renders `[4, 8)` only, which does not cover the
buffer. -/
theorem yaml_segments_counterexample :
    ex_untyped_then_cell.val ≠ [] ∧
      markers_ordered ex_untyped_then_cell.len ex_untyped_then_cell.markers ∧
      write_propval_segments ex_untyped_then_cell = some [(0, 4), (4, 4)] ∧
      yaml_propval_segments ex_untyped_then_cell = [(4, 4)] ∧
      ¬ tiles 0 ex_untyped_then_cell.len (yaml_propval_segments ex_untyped_then_cell) := by
  decide

/-! ## The `%02x` conversion -/

theorem digitChar_mem_hex (k : Nat) (hk : k < 16) : Nat.digitChar k ∈ hex_chars := by
  interval_cases k <;> decide

theorem hex_digit_value_digitChar (k : Nat) (hk : k < 16) :
    hex_digit_value (Nat.digitChar k) = k := by
  interval_cases k <;> decide

theorem toDigitsCore_append (f n : Nat) (ds : List Char) :
    Nat.toDigitsCore 16 f n ds = Nat.toDigitsCore 16 f n [] ++ ds := by
  induction f generalizing n ds with
  | zero => simp [Nat.toDigitsCore]
  | succ f ih =>
    simp only [Nat.toDigitsCore]
    by_cases h : n / 16 = 0
    · simp [h]
    · simp only [h, if_false]
      rw [ih (n / 16) (Nat.digitChar (n % 16) :: ds), ih (n / 16) [Nat.digitChar (n % 16)]]
      simp

theorem hex_value_append (xs : List Char) (c : Char) :
    hex_value (xs ++ [c]) = hex_value xs * 16 + hex_digit_value c := by
  simp [hex_value, List.foldl_append]

theorem toDigitsCore_spec (f n : Nat) (hf : n < f) :
    hex_value (Nat.toDigitsCore 16 f n []) = n ∧
      (∀ c ∈ Nat.toDigitsCore 16 f n [], c ∈ hex_chars) ∧
      Nat.toDigitsCore 16 f n [] ≠ [] ∧
      (16 ≤ n → 2 ≤ (Nat.toDigitsCore 16 f n []).length) ∧
      (0 < n → (Nat.toDigitsCore 16 f n []).head? ≠ some '0') := by
  induction f generalizing n with
  | zero => omega
  | succ f ih =>
    simp only [Nat.toDigitsCore]
    have hd : n % 16 < 16 := Nat.mod_lt _ (by decide)
    by_cases h : n / 16 = 0
    · have hn : n < 16 := by omega
      simp only [h, if_true]
      have hmod : n % 16 = n := Nat.mod_eq_of_lt hn
      rw [hmod]
      refine ⟨?_, ?_, by simp, by omega, ?_⟩
      rotate_left 2
      · intro hpos
        simp only [List.head?_cons, ne_eq, Option.some.injEq]
        interval_cases n <;> decide
      · simp [hex_value, hex_digit_value_digitChar _ hn]
      · intro c hc; simp at hc; subst hc; exact digitChar_mem_hex _ hn
    · simp only [h, if_false]
      rw [toDigitsCore_append]
      have hlt : n / 16 < f := by omega
      obtain ⟨i1, i2, i3, i4, i5⟩ := ih (n / 16) hlt
      refine ⟨?_, ?_, by simp, ?_, ?_⟩
      · rw [hex_value_append, i1, hex_digit_value_digitChar _ hd]; omega
      · intro c hc
        rcases List.mem_append.1 hc with hc | hc
        · exact i2 c hc
        · simp at hc; subst hc; exact digitChar_mem_hex _ hd
      · intro _
        have : 1 ≤ (Nat.toDigitsCore 16 f (n / 16) []).length :=
          List.length_pos.2 i3
        simp; omega
      · intro _
        have hpos : 0 < n / 16 := Nat.pos_of_ne_zero h
        have := i5 hpos
        cases hcore : Nat.toDigitsCore 16 f (n / 16) [] with
        | nil => exact absurd hcore i3
        | cons a as => rw [hcore] at this; simpa using this

/-- What `%02x` prints: lowercase hexadecimal digits denoting the value, at
least two of them, and more than two only without a leading zero. -/
theorem printf_02x_spec (v : Nat) :
    hex_value (printf_02x v) = v ∧
      (∀ c ∈ printf_02x v, c ∈ hex_chars) ∧
      2 ≤ (printf_02x v).length ∧
      ((printf_02x v).length = 2 ∨ (printf_02x v).head? ≠ some '0') := by
  obtain ⟨h1, h2, h3, h4, h5⟩ := toDigitsCore_spec (v + 1) v (Nat.lt_succ_self v)
  unfold printf_02x Nat.toDigits
  simp only
  by_cases hl : (Nat.toDigitsCore 16 (v + 1) v []).length < 2
  · rw [if_pos hl]
    have hlen : (Nat.toDigitsCore 16 (v + 1) v []).length = 1 := by
      have := List.length_pos.2 h3; omega
    refine ⟨?_, ?_, by simp [hlen], by simp [hlen]⟩
    · have : hex_value ('0' :: Nat.toDigitsCore 16 (v + 1) v [])
          = hex_value (Nat.toDigitsCore 16 (v + 1) v []) := by
        unfold hex_value
        rw [List.foldl_cons]
        have : hex_digit_value '0' = 0 := by decide
        rw [this]
      rw [this, h1]
    · intro c hc
      rcases List.mem_cons.1 hc with rfl | hc
      · decide
      · exact h2 c hc
  · rw [if_neg hl]
    refine ⟨h1, h2, by omega, ?_⟩
    by_cases hv : 0 < v
    · exact Or.inr (h5 hv)
    · have : v = 0 := by omega
      subst this
      exact absurd (by decide) hl

theorem printf_02x_inj (a b : Nat) (h : printf_02x a = printf_02x b) : a = b := by
  rw [← (printf_02x_spec a).1, ← (printf_02x_spec b).1, h]

/-- A byte prints as exactly two digits. -/
theorem printf_02x_byte (v : Nat) (hv : v < 256) : (printf_02x v).length = 2 := by
  interval_cases v <;> decide

/-! ## Integer chunks (C5) -/

theorem int_case_eq (w : Nat) (hw : w = 1 ∨ w = 2 ∨ w = 4 ∨ w = 8) (q : List Byte) :
    int_case w q = element_token w (be_value (q.take w)) := by
  rcases hw with rfl | rfl | rfl | rfl <;> simp [int_case, element_token]

theorem write_int_loop_eq (w : Nat) (hw : 0 < w) (fuel : Nat) (p : List Byte)
    (hf : p.length ≤ fuel) :
    write_int_loop w fuel p =
      ((List.range (p.length / w)).map (fun i => int_case w (p.drop (i * w)))).flatten := by
  induction fuel generalizing p with
  | zero =>
    have : p.length = 0 := by omega
    simp [write_int_loop, this]
  | succ fuel ih =>
    rw [write_int_loop]
    by_cases h : w ≤ p.length
    · rw [if_pos h, ih (p.drop w) (by rw [List.length_drop]; omega)]
      have hq : p.length / w = (p.length - w) / w + 1 := by
        rw [← Nat.sub_add_cancel h, Nat.add_div_right _ hw]; simp
      rw [hq, List.range_succ_eq_map, List.map_cons, List.flatten_cons, List.length_drop,
        List.map_map]
      simp only [Nat.zero_mul, List.drop_zero]
      congr 2
      apply List.map_congr_left
      intro i _
      simp only [Function.comp, List.drop_drop]
      congr 2
      rw [Nat.succ_mul]; omega
    · rw [if_neg h]
      have : p.length / w = 0 := Nat.div_eq_of_lt (by omega)
      simp [this]

theorem write_propval_int_eq (w : Nat) (hw : w = 1 ∨ w = 2 ∨ w = 4 ∨ w = 8) (p : List Byte)
    (hlen : p.length % w = 0) : write_propval_int p w = some (int_tokens w p) := by
  have hpos : 0 < w := by rcases hw with rfl | rfl | rfl | rfl <;> decide
  unfold write_propval_int
  rw [if_pos hlen, write_int_loop_eq w hpos _ p (le_refl _)]
  unfold int_tokens elements
  rw [List.map_map]
  congr 3
  funext i
  simp [Function.comp, int_case_eq w hw]

theorem be_value_foldl (a : Nat) (p : List Byte) :
    p.foldl (fun acc b => acc * 256 + b.val) a = a * 256 ^ p.length + be_value p := by
  induction p generalizing a with
  | nil => simp [be_value]
  | cons b p ih =>
    unfold be_value
    rw [List.foldl_cons, List.foldl_cons, ih, ih (0 * 256 + b.val), List.length_cons, pow_succ]
    ring

theorem be_value_cons (b : Byte) (p : List Byte) :
    be_value (b :: p) = b.val * 256 ^ p.length + be_value p := by
  unfold be_value
  rw [List.foldl_cons, be_value_foldl]
  simp [be_value]

theorem be_value_lt (p : List Byte) : be_value p < 256 ^ p.length := by
  induction p with
  | nil => simp [be_value]
  | cons b p ih =>
    rw [be_value_cons, List.length_cons, pow_succ]
    have hb : b.val < 256 := b.isLt
    nlinarith [Nat.pow_pos (n := p.length) (show 0 < 256 by decide)]

/-- Runs of bytes of the same length with the same big-endian value are equal. -/
theorem be_value_inj (p q : List Byte) (hl : p.length = q.length)
    (h : be_value p = be_value q) : p = q := by
  induction p generalizing q with
  | nil => cases q with
    | nil => rfl
    | cons _ _ => simp at hl
  | cons b p ih =>
    cases q with
    | nil => simp at hl
    | cons c q =>
      simp only [List.length_cons, Nat.succ.injEq, add_left_inj] at hl
      rw [be_value_cons, be_value_cons, hl] at h
      have hp := be_value_lt p
      have hq := be_value_lt q
      rw [hl] at hp
      have hpos : 0 < 256 ^ q.length := Nat.pow_pos (by decide)
      have hbc : b.val = c.val := by
        rcases Nat.lt_trichotomy b.val c.val with hlt | heq | hgt
        · exfalso
          have : (b.val + 1) * 256 ^ q.length ≤ c.val * 256 ^ q.length :=
            Nat.mul_le_mul_right _ hlt
          nlinarith
        · exact heq
        · exfalso
          have : (c.val + 1) * 256 ^ q.length ≤ b.val * 256 ^ q.length :=
            Nat.mul_le_mul_right _ hgt
          nlinarith
      rw [hbc] at h
      have hv : be_value p = be_value q := by omega
      rw [Fin.ext hbc, ih q hl hv]

theorem elements_lt (w : Nat) (p : List Byte) (v : Nat) (hv : v ∈ elements w p) :
    v < 256 ^ w := by
  unfold elements at hv
  obtain ⟨i, _, rfl⟩ := List.mem_map.1 hv
  refine lt_of_lt_of_le (be_value_lt _) ?_
  exact Nat.pow_le_pow_right (by decide) (by rw [List.length_take]; omega)

/-- A chain that starts with a marker at offset 0 that is not an annotation is
walked as it is, after `" = "`. -/
theorem write_propval_typed (sc : Bool) (name : String) (val : List Byte) (m : marker)
    (rest : List marker) (hne : val ≠ []) (hm : is_annot_kind m.type = false)
    (h0 : m.offset = 0) :
    write_propval sc ⟨name, ⟨val, m :: rest⟩⟩ =
      (write_propval_loop sc val MARKER_NONE (m :: rest)).map (" = ".toList ++ ·) := by
  have hlen : val.length ≠ 0 := by simpa using hne
  simp [write_propval, data.len, hlen, write_propval_chain, leading_chunk_len,
    next_type_marker, hm, h0]

theorem write_chunk_width (sc : Bool) (w : Nat) (hw : w = 1 ∨ w = 2 ∨ w = 4 ∨ w = 8)
    (p : List Byte) : write_chunk sc (width_type w) p = write_propval_int p w := by
  rcases hw with rfl | rfl | rfl | rfl <;> rfl

theorem width_type_facts (w : Nat) (hw : w = 1 ∨ w = 2 ∨ w = 4 ∨ w = 8) :
    is_type_marker (width_type w) = true ∧ is_annot_kind (width_type w) = false ∧
      delim_start (width_type w) = open_delim w ∧ delim_end (width_type w) = close_delim w := by
  rcases hw with rfl | rfl | rfl | rfl <;> decide

/-- C5, amended: a non-empty buffer with a single type marker of width `w` (1,
2, 4 or 8 bytes) at offset 0 and a length that is a multiple of `w` is written as
`" = "`, the opening delimiter of the width, one token per element in buffer
order (a space, `0x` unless `w = 1`, and the big-endian value of the element
in lowercase hexadecimal of at least two digits, exactly two for `w = 1`), the
closing delimiter and `";\n"`. -/
theorem write_propval_int_chunk (sc : Bool) (name : String) (w : Nat) (val : List Byte)
    (r : String) (hw : w = 1 ∨ w = 2 ∨ w = 4 ∨ w = 8) (hne : val ≠ [])
    (hlen : val.length % w = 0) :
    write_propval sc ⟨name, ⟨val, [⟨width_type w, 0, r⟩]⟩⟩ =
        some (" = ".toList ++ open_delim w ++
          ((elements w val).map (element_token w)).flatten ++ close_delim w ++ ";\n".toList) ∧
      (∀ v ∈ elements w val, hex_value (printf_02x v) = v ∧
        (∀ c ∈ printf_02x v, c ∈ hex_chars) ∧ 2 ≤ (printf_02x v).length ∧
        (w = 1 → (printf_02x v).length = 2)) := by
  obtain ⟨ht, ha, hs, he⟩ := width_type_facts w hw
  have hl0 : val.length ≠ 0 := by simpa using hne
  refine ⟨?_, ?_⟩
  · rw [write_propval_typed sc name val _ _ hne ha rfl]
    rw [write_propval_loop]
    simp only [next_offset, next_emit_type, ht, if_true]
    rw [if_neg hl0, if_neg (by omega)]
    simp only [Nat.sub_zero, List.drop_zero, List.take_length]
    rw [write_chunk_width sc w hw, write_propval_int_eq w hw val hlen, write_propval_loop]
    simp only [marker_text, ht, if_true, ne_eq, not_true_eq_false, if_false, List.nil_append,
      Option.map_some', hs, he, int_tokens]
    simp
  · intro v hv
    obtain ⟨h1, h2, h3, _⟩ := printf_02x_spec v
    refine ⟨h1, h2, h3, ?_⟩
    intro hw1
    subst hw1
    exact printf_02x_byte v (by simpa using elements_lt 1 val v hv)


theorem write_propval_int_chunk_witness :
    write_propval true ⟨"reg", ⟨[0, 0, 0, 1, 0xde, 0xad, 0xbe, 0xef], [⟨width_type 4, 0, ""⟩]⟩⟩ =
        some (" = ".toList ++ open_delim 4 ++
          ((elements 4 [0, 0, 0, 1, 0xde, 0xad, 0xbe, 0xef]).map (element_token 4)).flatten
            ++ close_delim 4 ++ ";\n".toList) ∧
      (∀ v ∈ elements 4 [0, 0, 0, 1, 0xde, 0xad, 0xbe, 0xef], hex_value (printf_02x v) = v ∧
        (∀ c ∈ printf_02x v, c ∈ hex_chars) ∧ 2 ≤ (printf_02x v).length ∧
        (4 = 1 → (printf_02x v).length = 2)) :=
  write_propval_int_chunk true "reg" 4 [0, 0, 0, 1, 0xde, 0xad, 0xbe, 0xef] ""
    (by decide) (by decide) (by decide)

/-- C5 as stated fails on the empty buffer: its length 0 is a multiple of the
width, yet with a single UINT32 marker at offset 0 the text is `";\n"`, not
`" = "`, the delimiters and `";\n"`. -/
theorem write_propval_int_chunk_counterexample :
    ([] : List Byte).length % 4 = 0 ∧
      write_propval true ⟨"p", ⟨[], [⟨width_type 4, 0, ""⟩]⟩⟩ = some ";\n".toList ∧
      write_propval true ⟨"p", ⟨[], [⟨width_type 4, 0, ""⟩]⟩⟩ ≠
        some (" = ".toList ++ open_delim 4 ++
          ((elements 4 []).map (element_token 4)).flatten ++ close_delim 4 ++ ";\n".toList) := by
  decide

/-! ## String chunks (C6, C7) -/

theorem write_string_loop_eq (sc : Bool) (s : List Byte) :
    write_string_loop sc s = escaped sc s := by
  induction s with
  | nil => rfl
  | cons c rest ih => simp [write_string_loop, escaped, ih] at *

theorem escaped_append (sc : Bool) (a b : List Byte) :
    escaped sc (a ++ b) = escaped sc a ++ escaped sc b := by
  simp [escaped]

theorem pack_strings_cons (s : List Byte) (rest : List (List Byte)) :
    pack_strings (s :: rest) = s ++ 0 :: pack_strings rest := by
  simp [pack_strings]

theorem write_propval_string_nul (sc : Bool) (x : List Byte) :
    write_propval_string sc (x ++ [0]) = some ('"' :: (escaped sc x ++ ['"'])) := by
  unfold write_propval_string
  simp [write_string_loop_eq]

theorem string_case_nul (sc : Bool) : string_case sc 0 = ['"', ',', ' ', '"'] := rfl

theorem intercalate_cons_cons {α : Type} (sep a b : List α) (c : List (List α)) :
    List.intercalate sep (a :: b :: c) = a ++ sep ++ List.intercalate sep (b :: c) := by
  simp [List.intercalate, List.intersperse]

theorem pack_strings_body (sc : Bool) (s : List Byte) (rest : List (List Byte)) :
    ∃ x, pack_strings (s :: rest) = x ++ [0] ∧
      '"' :: (escaped sc x ++ ['"']) =
        List.intercalate [',', ' '] ((s :: rest).map (quoted sc)) := by
  induction rest generalizing s with
  | nil => exact ⟨s, by simp [pack_strings], by simp [List.intercalate, quoted]⟩
  | cons t r ih =>
    obtain ⟨x, hx, he⟩ := ih t
    refine ⟨s ++ 0 :: x, ?_, ?_⟩
    · rw [pack_strings_cons, hx]; simp
    · rw [List.map_cons, List.map_cons, intercalate_cons_cons, ← List.map_cons, ← he]
      have : escaped sc (s ++ 0 :: x) = escaped sc s ++ (['"', ',', ' ', '"'] ++ escaped sc x) := by
        simp [escaped, string_case_nul]
      rw [this]
      simp [quoted]

set_option maxRecDepth 100000 in
theorem string_case_printable (sc : Bool) (b : Byte) (hp : isprint b = true) (h1 : b ≠ 92)
    (h2 : b ≠ 34) : string_case sc b = [Char.ofNat b.val] := by
  revert b; cases sc <;> decide

set_option maxRecDepth 100000 in
theorem string_case_no_split (sc : Bool) (b : Byte) (h : b ≠ 0) :
    string_case sc b ≠ ['"', ',', ' ', '"'] := by
  revert b; cases sc <;> decide

/-- C6: a STRING chunk that packs `k ≥ 1` NUL-terminated strings without
inner NUL is written as `k` double-quoted segments, the i-th holding the
escaped form of the i-th string, joined by comma-space; the bytes
`\a \b \t \n \v \f \r`, backslash and double quote are written as their
two-character escapes, every other printable byte unchanged, and no byte of a
string opens a new segment. -/
theorem write_propval_string_segments (sc : Bool) (ss : List (List Byte)) (hk : ss ≠ [])
    (hnul : ∀ s ∈ ss, (0 : Byte) ∉ s) :
    write_propval_string sc (pack_strings ss) =
        some (List.intercalate [',', ' '] (ss.map (quoted sc))) ∧
      (ss.map (quoted sc)).length = ss.length ∧
      string_case sc 7 = ['\\', 'a'] ∧ string_case sc 8 = ['\\', 'b'] ∧
      string_case sc 9 = ['\\', 't'] ∧ string_case sc 10 = ['\\', 'n'] ∧
      string_case sc 11 = ['\\', 'v'] ∧ string_case sc 12 = ['\\', 'f'] ∧
      string_case sc 13 = ['\\', 'r'] ∧ string_case sc 92 = ['\\', '\\'] ∧
      string_case sc 34 = ['\\', '"'] ∧
      (∀ b : Byte, isprint b = true → b ≠ 92 → b ≠ 34 →
        string_case sc b = [Char.ofNat b.val]) ∧
      (∀ s ∈ ss, ∀ b ∈ s, string_case sc b ≠ ['"', ',', ' ', '"']) := by
  refine ⟨?_, by simp, rfl, rfl, rfl, rfl, rfl, rfl, rfl, rfl, rfl, ?_, ?_⟩
  · cases ss with
    | nil => exact absurd rfl hk
    | cons s rest =>
      obtain ⟨x, hx, he⟩ := pack_strings_body sc s rest
      rw [hx, write_propval_string_nul, he]
  · exact fun b hp h1 h2 => string_case_printable sc b hp h1 h2
  · intro s hs b hb
    exact string_case_no_split sc b (fun h => hnul s hs (h ▸ hb))


theorem write_propval_string_segments_witness :
    write_propval_string true (pack_strings [[0x61, 0x22], [0x62, 0x09]]) =
        some (List.intercalate [',', ' '] ([[0x61, 0x22], [0x62, 0x09]].map (quoted true))) ∧
      ([[0x61, 0x22], [0x62, 0x09]].map (quoted true)).length
        = ([[0x61, 0x22], [0x62, 0x09]] : List (List Byte)).length ∧
      string_case true 7 = ['\\', 'a'] ∧ string_case true 8 = ['\\', 'b'] ∧
      string_case true 9 = ['\\', 't'] ∧ string_case true 10 = ['\\', 'n'] ∧
      string_case true 11 = ['\\', 'v'] ∧ string_case true 12 = ['\\', 'f'] ∧
      string_case true 13 = ['\\', 'r'] ∧ string_case true 92 = ['\\', '\\'] ∧
      string_case true 34 = ['\\', '"'] ∧
      (∀ b : Byte, isprint b = true → b ≠ 92 → b ≠ 34 →
        string_case true b = [Char.ofNat b.val]) ∧
      (∀ s ∈ ([[0x61, 0x22], [0x62, 0x09]] : List (List Byte)), ∀ b ∈ s,
        string_case true b ≠ ['"', ',', ' ', '"']) :=
  write_propval_string_segments true [[0x61, 0x22], [0x62, 0x09]] (by decide) (by decide)

set_option maxRecDepth 100000 in
/-- What the emitter does for the bytes C7 is about, where it agrees with the
claim: a byte that is not printable, not NUL and not one of
`\a \b \t \n \v \f \r` is written as backslash, `x` and its two lowercase
hexadecimal digits when it is below 0x80 or plain `char` is unsigned. -/
theorem string_case_hex_escape (sc : Bool) (b : Byte) (hp : isstring b = false)
    (hs : sc = false ∨ b.val < 128) :
    string_case sc b = ['\\', 'x', Nat.digitChar (b.val / 16), Nat.digitChar (b.val % 16)] := by
  revert b; cases sc <;> decide

/-- C7, the code at the failing input: where plain `char` is signed the byte
0x80 of the STRING chunk `80 00` is written as `\xffffff80`, ten characters,
not the four characters `\x80`. -/
theorem write_propval_string_high_byte :
    write_propval_string true [0x80, 0] = some "\"\\xffffff80\"".toList ∧
      (string_case true 0x80).length = 10 ∧
      write_propval_string false [0x80, 0] = some "\"\\x80\"".toList := by
  decide

/-! ## Cutting the rendering loop at a marker -/

theorem next_offset_append (len : Nat) (rest : List marker) (m : marker) (post : List marker) :
    next_offset len (rest ++ m :: post) = next_offset m.offset rest := by
  cases rest <;> rfl

/-- The loop over a chain cut in front of the marker `m`. -/
theorem write_propval_loop_split (sc : Bool) (val : List Byte) (e : markertype)
    (pre : List marker) (m : marker) (post : List marker) :
    write_propval_loop sc val e (pre ++ m :: post) =
      match write_propval_walk sc val m.offset e pre with
      | none => none
      | some (a, e') => (write_propval_loop sc val e' (m :: post)).map (a ++ ·) := by
  induction pre generalizing e with
  | nil =>
    simp only [List.nil_append, write_propval_walk]
    cases write_propval_loop sc val e (m :: post) <;> simp
  | cons p rest ih =>
    rw [List.cons_append, write_propval_loop, write_propval_walk, next_offset_append]
    rcases hw : write_propval_walk sc val m.offset (next_emit_type e p) rest with _ | ⟨a, e'⟩
    · by_cases h1 : next_offset m.offset rest = p.offset
      · simp [h1, ih, hw]
      · by_cases h2 : next_offset m.offset rest < p.offset ∨
            val.length < next_offset m.offset rest
        · simp [h1, h2]
        · rw [if_neg h1, if_neg h1, if_neg h2, if_neg h2, ih, hw]
          cases write_chunk sc (next_emit_type e p)
            ((val.drop p.offset).take (next_offset m.offset rest - p.offset)) <;> rfl
    · rcases hl : write_propval_loop sc val e' (m :: post) with _ | x
      · by_cases h1 : next_offset m.offset rest = p.offset
        · simp [h1, ih, hw, hl]
        · by_cases h2 : next_offset m.offset rest < p.offset ∨
              val.length < next_offset m.offset rest
          · simp [h1, h2]
          · rw [if_neg h1, if_neg h1, if_neg h2, if_neg h2, ih, hw]
            cases write_chunk sc (next_emit_type e p)
              ((val.drop p.offset).take (next_offset m.offset rest - p.offset)) <;>
              simp [hl]
      · by_cases h1 : next_offset m.offset rest = p.offset
        · simp [h1, ih, hw, hl]
        · by_cases h2 : next_offset m.offset rest < p.offset ∨
              val.length < next_offset m.offset rest
          · simp [h1, h2]
          · rw [if_neg h1, if_neg h1, if_neg h2, if_neg h2, ih, hw]
            cases write_chunk sc (next_emit_type e p)
              ((val.drop p.offset).take (next_offset m.offset rest - p.offset)) <;>
              simp [hl]

/-! ## Two adjacent chunks (C8) -/

theorem write_propval_string_ok (sc : Bool) (p : List Byte) (h : p.getLast? = some 0) :
    write_propval_string sc p = some ('"' :: (escaped sc p.dropLast ++ ['"'])) := by
  unfold write_propval_string
  rw [h]
  simp [write_string_loop_eq]

theorem write_chunk_ok (sc : Bool) (t : markertype) (p : List Byte)
    (ho : chunk_ok t p = true) : write_chunk sc t p = some (chunk_text sc t p) := by
  cases t <;> simp only [chunk_ok, Bool.false_eq_true, beq_iff_eq] at ho
  · exact write_propval_int_eq 1 (by decide) p (Nat.mod_one _)
  · exact write_propval_int_eq 2 (by decide) p ho
  · exact write_propval_int_eq 4 (by decide) p ho
  · exact write_propval_int_eq 8 (by decide) p ho
  · exact write_propval_string_ok sc p ho

/-- One turn of the loop for a marker whose segment is not empty and lies
inside the buffer. -/
theorem write_propval_loop_data (sc : Bool) (val : List Byte) (e : markertype) (m : marker)
    (rest : List marker) (h1 : m.offset < next_offset val.length rest)
    (h2 : next_offset val.length rest ≤ val.length) :
    write_propval_loop sc val e (m :: rest) =
      (write_chunk sc (next_emit_type e m)
          ((val.drop m.offset).take (next_offset val.length rest - m.offset))).bind
        (fun d => (write_propval_loop sc val (next_emit_type e m) rest).map
          (fun r => marker_text e m ++ d ++ r)) := by
  rw [write_propval_loop, if_neg (by omega), if_neg (by omega)]
  cases write_chunk sc (next_emit_type e m)
      ((val.drop m.offset).take (next_offset val.length rest - m.offset)) <;>
    cases write_propval_loop sc val (next_emit_type e m) rest <;> rfl

/-- One turn of the loop for a marker whose segment is empty. -/
theorem write_propval_loop_empty (sc : Bool) (val : List Byte) (e : markertype) (m : marker)
    (rest : List marker) (h1 : next_offset val.length rest = m.offset) :
    write_propval_loop sc val e (m :: rest) =
      (write_propval_loop sc val (next_emit_type e m) rest).map (marker_text e m ++ ·) := by
  rw [write_propval_loop, if_pos h1]

/-- C8: a buffer with two type markers, `t1` at offset 0 and `t2` at offset
`k` with `0 < k < length`, each chunk well-formed for its type, is written as
`" = "`, opening delimiter, data and closing delimiter of the first chunk,
`", "`, then opening delimiter, data and closing delimiter of the second
chunk, and `";\n"`. -/
theorem write_propval_two_chunks (sc : Bool) (name : String) (val : List Byte)
    (t1 t2 : markertype) (k : Nat) (r1 r2 : String)
    (hk : 0 < k) (hk' : k < val.length)
    (ho1 : chunk_ok t1 (val.take k) = true) (ho2 : chunk_ok t2 (val.drop k) = true) :
    write_propval sc ⟨name, ⟨val, [⟨t1, 0, r1⟩, ⟨t2, k, r2⟩]⟩⟩ =
      some (" = ".toList ++ delim_start t1 ++ chunk_text sc t1 (val.take k) ++ delim_end t1
        ++ ", ".toList ++ delim_start t2 ++ chunk_text sc t2 (val.drop k) ++ delim_end t2
        ++ ";\n".toList) := by
  have hne : val ≠ [] := by intro h; rw [h] at hk'; simp at hk'
  have ht1 : is_type_marker t1 = true := by cases t1 <;> simp_all [chunk_ok, is_type_marker]
  have ht2 : is_type_marker t2 = true := by cases t2 <;> simp_all [chunk_ok, is_type_marker]
  have ha1 : is_annot_kind t1 = false := by cases t1 <;> simp_all [is_type_marker, is_annot_kind]
  have hn1 : t1 ≠ MARKER_NONE := by intro h; rw [h] at ht1; simp [is_type_marker] at ht1
  rw [write_propval_typed sc name val _ _ hne ha1 rfl]
  rw [write_propval_loop_data sc val _ _ _ (by simpa [next_offset] using hk)
    (by simp only [next_offset]; omega)]
  rw [write_propval_loop_data sc val _ _ _ (by simpa [next_offset] using hk')
    (by simp [next_offset])]
  simp only [next_offset, next_emit_type, ht1, ht2, if_true, Nat.sub_zero, List.drop_zero]
  rw [write_chunk_ok sc t1 _ ho1]
  have hd : (val.drop k).take (val.length - k) = val.drop k := by
    rw [List.take_of_length_le]; simp
  rw [hd, write_chunk_ok sc t2 _ ho2, write_propval_loop]
  simp [marker_text, ht1, ht2, hn1]


theorem write_propval_two_chunks_witness :
    write_propval true ⟨"p", ⟨[0, 0, 0, 1, 0x61, 0x62, 0x63, 0],
        [⟨MARKER_UINT32, 0, ""⟩, ⟨MARKER_STRING, 4, ""⟩]⟩⟩ =
      some " = < 0x01 >, \"abc\";\n".toList :=
  write_propval_two_chunks true "p" [0, 0, 0, 1, 0x61, 0x62, 0x63, 0]
    MARKER_UINT32 MARKER_STRING 4 "" "" (by decide) (by decide) (by decide) (by decide)

/-! ## A label inside a cell array (C9) -/

theorem elements_append (w : Nat) (hw : 0 < w) (j : Nat) (a b : List Byte)
    (ha : a.length = j * w) : elements w (a ++ b) = elements w a ++ elements w b := by
  unfold elements
  have h1 : (a ++ b).length / w = j + b.length / w := by
    rw [List.length_append, ha, Nat.add_comm, Nat.add_mul_div_right _ _ hw, Nat.add_comm]
  have h2 : a.length / w = j := by rw [ha, Nat.mul_div_cancel _ hw]
  rw [h1, h2, List.range_add, List.map_append, List.map_map]
  congr 1
  · apply List.map_congr_left
    intro i hi
    have hi' : i < j := List.mem_range.1 hi
    have hle : i * w + w ≤ a.length := by
      rw [ha]; calc i * w + w = (i + 1) * w := by ring
        _ ≤ j * w := Nat.mul_le_mul_right _ hi'
    rw [List.drop_append_of_le_length (by omega), List.take_append_of_le_length
      (by rw [List.length_drop]; omega)]
  · apply List.map_congr_left
    intro i _
    simp only [Function.comp]
    have : (j + i) * w = a.length + i * w := by rw [ha]; ring
    rw [this, List.drop_append]

theorem elements_length (w : Nat) (p : List Byte) : (elements w p).length = p.length / w := by
  simp [elements]

theorem elements_take (w : Nat) (hw : 0 < w) (j : Nat) (p : List Byte) (h : j * w ≤ p.length) :
    elements w (p.take (j * w)) = (elements w p).take j ∧
      elements w (p.drop (j * w)) = (elements w p).drop j := by
  have hl : (p.take (j * w)).length = j * w := by rw [List.length_take]; omega
  have hsplit := elements_append w hw j (p.take (j * w)) (p.drop (j * w)) hl
  rw [List.take_append_drop] at hsplit
  have hlen : (elements w (p.take (j * w))).length = j := by
    rw [elements_length, hl, Nat.mul_div_cancel _ hw]
  constructor
  · conv_rhs => rw [hsplit]
    rw [List.take_left' hlen]
  · conv_rhs => rw [hsplit]
    rw [List.drop_left' hlen]

/-- A character that occurs once in a text fixes where the text is cut at it. -/
theorem cut_at_unique {α : Type} (c : α) (x y x' y' : List α) (hx : c ∉ x) (hy : c ∉ y)
    (h : x' ++ c :: y' = x ++ c :: y) : x' = x ∧ y' = y := by
  rcases List.append_eq_append_iff.1 h with ⟨a, h1, h2⟩ | ⟨a, h1, h2⟩
  · cases a with
    | nil =>
      simp only [List.append_nil, List.nil_append, List.cons.injEq, true_and] at h1 h2
      exact ⟨h1.symm, h2⟩
    | cons d a =>
      exfalso
      simp only [List.cons_append, List.cons.injEq] at h2
      apply hx
      rw [h1, h2.1]
      simp
  · cases a with
    | nil =>
      simp only [List.append_nil, List.nil_append, List.cons.injEq, true_and] at h1 h2
      exact ⟨h1, h2.symm⟩
    | cons d a =>
      exfalso
      simp only [List.cons_append, List.cons.injEq] at h2
      apply hy
      rw [h2.2]
      simp

theorem element_token_chars (w v : Nat) (c : Char) (hc : c ∈ element_token w v) :
    c = ' ' ∨ c = 'x' ∨ c ∈ hex_chars := by
  unfold element_token at hc
  rcases List.mem_cons.1 hc with h | h
  · exact Or.inl h
  · rcases List.mem_append.1 h with h | h
    · by_cases hw : w = 1
      · simp [hw] at h
      · simp only [hw, if_false, List.mem_cons, List.mem_singleton] at h
        rcases h with h | h | h
        · right; right; rw [h]; decide
        · right; left; exact h
        · cases h
    · exact Or.inr (Or.inr ((printf_02x_spec v).2.1 c h))

theorem colon_not_in_tokens (w : Nat) (vs : List Nat) :
    ':' ∉ (vs.map (element_token w)).flatten := by
  intro h
  obtain ⟨t, ht, hc⟩ := List.mem_flatten.1 h
  obtain ⟨v, _, rfl⟩ := List.mem_map.1 ht
  rcases element_token_chars w v ':' hc with h | h | h
  · exact absurd h (by decide)
  · exact absurd h (by decide)
  · exact absurd h (by decide)

/-- C9: for a UINT32 chunk of `4 * n` bytes with a LABEL `l` at offset `4 * j`,
`0 < j < n`, the text is `" = <"`, the tokens of the elements `0 .. j-1`, then
a space, the label and a colon, then the tokens of the elements `j .. n-1`
(each starting with a space) and `" >;\n"`; and, when the label holds no
colon (as the label `name`), the label followed by colon and space occurs in
the text at that one place only. With `n = 3`, `j = 1` this is the 12-byte
buffer with a label at offset 4. -/
theorem write_propval_label_in_cells (sc : Bool) (name : String) (val : List Byte)
    (l r : String) (n j : Nat) (hlen : val.length = 4 * n) (hj : 0 < j) (hjn : j < n) :
    write_propval sc ⟨name, ⟨val, [⟨MARKER_UINT32, 0, r⟩, ⟨LABEL, 4 * j, l⟩]⟩⟩ =
        some (" = <".toList ++ (((elements 4 val).take j).map (element_token 4)).flatten
          ++ (' ' :: (l.toList ++ [':']))
          ++ (((elements 4 val).drop j).map (element_token 4)).flatten ++ " >;\n".toList) ∧
      (elements 4 val).length = n ∧
      (':' ∉ l.toList → ∀ a b, " = <".toList ++ (((elements 4 val).take j).map (element_token 4)).flatten
          ++ (' ' :: (l.toList ++ [':']))
          ++ (((elements 4 val).drop j).map (element_token 4)).flatten ++ " >;\n".toList
          = a ++ (l.toList ++ [':', ' ']) ++ b →
        a = " = <".toList ++ (((elements 4 val).take j).map (element_token 4)).flatten
          ++ [' ']) := by
  have hne : val ≠ [] := by intro h; rw [h] at hlen; simp at hlen; omega
  have hjl : j * 4 ≤ val.length := by omega
  obtain ⟨etake, edrop⟩ := elements_take 4 (by decide) j val hjl
  refine ⟨?_, by rw [elements_length, hlen]; omega, ?_⟩
  · rw [write_propval_typed sc name val ⟨MARKER_UINT32, 0, r⟩ [⟨LABEL, 4 * j, l⟩] hne rfl rfl]
    rw [write_propval_loop_data sc val _ _ _ (by simp only [next_offset]; omega)
      (by simp only [next_offset]; omega)]
    rw [write_propval_loop_data sc val _ _ _ (by simp only [next_offset]; omega)
      (by simp [next_offset])]
    have e1 : next_emit_type MARKER_NONE ⟨MARKER_UINT32, 0, r⟩ = MARKER_UINT32 := rfl
    have e2 : next_emit_type MARKER_UINT32 ⟨LABEL, 4 * j, l⟩ = MARKER_UINT32 := rfl
    simp only [next_offset, e1, e2, Nat.sub_zero, List.drop_zero]
    have hd : (val.drop (4 * j)).take (val.length - 4 * j) = val.drop (4 * j) := by
      rw [List.take_of_length_le]; simp
    rw [hd]
    have c1 : write_chunk sc MARKER_UINT32 (val.take (4 * j)) =
        some (int_tokens 4 (val.take (4 * j))) :=
      write_propval_int_eq 4 (by decide) _ (by rw [List.length_take]; omega)
    have c2 : write_chunk sc MARKER_UINT32 (val.drop (4 * j)) =
        some (int_tokens 4 (val.drop (4 * j))) :=
      write_propval_int_eq 4 (by decide) _ (by rw [List.length_drop]; omega)
    rw [c1, c2, write_propval_loop]
    have m4 : 4 * j = j * 4 := Nat.mul_comm _ _
    simp only [int_tokens, m4, etake, edrop]
    simp [marker_text, is_type_marker, delim_start, delim_end]
  · intro hl a b h
    have hcut := cut_at_unique ':' 
      (" = <".toList ++ (((elements 4 val).take j).map (element_token 4)).flatten
        ++ (' ' :: l.toList))
      ((((elements 4 val).drop j).map (element_token 4)).flatten ++ " >;\n".toList)
      (a ++ l.toList) (' ' :: b) ?_ ?_ ?_
    · have h1 := hcut.1
      have : " = <".toList ++ (((elements 4 val).take j).map (element_token 4)).flatten
          ++ (' ' :: l.toList) =
          (" = <".toList ++ (((elements 4 val).take j).map (element_token 4)).flatten
            ++ [' ']) ++ l.toList := by simp
      rw [this] at h1
      exact List.append_cancel_right h1
    · intro hc
      rcases List.mem_append.1 hc with hc | hc
      · rcases List.mem_append.1 hc with hc | hc
        · exact absurd hc (by decide)
        · exact colon_not_in_tokens 4 _ hc
      · rcases List.mem_cons.1 hc with hc | hc
        · exact absurd hc (by decide)
        · exact hl hc
    · intro hc
      rcases List.mem_append.1 hc with hc | hc
      · exact colon_not_in_tokens 4 _ hc
      · exact absurd hc (by decide)
    · rw [← List.append_assoc] at h
      simp only [List.append_assoc, List.cons_append, List.nil_append] at h ⊢
      exact h.symm


theorem write_propval_label_in_cells_witness :
    write_propval true ⟨"p", ⟨[0, 0, 0, 1, 0, 0, 0, 2, 0, 0, 0, 3],
        [⟨MARKER_UINT32, 0, ""⟩, ⟨LABEL, 4, "name"⟩]⟩⟩ =
      some " = < 0x01 name: 0x02 0x03 >;\n".toList ∧
    (elements 4 [0, 0, 0, 1, 0, 0, 0, 2, 0, 0, 0, 3]).length = 3 ∧
    (':' ∉ "name".toList →
      ∀ a b, " = < 0x01 name: 0x02 0x03 >;\n".toList = a ++ ("name".toList ++ [':', ' ']) ++ b →
        a = " = < 0x01 ".toList) :=
  write_propval_label_in_cells true "p" [0, 0, 0, 1, 0, 0, 0, 2, 0, 0, 0, 3] "name" "" 3 1
    (by decide) (by decide) (by decide)

/-! ## Labels (C10) -/

/-- The chain `write_propval` walks is the chain itself or the chain behind a
dummy marker at offset 0. -/
theorem write_propval_chain_shape (d : data) (ms : List marker)
    (h : write_propval_chain d = some ms) :
    ms = d.markers ∨ ∃ t, ms = marker.mk t 0 "" :: d.markers := by
  unfold write_propval_chain at h
  simp only at h
  by_cases h1 : leading_chunk_len d.len d.markers = 0
  · rw [if_pos h1] at h; exact Or.inl (Option.some.inj h).symm
  · rw [if_neg h1] at h
    by_cases h2 : d.len < leading_chunk_len d.len d.markers
    · rw [if_pos h2] at h; cases h
    · rw [if_neg h2] at h; exact Or.inr ⟨_, (Option.some.inj h).symm⟩

/-- The data of a non-empty segment starts with the opening quote for a STRING
and with a space for integers. -/
theorem write_chunk_head (sc : Bool) (e : markertype) (p : List Byte) (d : List Char)
    (hp : p ≠ []) (h : write_chunk sc e p = some d) :
    d.head? = some (if e = MARKER_STRING then '"' else ' ') := by
  have hint : ∀ w, (w = 1 ∨ w = 2 ∨ w = 4 ∨ w = 8) → write_propval_int p w = some d →
      d.head? = some ' ' := by
    intro w hw hd
    have hpos : 0 < w := by rcases hw with rfl | rfl | rfl | rfl <;> decide
    unfold write_propval_int at hd
    by_cases hm : p.length % w = 0
    · rw [if_pos hm] at hd
      have hlen : 0 < p.length := List.length_pos.2 hp
      have hwl : w ≤ p.length := Nat.le_of_dvd hlen (Nat.dvd_of_mod_eq_zero hm)
      cases hpl : p.length with
      | zero => omega
      | succ f =>
        rw [hpl, write_int_loop, if_pos (by omega), int_case_eq w hw] at hd
        rw [← Option.some.inj hd]
        rfl
    · rw [if_neg hm] at hd; cases hd
  cases e <;> simp only [write_chunk] at h <;>
    first
    | exact hint 1 (by decide) h
    | exact hint 2 (by decide) h
    | exact hint 4 (by decide) h
    | exact hint 8 (by decide) h
    | skip
  unfold write_propval_string at h
  cases hl : p.getLast? with
  | none => rw [hl] at h; cases h
  | some x =>
    rw [hl] at h
    simp only at h
    by_cases hx : x.val = 0
    · rw [if_pos hx] at h; rw [← Option.some.inj h]; rfl
    · rw [if_neg hx] at h; cases h

/-- C10, amended: when the emission of a non-empty buffer succeeds, a LABEL
marker `l` at offset `k` is written as a space, the label and a colon, after
the text of the markers in front of it (the walk over them, behind the dummy
marker if one was synthesized). If the bytes from `k` to the next marker's
offset are not empty their data follows the colon directly, starting with a
space for integers and with the opening quote for a STRING; if they are empty
the text of the following markers follows. -/
theorem write_propval_label (sc : Bool) (name : String) (val : List Byte)
    (pre post : List marker) (l : String) (k : Nat) (out : List Char) (hne : val ≠ [])
    (h : write_propval sc ⟨name, ⟨val, pre ++ ⟨LABEL, k, l⟩ :: post⟩⟩ = some out) :
    ∃ pre' a e b, (pre' = pre ∨ ∃ t, pre' = marker.mk t 0 "" :: pre) ∧
      write_propval_walk sc val k MARKER_NONE pre' = some (a, e) ∧
      out = " = ".toList ++ a ++ (' ' :: (l.toList ++ [':'])) ++ b ∧
      ((next_offset val.length post = k ∧ write_propval_loop sc val e post = some b) ∨
       (k < next_offset val.length post ∧ ∃ d b', b = d ++ b' ∧
          write_chunk sc e (segment_bytes val (k, next_offset val.length post - k)) = some d ∧
          write_propval_loop sc val e post = some b' ∧
          d.head? = some (if e = MARKER_STRING then '"' else ' '))) := by
  have hlen : val.length ≠ 0 := by simpa using hne
  unfold write_propval at h
  simp only [data.len] at h
  rw [if_neg hlen] at h
  cases hch : write_propval_chain ⟨val, pre ++ ⟨LABEL, k, l⟩ :: post⟩ with
  | none => rw [hch] at h; cases h
  | some ms =>
    rw [hch] at h
    simp only [Option.map_eq_some'] at h
    obtain ⟨body, hbody, hout⟩ := h
    -- the walked chain, cut in front of the label
    have hshape : ∃ pre', (pre' = pre ∨ ∃ t, pre' = marker.mk t 0 "" :: pre) ∧
        ms = pre' ++ ⟨LABEL, k, l⟩ :: post := by
      rcases write_propval_chain_shape _ ms hch with hms | ⟨t, hms⟩
      · exact ⟨pre, Or.inl rfl, hms⟩
      · exact ⟨marker.mk t 0 "" :: pre, Or.inr ⟨t, rfl⟩, by rw [hms]; rfl⟩
    obtain ⟨pre', hpre, hms⟩ := hshape
    rw [hms, write_propval_loop_split] at hbody
    cases hw : write_propval_walk sc val (marker.mk LABEL k l).offset MARKER_NONE pre' with
    | none => rw [hw] at hbody; cases hbody
    | some r =>
      obtain ⟨a, e⟩ := r
      rw [hw] at hbody
      simp only [Option.map_eq_some'] at hbody
      obtain ⟨c, hc, hbody⟩ := hbody
      have hmt : marker_text e ⟨LABEL, k, l⟩ = ' ' :: (l.toList ++ [':']) := rfl
      have hnt : next_emit_type e ⟨LABEL, k, l⟩ = e := rfl
      rw [write_propval_loop, hmt, hnt] at hc
      by_cases h1 : next_offset val.length post = k
      · rw [if_pos h1] at hc
        simp only [Option.map_eq_some'] at hc
        obtain ⟨b, hb, hcb⟩ := hc
        refine ⟨pre', a, e, b, hpre, hw, ?_, Or.inl ⟨h1, hb⟩⟩
        rw [← hout, ← hbody, ← hcb]; simp
      · rw [if_neg h1] at hc
        by_cases h2 : next_offset val.length post < k ∨ val.length < next_offset val.length post
        · rw [if_pos h2] at hc; cases hc
        · rw [if_neg h2] at hc
          have hlt : k < next_offset val.length post := by
            simp only [not_or, not_lt] at h2
            exact lt_of_le_of_ne h2.1 (Ne.symm h1)
          cases hd : write_chunk sc e
              ((val.drop k).take (next_offset val.length post - k)) with
          | none => rw [hd] at hc; cases hc
          | some d =>
            cases hb : write_propval_loop sc val e post with
            | none => rw [hd, hb] at hc; cases hc
            | some b' =>
              rw [hd, hb] at hc
              have hcb := Option.some.inj hc
              have hseg : (val.drop k).take (next_offset val.length post - k) ≠ [] := by
                intro hnil
                have := congrArg List.length hnil
                simp only [List.length_take, List.length_drop, List.length_nil] at this
                simp only [not_or, not_lt] at h2
                omega
              refine ⟨pre', a, e, d ++ b', hpre, hw, ?_, Or.inr ⟨hlt, d, b', rfl, hd, hb,
                write_chunk_head sc e _ d hseg hd⟩⟩
              rw [← hout, ← hbody, ← hcb]; simp


theorem write_propval_label_witness :
    ∃ pre' a e b, (pre' = [⟨MARKER_UINT32, 0, ""⟩] ∨
        ∃ t, pre' = marker.mk t 0 "" :: [⟨MARKER_UINT32, 0, ""⟩]) ∧
      write_propval_walk true [0, 0, 0, 1, 0, 0, 0, 2] 4 MARKER_NONE pre' = some (a, e) ∧
      " = < 0x01 name: 0x02 >;\n".toList
        = " = ".toList ++ a ++ (' ' :: ("name".toList ++ [':'])) ++ b ∧
      ((next_offset ([0, 0, 0, 1, 0, 0, 0, 2] : List Byte).length [] = 4 ∧
          write_propval_loop true [0, 0, 0, 1, 0, 0, 0, 2] e [] = some b) ∨
       (4 < next_offset ([0, 0, 0, 1, 0, 0, 0, 2] : List Byte).length [] ∧ ∃ d b', b = d ++ b' ∧
          write_chunk true e (segment_bytes [0, 0, 0, 1, 0, 0, 0, 2]
            (4, next_offset ([0, 0, 0, 1, 0, 0, 0, 2] : List Byte).length [] - 4)) = some d ∧
          write_propval_loop true [0, 0, 0, 1, 0, 0, 0, 2] e [] = some b' ∧
          d.head? = some (if e = MARKER_STRING then '"' else ' '))) :=
  write_propval_label true "p" [0, 0, 0, 1, 0, 0, 0, 2] [⟨MARKER_UINT32, 0, ""⟩] [] "name" 4
    " = < 0x01 name: 0x02 >;\n".toList (by decide) (by decide)

/-- C10 as stated fails: a label in front of STRING data is followed by the
opening quote, and a label in front of a type marker by the opening delimiter;
in both texts the label followed by colon and space does not occur. -/
theorem write_propval_label_counterexample :
    write_propval true ⟨"p", ⟨[0x61, 0x62, 0x63, 0],
        [⟨MARKER_STRING, 0, ""⟩, ⟨LABEL, 0, "l"⟩]⟩⟩ = some " =  l:\"abc\";\n".toList ∧
      ¬ ("l: ".toList <:+: " =  l:\"abc\";\n".toList) ∧
      write_propval true ⟨"p", ⟨[0, 0, 0, 1],
        [⟨LABEL, 0, "l"⟩, ⟨MARKER_UINT32, 0, ""⟩]⟩⟩ = some " =  l:< 0x01 >;\n".toList ∧
      ¬ ("l: ".toList <:+: " =  l:< 0x01 >;\n".toList) := by
  decide

/-! ## The emitted text determines the bytes (C4) -/

set_option maxRecDepth 100000 in
theorem string_case_len (sc : Bool) (b : Byte) :
    string_code_len sc (string_case sc b) = (string_case sc b).length := by
  revert b; cases sc <;> decide

set_option maxRecDepth 100000 in
theorem string_case_decode (sc : Bool) (b : Byte) :
    string_decode (string_case sc b) = b.val := by
  revert b; cases sc <;> decide

theorem string_code_len_stable (sc : Bool) (l r : List Char) (hl : l ≠ [])
    (h : string_code_len sc l ≤ l.length) :
    string_code_len sc (l ++ r) = string_code_len sc l := by
  match l, hl with
  | c :: rest, _ =>
    simp only [List.cons_append, string_code_len]
    by_cases h1 : c = '"'
    · simp [h1]
    · by_cases h2 : c ≠ '\\'
      · simp [h1, h2]
      · simp only [h1, h2, if_false]
        simp only [string_code_len, h1, h2, if_false, List.length_cons] at h
        match rest with
        | [] => simp at h
        | e :: rest' =>
          simp only [List.cons_append]
          by_cases h3 : e ≠ 'x'
          · simp [h3]
          · simp only [h3, if_false]
            simp only [h3, if_false, List.length_cons] at h
            match rest' with
            | [] => simp at h
            | hh :: _ => simp

set_option maxRecDepth 100000 in
theorem string_case_ne_nil (sc : Bool) (b : Byte) : string_case sc b ≠ [] := by
  revert b; cases sc <;> decide

/-- The texts of the bytes form a prefix code: the text at the front of an
escaped string fixes the byte. -/
theorem string_case_cut (sc : Bool) (a b : Byte) (r1 r2 : List Char)
    (h : string_case sc a ++ r1 = string_case sc b ++ r2) : a = b ∧ r1 = r2 := by
  have la := string_code_len_stable sc (string_case sc a) r1 (string_case_ne_nil sc a)
    (le_of_eq (string_case_len sc a))
  have lb := string_code_len_stable sc (string_case sc b) r2 (string_case_ne_nil sc b)
    (le_of_eq (string_case_len sc b))
  rw [h, lb, string_case_len, string_case_len] at la
  have heq := List.append_inj h la.symm
  have hab : a.val = b.val := by
    rw [← string_case_decode sc a, ← string_case_decode sc b, heq.1]
  exact ⟨Fin.ext hab, heq.2⟩

theorem escaped_cons (sc : Bool) (b : Byte) (x : List Byte) :
    escaped sc (b :: x) = string_case sc b ++ escaped sc x := by
  simp [escaped]

/-- Escaping is injective. -/
theorem escaped_inj (sc : Bool) (x y : List Byte) (h : escaped sc x = escaped sc y) :
    x = y := by
  induction x generalizing y with
  | nil =>
    cases y with
    | nil => rfl
    | cons b y' =>
      exfalso
      rw [escaped_cons] at h
      have : string_case sc b = [] := (List.append_eq_nil.1 h.symm).1
      exact string_case_ne_nil sc b this
  | cons a x' ih =>
    cases y with
    | nil =>
      exfalso
      rw [escaped_cons] at h
      have : string_case sc a = [] := (List.append_eq_nil.1 h).1
      exact string_case_ne_nil sc a this
    | cons b y' =>
      rw [escaped_cons, escaped_cons] at h
      obtain ⟨hab, hr⟩ := string_case_cut sc a b _ _ h
      rw [hab, ih y' hr]

/-- A STRING chunk is fixed by its text. -/
theorem string_text_inj (sc : Bool) (p q : List Byte) (hp : p.getLast? = some 0)
    (hq : q.getLast? = some 0)
    (h : '"' :: (escaped sc p.dropLast ++ ['"']) = '"' :: (escaped sc q.dropLast ++ ['"'])) :
    p = q := by
  have h1 := List.append_cancel_right (List.cons.inj h).2
  have h2 := escaped_inj sc _ _ h1
  have ep : p = p.dropLast ++ [0] := by
    have hne : p ≠ [] := by intro h; rw [h] at hp; simp at hp
    rw [← List.dropLast_append_getLast hne]
    rw [List.getLast?_eq_getLast _ hne] at hp
    simp [Option.some.inj hp]
  have eq : q = q.dropLast ++ [0] := by
    have hne : q ≠ [] := by intro h; rw [h] at hq; simp at hq
    rw [← List.dropLast_append_getLast hne]
    rw [List.getLast?_eq_getLast _ hne] at hq
    simp [Option.some.inj hq]
  rw [ep, eq, h2]

/-- Texts without a space, each followed by nothing or by a space: the first
space cuts both at the same place. -/
theorem cut_at_space (x y r1 r2 : List Char) (hx : ' ' ∉ x) (hy : ' ' ∉ y)
    (h1 : r1.head? = none ∨ r1.head? = some ' ') (h2 : r2.head? = none ∨ r2.head? = some ' ')
    (h : x ++ r1 = y ++ r2) : x = y ∧ r1 = r2 := by
  induction x generalizing y with
  | nil =>
    cases y with
    | nil => exact ⟨rfl, h⟩
    | cons d y' =>
      exfalso
      simp only [List.nil_append, List.cons_append] at h
      rw [h] at h1
      simp only [List.head?_cons, reduceCtorEq, Option.some.injEq, false_or] at h1
      exact hy (by rw [h1]; simp)
  | cons c x' ih =>
    cases y with
    | nil =>
      exfalso
      simp only [List.nil_append, List.cons_append] at h
      rw [← h] at h2
      simp only [List.head?_cons, reduceCtorEq, Option.some.injEq, false_or] at h2
      exact hx (by rw [h2]; simp)
    | cons d y' =>
      simp only [List.cons_append, List.cons.injEq] at h
      obtain ⟨e1, e2⟩ := ih y' (fun hm => hx (List.mem_cons_of_mem _ hm))
        (fun hm => hy (List.mem_cons_of_mem _ hm)) h.2
      exact ⟨by rw [h.1, e1], e2⟩


theorem elements_cons (w : Nat) (hw : 0 < w) (p : List Byte) (h : w ≤ p.length) :
    elements w p = be_value (p.take w) :: elements w (p.drop w) := by
  unfold elements
  have hq : p.length / w = (p.length - w) / w + 1 := by
    rw [← Nat.sub_add_cancel h, Nat.add_div_right _ hw]; simp
  rw [hq, List.range_succ_eq_map, List.map_cons, List.length_drop, List.map_map]
  simp only [Nat.zero_mul, List.drop_zero]
  congr 1
  apply List.map_congr_left
  intro i _
  simp only [Function.comp, List.drop_drop]
  congr 3
  rw [Nat.succ_mul]; omega

/-- A buffer whose length is a multiple of the width is fixed by its elements. -/
theorem elements_inj (w : Nat) (hw : 0 < w) (n : Nat) (p q : List Byte)
    (hn : p.length = n * w) (hq : q.length % w = 0)
    (h : elements w p = elements w q) : p = q := by
  have hlen : p.length = q.length := by
    have := congrArg List.length h
    rw [elements_length, elements_length] at this
    have h1 : p.length / w = n := by rw [hn, Nat.mul_div_cancel _ hw]
    have h2 := Nat.div_add_mod q.length w
    rw [hq, ← this, h1, Nat.add_zero] at h2
    rw [hn, ← h2, Nat.mul_comm]
  induction n generalizing p q with
  | zero =>
    have hp : p = [] := List.length_eq_zero.1 (by rw [hn]; simp)
    have hq' : q = [] := List.length_eq_zero.1 (by rw [← hlen, hn]; simp)
    rw [hp, hq']
  | succ n ih =>
    have hwp : w ≤ p.length := by rw [hn, Nat.succ_mul]; omega
    have hwq : w ≤ q.length := by omega
    rw [elements_cons w hw p hwp, elements_cons w hw q hwq] at h
    obtain ⟨h1, h2⟩ := List.cons.inj h
    have e1 : p.take w = q.take w :=
      be_value_inj _ _ (by rw [List.length_take, List.length_take]; omega) h1
    have e2 : p.drop w = q.drop w := by
      apply ih (p.drop w) (q.drop w)
      · rw [List.length_drop, hn, Nat.succ_mul]; omega
      · rw [List.length_drop]
        have := Nat.sub_mod_eq_zero_of_mod_eq (m := q.length) (n := w) (k := w)
          (by rw [hq, Nat.mod_self])
        exact this
      · exact h2
      · rw [List.length_drop, List.length_drop, hlen]
    rw [← List.take_append_drop w p, ← List.take_append_drop w q, e1, e2]

/-- The text of an element after its space. -/
theorem element_token_body (w v : Nat) :
    ∃ body, element_token w v = ' ' :: body ∧ ' ' ∉ body ∧
      ∃ c rest, body = c :: rest ∧ c ∈ hex_chars := by
  unfold element_token
  refine ⟨_, rfl, ?_, ?_⟩
  · intro h
    rcases List.mem_append.1 h with h | h
    · by_cases hw : w = 1
      · simp [hw] at h
      · simp [hw] at h
    · exact absurd ((printf_02x_spec v).2.1 _ h) (by decide)
  · by_cases hw : w = 1
    · obtain ⟨_, h2, h3, _⟩ := printf_02x_spec v
      cases hp : printf_02x v with
      | nil => rw [hp] at h3; simp at h3
      | cons c rest =>
        exact ⟨c, rest, by simp [hw], h2 c (by rw [hp]; simp)⟩
    · exact ⟨'0', 'x' :: printf_02x v, by simp [hw], by decide⟩

theorem element_token_inj (w a b : Nat) (h : element_token w a = element_token w b) :
    a = b := by
  unfold element_token at h
  exact printf_02x_inj a b (List.append_cancel_left (List.cons.inj h).2)

/-- The elements are fixed by their tokens, when the text after the tokens
starts with a space and a character that is not a digit. -/
theorem tokens_inj (w : Nat) (xs ys : List Nat) (c : Char) (tl : List Char)
    (hc : c ∉ hex_chars)
    (h : (xs.map (element_token w)).flatten ++ ' ' :: c :: tl =
      (ys.map (element_token w)).flatten ++ ' ' :: c :: tl) : xs = ys := by
  have hhead : ∀ zs : List Nat,
      ((zs.map (element_token w)).flatten ++ ' ' :: c :: tl).head? = some ' ' := by
    intro zs
    cases zs with
    | nil => rfl
    | cons z zs' =>
      obtain ⟨body, hb, _⟩ := element_token_body w z
      simp [hb]
  have hstop : ∀ (z : Nat) (zs : List Nat),
      ' ' :: c :: tl ≠ ((z :: zs).map (element_token w)).flatten ++ ' ' :: c :: tl := by
    intro z zs heq
    obtain ⟨body, hb, _, d, rest, hd, hdh⟩ := element_token_body w z
    rw [List.map_cons, List.flatten_cons, hb, hd] at heq
    simp only [List.cons_append, List.cons.injEq, true_and] at heq
    exact hc (heq.1 ▸ hdh)
  induction xs generalizing ys with
  | nil =>
    cases ys with
    | nil => rfl
    | cons b ys' => exact absurd h (hstop b ys')
  | cons a xs' ih =>
    cases ys with
    | nil => exact absurd h.symm (hstop a xs')
    | cons b ys' =>
      obtain ⟨ba, hba, hsa, _⟩ := element_token_body w a
      obtain ⟨bb, hbb, hsb, _⟩ := element_token_body w b
      simp only [List.map_cons, List.flatten_cons, List.append_assoc] at h
      have h' := h
      rw [hba, hbb] at h'
      simp only [List.cons_append, List.cons.injEq, true_and] at h'
      obtain ⟨e1, e2⟩ := cut_at_space ba bb _ _ hsa hsb (Or.inr (hhead xs'))
        (Or.inr (hhead ys')) h'
      have hab : a = b := element_token_inj w a b (by rw [hba, hbb, e1])
      rw [hab, ih ys' e2]


/-- A single typed chunk that is well-formed is written between its
delimiters. -/
theorem write_propval_single (sc : Bool) (name : String) (val : List Byte) (t : markertype)
    (r : String) (hne : val ≠ []) (ho : chunk_ok t val = true) :
    write_propval sc ⟨name, ⟨val, [⟨t, 0, r⟩]⟩⟩ =
      some (" = ".toList ++ delim_start t ++ chunk_text sc t val ++ delim_end t
        ++ ";\n".toList) := by
  have ht : is_type_marker t = true := by cases t <;> simp_all [chunk_ok, is_type_marker]
  have ha : is_annot_kind t = false := by cases t <;> simp_all [is_type_marker, is_annot_kind]
  have hl0 : 0 < val.length := List.length_pos.2 hne
  rw [write_propval_typed sc name val _ _ hne ha rfl]
  rw [write_propval_loop_data sc val _ _ _ (by simpa [next_offset] using hl0)
    (by simp [next_offset])]
  simp only [next_offset, next_emit_type, ht, if_true, Nat.sub_zero, List.drop_zero,
    List.take_length]
  rw [write_chunk_ok sc t _ ho, write_propval_loop]
  simp [marker_text, ht]

/-- Two non-empty well-formed chunks of the same type with the same text are
equal. -/
theorem write_propval_text_inj_nonempty (sc : Bool) (t : markertype) (n1 n2 : String)
    (v1 v2 : List Byte) (r1 r2 : String) (h1 : v1 ≠ []) (h2 : v2 ≠ [])
    (ho1 : chunk_ok t v1 = true) (ho2 : chunk_ok t v2 = true)
    (h : write_propval sc ⟨n1, ⟨v1, [⟨t, 0, r1⟩]⟩⟩ = write_propval sc ⟨n2, ⟨v2, [⟨t, 0, r2⟩]⟩⟩) :
    v1 = v2 := by
  rw [write_propval_single sc n1 v1 t r1 h1 ho1, write_propval_single sc n2 v2 t r2 h2 ho2] at h
  have h' := Option.some.inj h
  simp only [List.append_assoc] at h'
  have h'' := List.append_cancel_left (List.append_cancel_left h')
  have hint : ∀ w, (w = 1 ∨ w = 2 ∨ w = 4 ∨ w = 8) → v1.length % w = 0 → v2.length % w = 0 →
      ∀ c tl, c ∉ hex_chars →
      int_tokens w v1 ++ ' ' :: c :: tl = int_tokens w v2 ++ ' ' :: c :: tl → v1 = v2 := by
    intro w hw hm1 hm2 c tl hc heq
    have hpos : 0 < w := by rcases hw with rfl | rfl | rfl | rfl <;> decide
    have he := tokens_inj w _ _ c tl hc heq
    have hn : v1.length = (v1.length / w) * w := by
      have := Nat.div_add_mod v1.length w
      rw [hm1, Nat.add_zero, Nat.mul_comm] at this
      exact this.symm
    exact elements_inj w hpos _ v1 v2 hn hm2 he
  cases t <;> simp only [chunk_ok, Bool.false_eq_true, beq_iff_eq] at ho1 ho2
  · exact hint 1 (by decide) (Nat.mod_one _) (Nat.mod_one _) ']' _ (by decide) h''
  · exact hint 2 (by decide) ho1 ho2 '>' _ (by decide) h''
  · exact hint 4 (by decide) ho1 ho2 '>' _ (by decide) h''
  · exact hint 8 (by decide) ho1 ho2 '>' _ (by decide) h''
  · have h3 : chunk_text sc MARKER_STRING v1 = chunk_text sc MARKER_STRING v2 :=
      List.append_cancel_right h''
    exact string_text_inj sc v1 v2 ho1 ho2 h3


/-- An empty buffer is written as `";\n"`, whatever its chain. -/
theorem write_propval_empty (sc : Bool) (name : String) (ms : List marker) :
    write_propval sc ⟨name, ⟨[], ms⟩⟩ = some ";\n".toList := rfl

/-- C4: two buffers with one type marker of the same type at offset 0, each
well-formed for the type (integers: length a multiple of the width; STRING:
last byte NUL), are both emitted, and if their emitted texts are equal they are
equal byte for byte: the text determines the content. -/
theorem write_propval_text_inj (sc : Bool) (t : markertype) (n1 n2 : String)
    (v1 v2 : List Byte) (r1 r2 : String)
    (ho1 : chunk_ok t v1 = true) (ho2 : chunk_ok t v2 = true)
    (h : write_propval sc ⟨n1, ⟨v1, [⟨t, 0, r1⟩]⟩⟩ = write_propval sc ⟨n2, ⟨v2, [⟨t, 0, r2⟩]⟩⟩) :
    (write_propval sc ⟨n1, ⟨v1, [⟨t, 0, r1⟩]⟩⟩).isSome = true ∧ v1 = v2 := by
  by_cases h1 : v1 = []
  · subst h1
    refine ⟨rfl, ?_⟩
    by_cases h2 : v2 = []
    · exact h2.symm
    · exfalso
      rw [write_propval_empty, write_propval_single sc n2 v2 t r2 h2 ho2] at h
      have := Option.some.inj h
      simp only [List.append_assoc] at this
      exact absurd (List.cons.inj this).1 (by decide)
  · refine ⟨by rw [write_propval_single sc n1 v1 t r1 h1 ho1]; rfl, ?_⟩
    by_cases h2 : v2 = []
    · exfalso
      subst h2
      rw [write_propval_empty, write_propval_single sc n1 v1 t r1 h1 ho1] at h
      have := Option.some.inj h
      simp only [List.append_assoc] at this
      exact absurd (List.cons.inj this).1 (by decide)
    · exact write_propval_text_inj_nonempty sc t n1 n2 v1 v2 r1 r2 h1 h2 ho1 ho2 h

theorem write_propval_text_inj_witness :
    (write_propval true ⟨"a", ⟨[0x61, 0x80, 0], [⟨MARKER_STRING, 0, ""⟩]⟩⟩).isSome = true ∧
      ([0x61, 0x80, 0] : List Byte) = [0x61, 0x80, 0] :=
  write_propval_text_inj true MARKER_STRING "a" "b" [0x61, 0x80, 0] [0x61, 0x80, 0] "" "x"
    (by decide) (by decide) (by decide)

/-! ## Labels and zero-length segments (C11) -/

theorem marker_piece_text (e : markertype) (m : marker) :
    ((marker_piece e m).map piece.text).flatten = marker_text e m := by
  unfold marker_piece marker_text
  by_cases h1 : is_type_marker m.type = true
  · simp [h1, piece.text]
  · by_cases h2 : m.type = LABEL
    · have hl : is_type_marker LABEL = false := rfl
      simp [h2, hl, piece.text]
    · simp [h1, h2]

theorem marker_piece_label (e : markertype) (m : marker) :
    (marker_piece e m).filterMap piece.label_name = if m.type = LABEL then [m.ref] else [] := by
  unfold marker_piece
  by_cases h1 : is_type_marker m.type = true
  · have : m.type ≠ LABEL := by intro h; rw [h] at h1; exact absurd h1 (by decide)
    simp [h1, this, piece.label_name]
  · by_cases h2 : m.type = LABEL
    · have hl : is_type_marker LABEL = false := rfl
      simp [h2, hl, piece.label_name]
    · simp [h1, h2]

theorem marker_piece_segment (e : markertype) (m : marker) :
    (marker_piece e m).filterMap piece.segment = [] ∧
      ∀ o n t, piece.data o n t ∉ marker_piece e m := by
  unfold marker_piece
  by_cases h1 : is_type_marker m.type = true
  · simp [h1, piece.segment]
  · by_cases h2 : m.type = LABEL
    · have hl : is_type_marker LABEL = false := rfl
      simp [h2, hl, piece.segment]
    · simp [h1, h2]

/-- The text of the loop is the text of its pieces, then the closing
delimiter of the last type and `";\n"`. -/
theorem write_propval_loop_pieces (sc : Bool) (val : List Byte) (e : markertype)
    (ms : List marker) :
    write_propval_loop sc val e ms =
      (write_propval_pieces sc val e ms).map
        (fun ps => (ps.map piece.text).flatten ++ delim_end (final_emit_type e ms)
          ++ ";\n".toList) := by
  induction ms generalizing e with
  | nil => simp [write_propval_loop, write_propval_pieces, final_emit_type]
  | cons m rest ih =>
    rw [write_propval_loop, write_propval_pieces, final_emit_type]
    by_cases h1 : next_offset val.length rest = m.offset
    · rw [if_pos h1, if_pos h1, ih]
      cases write_propval_pieces sc val (next_emit_type e m) rest with
      | none => rfl
      | some ps => simp [marker_piece_text]
    · rw [if_neg h1, if_neg h1]
      by_cases h2 : next_offset val.length rest < m.offset ∨
          val.length < next_offset val.length rest
      · rw [if_pos h2, if_pos h2]; rfl
      · rw [if_neg h2, if_neg h2, ih]
        cases write_chunk sc (next_emit_type e m)
            ((val.drop m.offset).take (next_offset val.length rest - m.offset)) with
        | none => rfl
        | some d =>
          cases write_propval_pieces sc val (next_emit_type e m) rest with
          | none => rfl
          | some ps => simp [marker_piece_text, piece.text]

/-- The pieces of a walk that succeeds: one label piece per LABEL marker, in
chain order, and one data piece per marker whose segment is not empty. -/
theorem write_propval_pieces_spec (sc : Bool) (val : List Byte) (e : markertype)
    (ms : List marker) (ps : List piece) (h : write_propval_pieces sc val e ms = some ps) :
    ps.filterMap piece.label_name = (ms.filter (fun m => m.type = LABEL)).map marker.ref ∧
      ps.filterMap piece.segment = write_segments_loop val.length ms ∧
      ∀ o n t, piece.data o n t ∈ ps → 0 < n := by
  induction ms generalizing e ps with
  | nil =>
    simp only [write_propval_pieces, Option.some.injEq] at h
    subst h
    simp [write_segments_loop]
  | cons m rest ih =>
    rw [write_propval_pieces] at h
    have hfl : ((m :: rest).filter (fun m => decide (m.type = LABEL))).map marker.ref =
        (if m.type = LABEL then [m.ref] else []) ++
          (rest.filter (fun m => decide (m.type = LABEL))).map marker.ref := by
      by_cases hl : m.type = LABEL <;> simp [List.filter_cons, hl]
    by_cases h1 : next_offset val.length rest = m.offset
    · rw [if_pos h1] at h
      simp only [Option.map_eq_some'] at h
      obtain ⟨r, hr, rfl⟩ := h
      obtain ⟨i1, i2, i3⟩ := ih _ r hr
      refine ⟨?_, ?_, ?_⟩
      · rw [List.filterMap_append, marker_piece_label, i1, hfl]
      · rw [List.filterMap_append, (marker_piece_segment e m).1, i2, write_segments_loop]
        simp [h1]
      · intro o n t hmem
        rcases List.mem_append.1 hmem with hm | hm
        · exact absurd hm ((marker_piece_segment e m).2 o n t)
        · exact i3 o n t hm
    · rw [if_neg h1] at h
      by_cases h2 : next_offset val.length rest < m.offset ∨
          val.length < next_offset val.length rest
      · rw [if_pos h2] at h; cases h
      · rw [if_neg h2] at h
        simp only [Option.bind_eq_some, Option.map_eq_some'] at h
        obtain ⟨d, _, r, hr, rfl⟩ := h
        obtain ⟨i1, i2, i3⟩ := ih _ r hr
        simp only [not_or, not_lt] at h2
        have hpos : 0 < next_offset val.length rest - m.offset := by omega
        refine ⟨?_, ?_, ?_⟩
        · rw [List.filterMap_append, marker_piece_label, List.filterMap_cons, i1, hfl]
          simp [piece.label_name]
        · rw [List.filterMap_append, (marker_piece_segment e m).1, List.filterMap_cons, i2,
            write_segments_loop]
          have hn : ¬ next_offset val.length rest < m.offset := by omega
          simp only [hn, if_false]
          rw [if_neg (by omega)]
          simp [piece.segment]
        · intro o n t hmem
          rcases List.mem_append.1 hmem with hm | hm
          · exact absurd hm ((marker_piece_segment e m).2 o n t)
          · rcases List.mem_cons.1 hm with hm | hm
            · cases hm; exact hpos
            · exact i3 o n t hm

/-- The dummy marker is never a LABEL: the chain that is walked has the LABEL
markers of the property's chain. -/
theorem write_propval_chain_labels (d : data) (ms : List marker)
    (h : write_propval_chain d = some ms) :
    ms.filter (fun m => m.type = LABEL) = d.markers.filter (fun m => m.type = LABEL) := by
  unfold write_propval_chain at h
  simp only at h
  by_cases h1 : leading_chunk_len d.len d.markers = 0
  · rw [if_pos h1] at h; rw [← Option.some.inj h]
  · rw [if_neg h1] at h
    by_cases h2 : d.len < leading_chunk_len d.len d.markers
    · rw [if_pos h2] at h; cases h
    · rw [if_neg h2] at h
      rw [← Option.some.inj h, List.filter_cons]
      have : guess_type d.val d.markers (leading_chunk_len d.len d.markers) ≠ LABEL := by
        unfold guess_type
        simp only
        split_ifs <;> decide
      simp [this]

/-- C11, amended: when the emission of a non-empty buffer succeeds (no
assertion fails), the text after `" = "` is the text of the pieces of the
walk, and among the pieces every LABEL marker of the chain has its label piece
exactly once, in chain order, whatever the length of its segment; the data
pieces are those of the markers whose segment is not empty, so a zero-length
segment contributes no data. -/
theorem write_propval_labels (sc : Bool) (name : String) (d : data) (out : List Char)
    (hne : d.val ≠ []) (h : write_propval sc ⟨name, d⟩ = some out) :
    ∃ ms ps, write_propval_chain d = some ms ∧
      write_propval_pieces sc d.val MARKER_NONE ms = some ps ∧
      out = " = ".toList ++ (ps.map piece.text).flatten
        ++ delim_end (final_emit_type MARKER_NONE ms) ++ ";\n".toList ∧
      ps.filterMap piece.label_name
        = (d.markers.filter (fun m => m.type = LABEL)).map marker.ref ∧
      ps.filterMap piece.segment = write_segments_loop d.len ms ∧
      ∀ o n t, piece.data o n t ∈ ps → 0 < n := by
  have hlen : d.val.length ≠ 0 := by simpa using hne
  unfold write_propval at h
  simp only [data.len] at h
  rw [if_neg hlen] at h
  cases hch : write_propval_chain d with
  | none => rw [hch] at h; cases h
  | some ms =>
    rw [hch] at h
    simp only [Option.map_eq_some'] at h
    obtain ⟨body, hbody, hout⟩ := h
    rw [write_propval_loop_pieces] at hbody
    simp only [Option.map_eq_some'] at hbody
    obtain ⟨ps, hps, hb⟩ := hbody
    obtain ⟨i1, i2, i3⟩ := write_propval_pieces_spec sc d.val MARKER_NONE ms ps hps
    refine ⟨ms, ps, rfl, hps, ?_, ?_, i2, i3⟩
    · rw [← hout, ← hb]; simp
    · rw [i1, write_propval_chain_labels d ms hch]


theorem write_propval_labels_witness :
    ∃ ms ps, write_propval_chain ex_labels_between = some ms ∧
      write_propval_pieces true ex_labels_between.val MARKER_NONE ms = some ps ∧
      " = < 0x01 a: b: >, \"a\";\n".toList = " = ".toList ++ (ps.map piece.text).flatten
        ++ delim_end (final_emit_type MARKER_NONE ms) ++ ";\n".toList ∧
      ps.filterMap piece.label_name
        = (ex_labels_between.markers.filter (fun m => m.type = LABEL)).map marker.ref ∧
      ps.filterMap piece.segment = write_segments_loop ex_labels_between.len ms ∧
      ∀ o n t, piece.data o n t ∈ ps → 0 < n :=
  write_propval_labels true "p" ex_labels_between " = < 0x01 a: b: >, \"a\";\n".toList
    (by decide) (by decide)

/-- C11 as stated fails: with a LABEL at offset 2 inside a 4-byte cell (an
ordered chain) the first segment has 2 bytes, `assert(len % width == 0)` of
`write_propval_int` fails and the emitter aborts before the label is written. -/
theorem write_propval_labels_counterexample :
    ex_label_in_cell.val ≠ [] ∧
      markers_ordered ex_label_in_cell.len ex_label_in_cell.markers ∧
      write_typed_segments ex_label_in_cell.len MARKER_NONE ex_label_in_cell.markers
        = [(MARKER_UINT32, 0, 2), (MARKER_UINT32, 2, 2)] ∧
      write_propval_int (segment_bytes ex_label_in_cell.val (0, 2)) 4 = none ∧
      write_propval true ⟨"p", ex_label_in_cell⟩ = none := by
  decide

/-! ## The boolean property (C12) -/

/-- C12: a property whose buffer is empty, whatever its marker chain, is
written in source as its name directly followed by `";\n"` (after prefix and
labels), without `" = "` and without data; in YAML it is the name as key and
one plain scalar `true` with the boolean tag. Neither depends on the chain. -/
theorem boolean_property (sc : Bool) (level : Nat) (labels : List String) (name : String)
    (ms : List marker) :
    write_propval sc ⟨name, ⟨[], ms⟩⟩ = some ";\n".toList ∧
      write_properties sc level [(labels, ⟨name, ⟨[], ms⟩⟩)] =
        some ( write_prefix (level + 1) ++ write_labels labels ++ name.toList ++ ";\n".toList) ∧
      yaml_propval ⟨name, ⟨[], ms⟩⟩ =
        some [scalar YAML_STR_TAG name.toList true true YAML_PLAIN_SCALAR_STYLE,
          scalar YAML_BOOL_TAG "true".toList true false YAML_PLAIN_SCALAR_STYLE] := by
  refine ⟨rfl, ?_, rfl⟩
  simp [write_properties, seq_write, write_propval, data.len]


/-! ## Deleted nodes (C13) -/

/-- A deleted child and all below it leave no trace in the source text. -/
theorem write_children_deleted (sc : Bool) (name : String) (labels : List String)
    (proplist : List (List String × property)) (children next_sibling : node) (level : Nat) :
    write_children sc (node.mk name labels proplist true children next_sibling) level =
      write_children sc next_sibling level := by
  simp [write_children]

/-- A deleted child and all below it leave no trace in the YAML events. -/
theorem yaml_children_deleted (name : String) (labels : List String)
    (proplist : List (List String × property)) (children next_sibling : node) :
    yaml_children (node.mk name labels proplist true children next_sibling) =
      yaml_children next_sibling := by
  simp [yaml_children]

/-- The source text of a chain of children is that of the chain with every
deleted node removed. -/
theorem write_children_remove_deleted (sc : Bool) (c : node) (level : Nat) :
    write_children sc (remove_deleted c) level = write_children sc c level := by
  induction c generalizing level with
  | null => rfl
  | mk name labels proplist deleted children next_sibling ih1 ih2 =>
    cases deleted with
    | true => simp [remove_deleted, write_children, ih2]
    | false => simp [remove_deleted, write_children, ih1, ih2]

/-- The YAML events of a chain of children are those of the chain with every
deleted node removed. -/
theorem yaml_children_remove_deleted (c : node) :
    yaml_children (remove_deleted c) = yaml_children c := by
  induction c with
  | null => rfl
  | mk name labels proplist deleted children next_sibling ih1 ih2 =>
    cases deleted with
    | true => simp [remove_deleted, yaml_children, ih2]
    | false => simp [remove_deleted, yaml_children, ih1, ih2]

/-- Below a root that is not deleted both documents are those of the tree with
every deleted node removed. -/
theorem documents_remove_deleted (sc : Bool) (res : List reserve_info) (name : String)
    (labels : List String) (proplist : List (List String × property))
    (children next_sibling : node) :
    dt_to_source sc ⟨res, node.mk name labels proplist false (remove_deleted children)
        next_sibling⟩ =
      dt_to_source sc ⟨res, node.mk name labels proplist false children next_sibling⟩ ∧
    dt_to_yaml ⟨res, node.mk name labels proplist false (remove_deleted children)
        next_sibling⟩ =
      dt_to_yaml ⟨res, node.mk name labels proplist false children next_sibling⟩ := by
  constructor
  · simp [dt_to_source, write_tree_source_node, write_children_remove_deleted]
  · simp [dt_to_yaml, yaml_tree, yaml_children_remove_deleted]

/-- C13, the code at the failing input: for a root whose deletion flag is set
(and whose child is deleted with it) `dt_to_source` still writes the root,
`/ {` and `};`, while `dt_to_yaml` emits no mapping at all;
`write_tree_source_node` never reads the flag of the node it is called on. -/
theorem dt_to_source_deleted_root :
    dt_to_source true ex_deleted_root = some "/dts-v1/;\n\n/ \x7b\n\x7d;\n".toList ∧
      dt_to_yaml ex_deleted_root =
        some [stream_start, document_start false,
          sequence_start YAML_SEQ_TAG true YAML_ANY_SEQUENCE_STYLE,
          sequence_end, document_end false, stream_end] ∧
      (∀ (sc : Bool) (name : String) (labels : List String)
          (proplist : List (List String × property)) (children next_sibling : node)
          (level : Nat),
        write_tree_source_node sc (node.mk name labels proplist true children next_sibling) level
          = write_tree_source_node sc
              (node.mk name labels proplist false children next_sibling) level) := by
  refine ⟨by decide, by decide, fun _ _ _ _ _ _ _ => rfl⟩

/-! ## The YAML renderers (C14, C15, C16) -/

theorem yaml_int_loop_eq (w : Nat) (hw : 0 < w) (fuel : Nat) (p : List Byte)
    (hf : p.length ≤ fuel) (hm : p.length % w = 0) :
    yaml_int_loop w fuel p = (elements w p).map yaml_int_event := by
  induction fuel generalizing p with
  | zero =>
    have : p = [] := List.length_eq_zero.1 (by omega)
    subst this
    simp [yaml_int_loop, elements]
  | succ fuel ih =>
    rw [yaml_int_loop]
    by_cases h : 0 < p.length
    · rw [if_pos h]
      have hwl : w ≤ p.length := Nat.le_of_dvd h (Nat.dvd_of_mod_eq_zero hm)
      rw [elements_cons w hw p hwl, List.map_cons, ih (p.drop w)
        (by rw [List.length_drop]; omega)
        (by rw [List.length_drop]; exact Nat.sub_mod_eq_zero_of_mod_eq (by rw [hm, Nat.mod_self]))]
      rfl
    · rw [if_neg h]
      have : p = [] := List.length_eq_zero.1 (by omega)
      subst this
      simp [elements]

theorem elements_one (p : List Byte) : elements 1 p = p.map (fun b => b.val) := by
  induction p with
  | nil => simp [elements]
  | cons b rest ih =>
    rw [elements_cons 1 (by decide) (b :: rest) (by simp)]
    simp [ih, be_value]

/-- `yaml_propval_int` on a length that is a multiple of the width. -/
theorem yaml_propval_int_fit (w : Nat) (hw : w = 1 ∨ w = 2 ∨ w = 4 ∨ w = 8) (p : List Byte)
    (hm : p.length % w = 0) :
    yaml_propval_int p w = some (yaml_sequence (width_tag w) (w == 4) (elements w p)) := by
  have hpos : 0 < w := by rcases hw with rfl | rfl | rfl | rfl <;> decide
  unfold yaml_propval_int
  simp only [hm, ne_eq, not_true_eq_false, if_false]
  rw [yaml_int_loop_eq w hpos _ p (le_refl _) hm]
  rcases hw with rfl | rfl | rfl | rfl <;> rfl

/-- `yaml_propval_int` on a length that is not a multiple of the width: the
bytes one by one under `!u8`. -/
theorem yaml_propval_int_misfit (w : Nat) (p : List Byte) (hm : p.length % w ≠ 0) :
    yaml_propval_int p w = some (yaml_sequence "!u8" false (p.map (fun b => b.val))) := by
  unfold yaml_propval_int
  simp only [hm, ne_eq, not_false_eq_true, if_true]
  rw [yaml_int_loop_eq 1 (by decide) _ p (le_refl _) (Nat.mod_one _), elements_one]
  rfl

/-- C15: on a chunk whose last byte is NUL, `yaml_propval_string` emits a
single double-quoted string scalar holding all bytes but the last if and only
if every byte is below 0x80; otherwise it emits a `!u8` flow sequence with one
integer per byte of the chunk, the final NUL included, and does not fail. -/
theorem yaml_propval_string_rule (str : List Byte) (hlast : str.getLast? = some 0) :
    ((∀ b ∈ str, b.val < 128) →
        yaml_propval_string str =
          some [scalar YAML_STR_TAG (str.dropLast.map byte_char) false true
            YAML_DOUBLE_QUOTED_SCALAR_STYLE]) ∧
      (¬ (∀ b ∈ str, b.val < 128) →
        yaml_propval_string str = some (yaml_sequence "!u8" false (str.map (fun b => b.val))) ∧
        (str.map (fun b => b.val)).length = str.length) ∧
      (yaml_propval_string str =
          some [scalar YAML_STR_TAG (str.dropLast.map byte_char) false true
            YAML_DOUBLE_QUOTED_SCALAR_STYLE] ↔ ∀ b ∈ str, b.val < 128) := by
  have hall : (str.all isascii = true) ↔ ∀ b ∈ str, b.val < 128 := by
    simp [List.all_eq_true, isascii]
  have h1 : (∀ b ∈ str, b.val < 128) →
      yaml_propval_string str =
        some [scalar YAML_STR_TAG (str.dropLast.map byte_char) false true
          YAML_DOUBLE_QUOTED_SCALAR_STYLE] := by
    intro h
    unfold yaml_propval_string
    rw [hlast]
    simp only [Fin.val_zero, ne_eq, not_true_eq_false, if_false]
    rw [if_pos (hall.2 h)]
  have h2 : ¬ (∀ b ∈ str, b.val < 128) →
      yaml_propval_string str = some (yaml_sequence "!u8" false (str.map (fun b => b.val))) := by
    intro h
    unfold yaml_propval_string
    rw [hlast]
    simp only [Fin.val_zero, ne_eq, not_true_eq_false, if_false]
    rw [if_neg (fun hc => h (hall.1 hc))]
    have := yaml_propval_int_fit 1 (by decide) str (Nat.mod_one _)
    rw [this, elements_one]
    rfl
  refine ⟨h1, fun h => ⟨h2 h, by simp⟩, ⟨?_, h1⟩⟩
  intro heq
  by_contra hn
  rw [h2 hn] at heq
  simp [yaml_sequence] at heq

/-- One turn of the YAML loop for a marker whose segment is not empty and lies
inside the buffer. -/
theorem yaml_propval_loop_data (val : List Byte) (len : Nat) (e : markertype) (m : marker)
    (rest : List marker) (h1 : m.offset < next_offset len rest)
    (h2 : next_offset len rest ≤ val.length) :
    yaml_propval_loop val len e (m :: rest) =
      seq_write (yaml_chunk (yaml_next_emit_type e m)
          ((val.drop m.offset).take (next_offset len rest - m.offset)))
        (yaml_propval_loop val len (yaml_next_emit_type e m) rest) := by
  rw [yaml_propval_loop, if_neg (by omega), if_neg (by omega)]

/-- One turn of the YAML loop for a marker whose segment is empty. -/
theorem yaml_propval_loop_empty (val : List Byte) (len : Nat) (e : markertype) (m : marker)
    (rest : List marker) (h1 : next_offset len rest ≤ m.offset) :
    yaml_propval_loop val len e (m :: rest) =
      yaml_propval_loop val len (yaml_next_emit_type e m) rest := by
  rw [yaml_propval_loop, if_pos (by omega)]

theorem seq_write_assoc {α : Type} (a b c : Option (List α)) :
    seq_write (seq_write a b) c = seq_write a (seq_write b c) := by
  cases a <;> cases b <;> cases c <;> simp [seq_write]

theorem seq_write_nil {α : Type} (a : Option (List α)) : seq_write (some []) a = a := by
  cases a <;> simp [seq_write]

/-- The YAML loop over a chain cut in front of the marker `m`. -/
theorem yaml_propval_loop_split (val : List Byte) (len : Nat) (e : markertype)
    (pre : List marker) (m : marker) (post : List marker) :
    yaml_propval_loop val len e (pre ++ m :: post) =
      seq_write (yaml_propval_loop val m.offset e pre)
        (yaml_propval_loop val len (pre.foldl yaml_next_emit_type e) (m :: post)) := by
  induction pre generalizing e with
  | nil => simp [yaml_propval_loop, seq_write_nil]
  | cons p rest ih =>
    rw [List.cons_append, yaml_propval_loop, yaml_propval_loop, next_offset_append,
      List.foldl_cons]
    by_cases h1 : (next_offset m.offset rest : Int) - (p.offset : Int) ≤ 0
    · rw [if_pos h1, if_pos h1, ih]
    · rw [if_neg h1, if_neg h1]
      by_cases h2 : val.length < next_offset m.offset rest
      · rw [if_pos h2, if_pos h2]; rfl
      · rw [if_neg h2, if_neg h2, ih, seq_write_assoc]

/-- C16, amended: an integer chunk whose length is not a multiple of the width
(2, 4 or 8) is rendered by the YAML emitter as a `!u8` sequence with one
element per byte, and the YAML loop goes on with the rest of the chain; the
source-text emitter returns nothing for it: the assertion of
`write_propval_int` fails. -/
theorem width_mismatch (sc : Bool) (w : Nat) (hw : w = 2 ∨ w = 4 ∨ w = 8) (p : List Byte)
    (hm : p.length % w ≠ 0) :
    yaml_propval_int p w = some (yaml_sequence "!u8" false (p.map (fun b => b.val))) ∧
      yaml_chunk (width_type w) p = some (yaml_sequence "!u8" false (p.map (fun b => b.val))) ∧
      (∀ (val : List Byte) (len : Nat) (e : markertype) (m : marker) (rest : List marker),
        yaml_next_emit_type e m = width_type w → m.offset < next_offset len rest →
        next_offset len rest ≤ val.length →
        (val.drop m.offset).take (next_offset len rest - m.offset) = p →
        yaml_propval_loop val len e (m :: rest) =
          (yaml_propval_loop val len (width_type w) rest).map
            (yaml_sequence "!u8" false (p.map (fun b => b.val)) ++ ·)) ∧
      write_propval_int p w = none ∧
      write_chunk sc (width_type w) p = none := by
  have hy := yaml_propval_int_misfit w p hm
  have hyc : yaml_chunk (width_type w) p =
      some (yaml_sequence "!u8" false (p.map (fun b => b.val))) := by
    rcases hw with rfl | rfl | rfl <;> exact hy
  have hs : write_propval_int p w = none := by
    unfold write_propval_int; rw [if_neg hm]
  refine ⟨hy, hyc, ?_, hs, ?_⟩
  · intro val len e m rest he h1 h2 hseg
    rw [yaml_propval_loop_data val len e m rest h1 h2, he, hseg, hyc]
    cases yaml_propval_loop val len (width_type w) rest <;> rfl
  · rcases hw with rfl | rfl | rfl <;> exact hs

/-- C14, amended: whatever markers stand in front of it, a REF_PHANDLE marker
whose segment up to the next marker (or the end) is not empty and lies in the
buffer has that segment rendered by `yaml_propval` as a `!u32` sequence of
4-byte big-endian integers when the segment's length is a multiple of 4, and
as a `!u8` sequence of its bytes otherwise. -/
theorem yaml_phandle_segment (name : String) (val : List Byte) (pre post : List marker)
    (r : String) (k : Nat) (hk : k < next_offset val.length post)
    (hb : next_offset val.length post ≤ val.length) :
    yaml_propval ⟨name, ⟨val, pre ++ ⟨REF_PHANDLE, k, r⟩ :: post⟩⟩ =
      (seq_write (yaml_propval_loop val k MARKER_UINT8 pre)
        (seq_write
          (some (if (next_offset val.length post - k) % 4 = 0 then
              yaml_sequence "!u32" true
                (elements 4 (segment_bytes val (k, next_offset val.length post - k)))
            else
              yaml_sequence "!u8" false
                ((segment_bytes val (k, next_offset val.length post - k)).map (fun b => b.val))))
          (yaml_propval_loop val val.length REF_PHANDLE post))).map
        (fun evs => scalar YAML_STR_TAG name.toList true true YAML_PLAIN_SCALAR_STYLE ::
          sequence_start YAML_SEQ_TAG true YAML_FLOW_SEQUENCE_STYLE :: (evs ++ [sequence_end])) := by
  have hne : val.length ≠ 0 := by omega
  have hms : pre ++ ⟨REF_PHANDLE, k, r⟩ :: post ≠ [] := by simp
  unfold yaml_propval
  simp only [data.len]
  rw [if_neg hne, if_pos hms, yaml_propval_loop_split]
  rw [yaml_propval_loop_data val val.length _ ⟨REF_PHANDLE, k, r⟩ post hk hb]
  have he : ∀ e, yaml_next_emit_type e ⟨REF_PHANDLE, k, r⟩ = REF_PHANDLE := fun _ => rfl
  rw [he]
  have hlen : (segment_bytes val (k, next_offset val.length post - k)).length
      = next_offset val.length post - k := by
    simp only [segment_bytes, List.length_take, List.length_drop]; omega
  have hchunk : yaml_chunk REF_PHANDLE
      ((val.drop k).take (next_offset val.length post - k)) =
      some (if (next_offset val.length post - k) % 4 = 0 then
          yaml_sequence "!u32" true
            (elements 4 (segment_bytes val (k, next_offset val.length post - k)))
        else
          yaml_sequence "!u8" false
            ((segment_bytes val (k, next_offset val.length post - k)).map (fun b => b.val))) := by
    show yaml_propval_int (segment_bytes val (k, next_offset val.length post - k)) 4 = _
    by_cases h4 : (next_offset val.length post - k) % 4 = 0
    · rw [if_pos h4, yaml_propval_int_fit 4 (by decide) _ (by rw [hlen]; exact h4)]; rfl
    · rw [if_neg h4, yaml_propval_int_misfit 4 _ (by rw [hlen]; exact h4)]
  rw [hchunk]


theorem yaml_propval_string_rule_witness :
    ((∀ b ∈ ([0x61, 0x80, 0] : List Byte), b.val < 128) →
        yaml_propval_string [0x61, 0x80, 0] =
          some [scalar YAML_STR_TAG (([0x61, 0x80, 0] : List Byte).dropLast.map byte_char)
            false true YAML_DOUBLE_QUOTED_SCALAR_STYLE]) ∧
      (¬ (∀ b ∈ ([0x61, 0x80, 0] : List Byte), b.val < 128) →
        yaml_propval_string [0x61, 0x80, 0] =
          some (yaml_sequence "!u8" false (([0x61, 0x80, 0] : List Byte).map (fun b => b.val))) ∧
        (([0x61, 0x80, 0] : List Byte).map (fun b => b.val)).length
          = ([0x61, 0x80, 0] : List Byte).length) ∧
      (yaml_propval_string [0x61, 0x80, 0] =
          some [scalar YAML_STR_TAG (([0x61, 0x80, 0] : List Byte).dropLast.map byte_char)
            false true YAML_DOUBLE_QUOTED_SCALAR_STYLE] ↔
        ∀ b ∈ ([0x61, 0x80, 0] : List Byte), b.val < 128) :=
  yaml_propval_string_rule [0x61, 0x80, 0] (by decide)

theorem width_mismatch_witness :
    yaml_propval_int [0, 0, 0, 1, 0, 2] 4 =
        some (yaml_sequence "!u8" false (([0, 0, 0, 1, 0, 2] : List Byte).map (fun b => b.val))) ∧
      yaml_chunk (width_type 4) [0, 0, 0, 1, 0, 2] =
        some (yaml_sequence "!u8" false (([0, 0, 0, 1, 0, 2] : List Byte).map (fun b => b.val))) ∧
      (∀ (val : List Byte) (len : Nat) (e : markertype) (m : marker) (rest : List marker),
        yaml_next_emit_type e m = width_type 4 → m.offset < next_offset len rest →
        next_offset len rest ≤ val.length →
        (val.drop m.offset).take (next_offset len rest - m.offset) = [0, 0, 0, 1, 0, 2] →
        yaml_propval_loop val len e (m :: rest) =
          (yaml_propval_loop val len (width_type 4) rest).map
            (yaml_sequence "!u8" false (([0, 0, 0, 1, 0, 2] : List Byte).map (fun b => b.val))
              ++ ·)) ∧
      write_propval_int [0, 0, 0, 1, 0, 2] 4 = none ∧
      write_chunk true (width_type 4) [0, 0, 0, 1, 0, 2] = none :=
  width_mismatch true 4 (by decide) [0, 0, 0, 1, 0, 2] (by decide)

/-- C16 as stated fails for the source-text emitter: six bytes under a UINT32
marker abort `write_propval` (nothing is returned), while `yaml_propval`
renders them as six `!u8` elements. -/
theorem width_mismatch_counterexample :
    ex_six_bytes_cells.val.length % 4 ≠ 0 ∧
      write_propval true ⟨"p", ex_six_bytes_cells⟩ = none ∧
      yaml_propval ⟨"p", ex_six_bytes_cells⟩ =
        some (scalar YAML_STR_TAG "p".toList true true YAML_PLAIN_SCALAR_STYLE ::
          sequence_start YAML_SEQ_TAG true YAML_FLOW_SEQUENCE_STYLE ::
          (yaml_sequence "!u8" false [0, 0, 0, 1, 0, 2] ++ [sequence_end])) := by
  decide

theorem yaml_phandle_segment_witness :
    yaml_propval ⟨"p", ⟨[0, 0, 0, 1, 0, 0, 0, 2],
        [⟨MARKER_UINT32, 0, ""⟩] ++ ⟨REF_PHANDLE, 4, "/a"⟩ :: []⟩⟩ =
      some (scalar YAML_STR_TAG "p".toList true true YAML_PLAIN_SCALAR_STYLE ::
        sequence_start YAML_SEQ_TAG true YAML_FLOW_SEQUENCE_STYLE ::
        (yaml_sequence "!u32" true [1] ++ yaml_sequence "!u32" true [2] ++ [sequence_end])) :=
  yaml_phandle_segment "p" [0, 0, 0, 1, 0, 0, 0, 2] [⟨MARKER_UINT32, 0, ""⟩] [] "/a" 4
    (by decide) (by decide)

/-- C14 as stated fails: a phandle reference whose segment has six bytes is
rendered as six `!u8` elements, not as `!u32` integers. -/
theorem yaml_phandle_segment_counterexample :
    yaml_propval ⟨"p", ex_six_bytes_phandle⟩ =
        some (scalar YAML_STR_TAG "p".toList true true YAML_PLAIN_SCALAR_STYLE ::
          sequence_start YAML_SEQ_TAG true YAML_FLOW_SEQUENCE_STYLE ::
          (yaml_sequence "!u8" false [0, 0, 0, 1, 0, 2] ++ [sequence_end])) ∧
      yaml_chunk REF_PHANDLE ex_six_bytes_phandle.val
        = some (yaml_sequence "!u8" false [0, 0, 0, 1, 0, 2]) := by
  decide

/-! ## The guess on buffers without markers (C17, C18) -/

/-- The chain of a non-empty buffer without markers: one dummy marker at
offset 0 carrying the guess over the whole buffer. -/
theorem write_propval_chain_markerless (val : List Byte) (hne : val ≠ []) :
    write_propval_chain ⟨val, []⟩ = some [marker.mk (guess_type val [] val.length) 0 ""] := by
  have hlen : val.length ≠ 0 := by simpa using hne
  simp [write_propval_chain, leading_chunk_len, next_type_marker, data.len, hlen]

/-- The guess over a whole buffer without markers. -/
theorem guess_type_markerless (val : List Byte) (hne : val ≠ []) :
    guess_type val [] val.length =
      if val.getLast? = some 0 ∧ (∀ b ∈ val, isstring b = true) ∧
          val.countP (fun b => b == 0) < val.countP (fun b => b != 0) then MARKER_STRING
      else if val.length % 4 = 0 then MARKER_UINT32
      else MARKER_UINT8 := by
  have hl : 0 < val.length := List.length_pos.2 hne
  have e1 : (val.getD (val.length - 1) 0).val = 0 ↔ val.getLast? = some 0 := by
    rw [List.getD_eq_getElem?_getD, List.getLast?_eq_getElem?]
    rw [List.getElem?_eq_getElem (by omega)]
    simp [Fin.ext_iff]
  have e3 : count_nul val < val.length - count_nul val ↔
      val.countP (fun b => b == 0) < val.countP (fun b => b != 0) := by
    rw [count_nul_countP]
    have := countP_nul_add val
    omega
  unfold guess_type
  simp only [List.take_length, label_counts, and_true, e1, e3, count_notstring_zero]

/-- The guessed type always fits a whole buffer without markers. -/
theorem guess_type_markerless_ok (val : List Byte) (hne : val ≠ []) :
    chunk_ok (guess_type val [] val.length) val = true := by
  rw [guess_type_markerless val hne]
  split_ifs with h1 h2
  · simp [chunk_ok, h1.1]
  · simp [chunk_ok, h2]
  · rfl

/-- A non-empty buffer without markers is written as one chunk of the guessed
type. -/
theorem write_propval_markerless (sc : Bool) (name : String) (val : List Byte) (hne : val ≠ []) :
    write_propval sc ⟨name, ⟨val, []⟩⟩ =
      some (" = ".toList ++ delim_start (guess_type val [] val.length)
        ++ chunk_text sc (guess_type val [] val.length) val
        ++ delim_end (guess_type val [] val.length) ++ ";\n".toList) := by
  have h := write_propval_single sc name val (guess_type val [] val.length) "" hne
    (guess_type_markerless_ok val hne)
  rw [← h]
  have hlen : val.length ≠ 0 := by simpa using hne
  have ht : is_annot_kind (guess_type val [] val.length) = false := by
    rw [guess_type_markerless val hne]; split_ifs <;> rfl
  rw [write_propval_typed sc name val _ _ hne ht rfl]
  simp [write_propval, data.len, hlen, write_propval_chain_markerless val hne]

/-- C17, amended: a non-empty buffer without markers, none of whose bytes is
printable, gets a dummy marker whose type is STRING exactly when the last byte
is NUL, every byte is NUL or one of `\a \b \t \n \v \f \r` and the NUL
bytes are fewer than the others (then it is written as a quoted string);
otherwise it is UINT32, written between `<` and ` >`, when the length is a
multiple of 4, and UINT8, written between `[` and ` ]`, when it is not. With
no byte among `\a \b \t \n \v \f \r` it is never STRING. -/
theorem guess_nonprintable (sc : Bool) (name : String) (val : List Byte) (hne : val ≠ [])
    (hnp : ∀ b ∈ val, isprint b = false) :
    write_propval_chain ⟨val, []⟩ = some [marker.mk (guess_type val [] val.length) 0 ""] ∧
      (guess_type val [] val.length = MARKER_STRING ↔
        val.getLast? = some 0 ∧ (∀ b ∈ val, b = 0 ∨ b.val ∈ [7, 8, 9, 10, 11, 12, 13]) ∧
          val.countP (fun b => b == 0) < val.countP (fun b => b != 0)) ∧
      ((∀ b ∈ val, b.val ∉ [7, 8, 9, 10, 11, 12, 13]) →
        guess_type val [] val.length ≠ MARKER_STRING) ∧
      (guess_type val [] val.length = MARKER_STRING →
        write_propval sc ⟨name, ⟨val, []⟩⟩ =
          some (" = ".toList ++ quoted sc val.dropLast ++ ";\n".toList)) ∧
      (guess_type val [] val.length ≠ MARKER_STRING → val.length % 4 = 0 →
        guess_type val [] val.length = MARKER_UINT32 ∧
        write_propval sc ⟨name, ⟨val, []⟩⟩ =
          some (" = <".toList ++ int_tokens 4 val ++ " >;\n".toList)) ∧
      (guess_type val [] val.length ≠ MARKER_STRING → val.length % 4 ≠ 0 →
        guess_type val [] val.length = MARKER_UINT8 ∧
        write_propval sc ⟨name, ⟨val, []⟩⟩ =
          some (" = [".toList ++ int_tokens 1 val ++ " ];\n".toList)) := by
  have hw := write_propval_markerless sc name val hne
  have hg := guess_type_markerless val hne
  have hstr : (∀ b ∈ val, isstring b = true) ↔
      ∀ b ∈ val, b = 0 ∨ b.val ∈ [7, 8, 9, 10, 11, 12, 13] := by
    refine forall₂_congr (fun b hb => ?_)
    rw [isstring_iff, hnp b hb]
    simp
  have hS : guess_type val [] val.length = MARKER_STRING ↔
      val.getLast? = some 0 ∧ (∀ b ∈ val, b = 0 ∨ b.val ∈ [7, 8, 9, 10, 11, 12, 13]) ∧
        val.countP (fun b => b == 0) < val.countP (fun b => b != 0) := by
    rw [hg, ← hstr]
    by_cases h1 : val.getLast? = some 0 ∧ (∀ b ∈ val, isstring b = true) ∧
        val.countP (fun b => b == 0) < val.countP (fun b => b != 0)
    · rw [if_pos h1]
      exact ⟨fun _ => h1, fun _ => rfl⟩
    · rw [if_neg h1]
      refine ⟨fun h => ?_, fun h => absurd h h1⟩
      split_ifs at h
  refine ⟨write_propval_chain_markerless val hne, hS, ?_, ?_, ?_, ?_⟩
  · intro hno hs
    obtain ⟨_, hall, hlt⟩ := hS.1 hs
    have hz : ∀ b ∈ val, b = 0 := fun b hb => (hall b hb).resolve_right (hno b hb)
    have h0 : val.countP (fun b => b != 0) = 0 := by
      rw [List.countP_eq_zero]
      intro b hb
      simp [hz b hb]
    omega
  · intro hs
    rw [hw, hs]
    simp [delim_start, delim_end, chunk_text, quoted]
  · intro hs h4
    have h32 : guess_type val [] val.length = MARKER_UINT32 := by
      rw [hg] at hs ⊢
      split_ifs at hs ⊢ with h1
      · exact absurd rfl hs
      · rfl
    refine ⟨h32, ?_⟩
    rw [hw, h32]
    simp [delim_start, delim_end, chunk_text]
  · intro hs h4
    have h8 : guess_type val [] val.length = MARKER_UINT8 := by
      rw [hg] at hs ⊢
      split_ifs at hs ⊢ with h1
      · exact absurd rfl hs
      · rfl
    refine ⟨h8, ?_⟩
    rw [hw, h8]
    simp [delim_start, delim_end, chunk_text]

/-- C18: a buffer without markers made of `n` printable bytes followed by one
NUL is classified as STRING and written as one double-quoted string when
`n ≥ 2`, whatever its length modulo 4 (no byte of it opens a second quoted
segment); for `n = 0` and `n = 1` it is classified as UINT8 and written as a
byte array. -/
theorem guess_text (sc : Bool) (name : String) (s : List Byte)
    (hp : ∀ b ∈ s, isprint b = true) :
    (2 ≤ s.length →
        guess_type (s ++ [0]) [] (s ++ [0]).length = MARKER_STRING ∧
        write_propval sc ⟨name, ⟨s ++ [0], []⟩⟩ =
          some (" = ".toList ++ quoted sc s ++ ";\n".toList) ∧
        ∀ b ∈ s, string_case sc b ≠ ['"', ',', ' ', '"']) ∧
      (s.length < 2 →
        guess_type (s ++ [0]) [] (s ++ [0]).length = MARKER_UINT8 ∧
        write_propval sc ⟨name, ⟨s ++ [0], []⟩⟩ =
          some (" = [".toList ++ int_tokens 1 (s ++ [0]) ++ " ];\n".toList)) := by
  have hne : s ++ [0] ≠ [] := by simp
  have hw := write_propval_markerless sc name (s ++ [0]) hne
  have hg := guess_type_markerless (s ++ [0]) hne
  have hnz : ∀ b ∈ s, b ≠ 0 := by
    intro b hb h0
    have := hp b hb
    rw [h0] at this
    exact absurd this (by decide)
  have hall : ∀ b ∈ s ++ [0], isstring b = true := by
    intro b hb
    rcases List.mem_append.1 hb with h | h
    · simp [isstring, hp b h]
    · simp at h; rw [h]; rfl
  have hc0 : (s ++ [(0 : Byte)]).countP (fun b => b == 0) = 1 := by
    rw [List.countP_append]
    have : s.countP (fun b => b == 0) = 0 := by
      rw [List.countP_eq_zero]
      intro b hb
      simpa using hnz b hb
    rw [this]
    rfl
  have hc1 : (s ++ [(0 : Byte)]).countP (fun b => b != 0) = s.length := by
    have := countP_nul_add (s ++ [(0 : Byte)])
    rw [hc0] at this
    simp only [List.length_append, List.length_singleton] at this
    omega
  have hlast : (s ++ [(0 : Byte)]).getLast? = some 0 := by simp
  constructor
  · intro hn
    have hS : guess_type (s ++ [0]) [] (s ++ [0]).length = MARKER_STRING := by
      rw [hg, if_pos ⟨hlast, hall, by rw [hc0, hc1]; omega⟩]
    refine ⟨hS, ?_, fun b hb => string_case_no_split sc b (hnz b hb)⟩
    rw [hw, hS]
    simp [delim_start, delim_end, chunk_text, quoted]
  · intro hn
    have h8 : guess_type (s ++ [0]) [] (s ++ [0]).length = MARKER_UINT8 := by
      rw [hg, if_neg (by rw [hc0, hc1]; intro h; omega), if_neg (by simp; omega)]
    refine ⟨h8, ?_⟩
    rw [hw, h8]
    simp [delim_start, delim_end, chunk_text]


set_option maxRecDepth 100000 in
theorem guess_nonprintable_witness :
    (∀ b ∈ ([1, 2, 3] : List Byte), isprint b = false) ∧
      guess_type [1, 2, 3] [] 3 = MARKER_UINT8 ∧
      write_propval true ⟨"p", ⟨[1, 2, 3], []⟩⟩ =
        some (" = [".toList ++ int_tokens 1 [1, 2, 3] ++ " ];\n".toList) :=
  ⟨by decide,
    (guess_nonprintable true "p" [1, 2, 3] (by decide) (by decide)).2.2.2.2.2
      (by decide) (by decide)⟩

set_option maxRecDepth 100000 in
/-- C17 as stated fails: tabs are not printable but string-like, so two tabs
and a NUL (3 bytes) and seven tabs and a NUL (8 bytes) are classified as
STRING and written as quoted strings. -/
theorem guess_nonprintable_counterexample :
    (∀ b ∈ ex_tabs.val, isprint b = false) ∧ ex_tabs.val.length % 4 ≠ 0 ∧
      write_propval_chain ex_tabs = some [⟨MARKER_STRING, 0, ""⟩] ∧
      write_propval true ⟨"p", ex_tabs⟩ = some " = \"\\t\\t\";\n".toList ∧
      (∀ b ∈ ex_tabs_eight.val, isprint b = false) ∧ ex_tabs_eight.val.length % 4 = 0 ∧
      write_propval_chain ex_tabs_eight = some [⟨MARKER_STRING, 0, ""⟩] ∧
      write_propval true ⟨"p", ex_tabs_eight⟩ = some " = \"\\t\\t\\t\\t\\t\\t\\t\";\n".toList := by
  decide

set_option maxRecDepth 100000 in
theorem guess_text_witness :
    (∀ b ∈ ([0x61, 0x62, 0x63] : List Byte), isprint b = true) ∧
      guess_type [0x61, 0x62, 0x63, 0] [] 4 = MARKER_STRING ∧
      write_propval true ⟨"p", ⟨[0x61, 0x62, 0x63, 0], []⟩⟩ = some " = \"abc\";\n".toList :=
  ⟨by decide,
    ((guess_text true "p" [0x61, 0x62, 0x63] (by decide)).1 (by decide)).1,
    ((guess_text true "p" [0x61, 0x62, 0x63] (by decide)).1 (by decide)).2.1⟩

/-! ## The guess never trips an assertion (C20) -/

/-- The data `switch` returns exactly when the assertion of the helper it
calls holds. -/
theorem write_chunk_isSome (sc : Bool) (e : markertype) (p : List Byte) :
    (write_chunk sc e p).isSome = assert_ok e p := by
  have hi : ∀ w, (write_propval_int p w).isSome = (p.length % w == 0) := by
    intro w
    unfold write_propval_int
    by_cases h : p.length % w = 0 <;> simp [h]
  have hs : (write_propval_string sc p).isSome = (p.getLast? == some 0) := by
    unfold write_propval_string
    cases hl : p.getLast? with
    | none => rfl
    | some x =>
      by_cases hx : x.val = 0
      · have : x = 0 := Fin.ext hx
        simp [hx, this]
      · have : x ≠ 0 := fun h => hx (by rw [h]; rfl)
        simp [hx, this]
  cases e <;> simp only [write_chunk, assert_ok, hi, hs]

/-- One step of the typed segments on an ordered chain. -/
theorem write_typed_segments_cons (len : Nat) (e : markertype) (m : marker)
    (rest : List marker) (h : m.offset ≤ next_offset len rest) :
    write_typed_segments len e (m :: rest) =
      if next_offset len rest - m.offset = 0 then
        write_typed_segments len (next_emit_type e m) rest
      else (next_emit_type e m, m.offset, next_offset len rest - m.offset) ::
        write_typed_segments len (next_emit_type e m) rest := by
  rw [write_typed_segments]
  rw [if_neg (show ¬ next_offset len rest < m.offset by omega)]

/-- The typed segments of an ordered chain: each is non-empty, lies inside the
buffer, starts at a marker, ends at a later marker or at the end of the
buffer, and carries the type in force behind the first marker or the type of a
later type marker. -/
theorem write_typed_segments_mem (len : Nat) (rest : List marker) :
    ∀ (e : markertype) (m : marker), markers_ordered len (m :: rest) →
      ∀ s ∈ write_typed_segments len e (m :: rest),
        0 < s.2.2 ∧ s.2.1 + s.2.2 ≤ len ∧ (∃ x ∈ m :: rest, x.offset = s.2.1) ∧
        (s.2.1 + s.2.2 = len ∨ ∃ x ∈ rest, x.offset = s.2.1 + s.2.2) ∧
        (s.1 = next_emit_type e m ∨ ∃ x ∈ rest, is_type_marker x.type = true ∧ s.1 = x.type) := by
  induction rest with
  | nil =>
    intro e m hord s hs
    have hm : m.offset ≤ len := hord.2 m (List.mem_cons_self _ _)
    rw [write_typed_segments_cons len e m [] (by simpa [next_offset] using hm)] at hs
    simp only [next_offset, write_typed_segments] at hs
    by_cases h0 : len - m.offset = 0
    · rw [if_pos h0] at hs; cases hs
    · rw [if_neg h0] at hs
      simp only [List.mem_singleton] at hs
      subst hs
      refine ⟨by simp; omega, by simp; omega, ⟨m, List.mem_cons_self _ _, rfl⟩, Or.inl (by simp; omega),
        Or.inl rfl⟩
  | cons n rest ih =>
    intro e m hord s hs
    have hmn : m.offset ≤ n.offset := by
      simpa [next_offset] using next_offset_ge len m (n :: rest) hord
    have hn : n.offset ≤ len := hord.2 n (by simp)
    have htl := markers_ordered_tail len m (n :: rest) hord
    rw [write_typed_segments_cons len e m (n :: rest) (by simpa [next_offset] using hmn)] at hs
    simp only [next_offset] at hs
    have hrec : ∀ s ∈ write_typed_segments len (next_emit_type e m) (n :: rest),
        0 < s.2.2 ∧ s.2.1 + s.2.2 ≤ len ∧ (∃ x ∈ m :: n :: rest, x.offset = s.2.1) ∧
        (s.2.1 + s.2.2 = len ∨ ∃ x ∈ n :: rest, x.offset = s.2.1 + s.2.2) ∧
        (s.1 = next_emit_type e m ∨
          ∃ x ∈ n :: rest, is_type_marker x.type = true ∧ s.1 = x.type) := by
      intro s hs
      obtain ⟨h1, h2, ⟨x, hx, hxo⟩, h4, h5⟩ := ih (next_emit_type e m) n htl s hs
      refine ⟨h1, h2, ⟨x, List.mem_cons_of_mem _ hx, hxo⟩, ?_, ?_⟩
      · rcases h4 with h | ⟨y, hy, hyo⟩
        · exact Or.inl h
        · exact Or.inr ⟨y, List.mem_cons_of_mem _ hy, hyo⟩
      · rcases h5 with h | ⟨y, hy, hyt⟩
        · by_cases ht : is_type_marker n.type = true
          · exact Or.inr ⟨n, List.mem_cons_self _ _, ht, by rw [h, next_emit_type, if_pos ht]⟩
          · exact Or.inl (by rw [h, next_emit_type, if_neg ht])
        · exact Or.inr ⟨y, List.mem_cons_of_mem _ hy, hyt⟩
    by_cases h0 : n.offset - m.offset = 0
    · rw [if_pos h0] at hs
      exact hrec s hs
    · rw [if_neg h0] at hs
      rcases List.mem_cons.1 hs with rfl | hs
      · refine ⟨by simp; omega, by simp; omega, ⟨m, List.mem_cons_self _ _, rfl⟩,
          Or.inr ⟨n, List.mem_cons_self _ _, by simp; omega⟩, Or.inl rfl⟩
      · exact hrec s hs

/-- The loop of `write_propval` returns when every typed segment of an ordered
chain passes the assertion of the helper it is handed to. -/
theorem write_propval_loop_isSome (sc : Bool) (val : List Byte) :
    ∀ (ms : List marker) (e : markertype), markers_ordered val.length ms →
      (∀ s ∈ write_typed_segments val.length e ms,
        assert_ok s.1 (segment_bytes val s.2) = true) →
      (write_propval_loop sc val e ms).isSome = true := by
  intro ms
  induction ms with
  | nil => intro e _ _; rfl
  | cons m rest ih =>
    intro e hord hall
    have hge := next_offset_ge val.length m rest hord
    have hle : next_offset val.length rest ≤ val.length := by
      cases rest with
      | nil => exact le_refl _
      | cons n r => exact hord.2 n (by simp)
    have htl := markers_ordered_tail val.length m rest hord
    rw [write_typed_segments_cons val.length e m rest hge] at hall
    by_cases h0 : next_offset val.length rest = m.offset
    · rw [write_propval_loop_empty sc val e m rest h0]
      rw [if_pos (by omega)] at hall
      have := ih (next_emit_type e m) htl hall
      simpa using this
    · rw [write_propval_loop_data sc val e m rest (by omega) hle]
      rw [if_neg (by omega)] at hall
      have h1 := hall _ (List.mem_cons_self _ _)
      have h2 := ih (next_emit_type e m) htl (fun s hs => hall s (List.mem_cons_of_mem _ hs))
      simp only [segment_bytes] at h1
      rw [← write_chunk_isSome sc] at h1
      obtain ⟨d, hd⟩ := Option.isSome_iff_exists.1 h1
      obtain ⟨r, hr⟩ := Option.isSome_iff_exists.1 h2
      rw [hd, hr]
      rfl

/-- The last byte of a non-empty segment that lies inside the buffer. -/
theorem segment_bytes_getLast (val : List Byte) (a l : Nat) (hl : 0 < l)
    (hb : a + l ≤ val.length) :
    (segment_bytes val (a, l)).getLast? = some (val.getD (a + l - 1) 0) := by
  unfold segment_bytes
  simp only
  rw [List.getLast?_eq_getElem?]
  have hlen : ((val.drop a).take l).length = l := by
    rw [List.length_take, List.length_drop]; omega
  rw [hlen, List.getElem?_take_of_lt (by omega), List.getElem?_drop,
    List.getD_eq_getElem?_getD]
  have : a + (l - 1) = a + l - 1 := by omega
  rw [this, List.getElem?_eq_getElem (by omega)]
  rfl

theorem segment_bytes_length (val : List Byte) (a l : Nat) (hb : a + l ≤ val.length) :
    (segment_bytes val (a, l)).length = l := by
  unfold segment_bytes
  simp only
  rw [List.length_take, List.length_drop]; omega

theorem next_type_marker_labels (ms : List marker) (h : ∀ m ∈ ms, m.type = LABEL) :
    next_type_marker ms = [] := by
  induction ms with
  | nil => rfl
  | cons m rest ih =>
    have hm : is_annot_kind m.type = true := by rw [h m (List.mem_cons_self _ _)]; rfl
    rw [next_type_marker, if_pos hm]
    exact ih (fun x hx => h x (List.mem_cons_of_mem _ hx))

/-- C20: for a non-empty buffer whose chain holds only LABEL markers with
non-decreasing offsets at most the length, `write_propval` walks the chain
behind a dummy marker; every segment it hands to a helper is non-empty, lies
in the buffer and has type STRING, UINT32 or UINT8 (never MARKER_NONE); a
STRING segment ends in NUL and a UINT32 segment has a length that is a
multiple of 4 (a UINT8 one of 1), so the assertion of the helper holds, and
`write_propval` returns. -/
theorem guess_never_asserts (sc : Bool) (name : String) (d : data) (hne : d.val ≠ [])
    (hlab : ∀ m ∈ d.markers, m.type = LABEL) (hord : markers_ordered d.len d.markers) :
    ∃ ms, write_propval_chain d = some ms ∧
      (∀ s ∈ write_typed_segments d.len MARKER_NONE ms,
        0 < s.2.2 ∧ s.2.1 + s.2.2 ≤ d.len ∧
        (s.1 = MARKER_STRING ∨ s.1 = MARKER_UINT32 ∨ s.1 = MARKER_UINT8) ∧
        (s.1 = MARKER_STRING → (segment_bytes d.val s.2).getLast? = some 0) ∧
        (s.1 = MARKER_UINT32 → (segment_bytes d.val s.2).length % 4 = 0) ∧
        (s.1 = MARKER_UINT8 → (segment_bytes d.val s.2).length % 1 = 0) ∧
        assert_ok s.1 (segment_bytes d.val s.2) = true) ∧
      (write_propval sc ⟨name, d⟩).isSome = true := by
  obtain ⟨val, ms⟩ := d
  simp only [data.len] at hlab hord ⊢
  have hl : 0 < val.length := List.length_pos.2 hne
  have hlen : val.length ≠ 0 := by omega
  have hntm := next_type_marker_labels ms hlab
  have hchain : write_propval_chain ⟨val, ms⟩ =
      some (marker.mk (guess_type val ms val.length) 0 "" :: ms) := by
    simp [write_propval_chain, leading_chunk_len, hntm, data.len, hlen]
  have hlc := label_counts_zero val val.length ms hord.1 (0, 0)
  have hord2 := markers_ordered_dummy val.length ms (guess_type val ms val.length) "" hord
  -- the three outcomes of the guess
  have hg : (guess_type val ms val.length = MARKER_STRING ∧
        (val.getD (val.length - 1) 0).val = 0 ∧
        (∀ m ∈ ms, m.offset < val.length → 0 < m.offset →
          (val.getD (m.offset - 1) 0).val = 0)) ∨
      (guess_type val ms val.length = MARKER_UINT32 ∧ val.length % 4 = 0 ∧
        (∀ m ∈ ms, m.offset < val.length → m.offset % 4 = 0)) ∨
      guess_type val ms val.length = MARKER_UINT8 := by
    unfold guess_type
    simp only
    split_ifs with h1 h2
    · refine Or.inl ⟨rfl, h1.1, ?_⟩
      intro m hm hlt hpos
      have := (hlc.1.1 h1.2.2.2).2 m hm (hlab m hm) hlt
      by_contra hc
      exact this ⟨hpos, hc⟩
    · refine Or.inr (Or.inl ⟨rfl, h2.1, ?_⟩)
      intro m hm hlt
      have := (hlc.2.1 h2.2).2 m hm (hlab m hm) hlt
      omega
    · exact Or.inr (Or.inr rfl)
  have hsegs : ∀ s ∈ write_typed_segments val.length MARKER_NONE
        (marker.mk (guess_type val ms val.length) 0 "" :: ms),
      0 < s.2.2 ∧ s.2.1 + s.2.2 ≤ val.length ∧
        (s.1 = MARKER_STRING ∨ s.1 = MARKER_UINT32 ∨ s.1 = MARKER_UINT8) ∧
        (s.1 = MARKER_STRING → (segment_bytes val s.2).getLast? = some 0) ∧
        (s.1 = MARKER_UINT32 → (segment_bytes val s.2).length % 4 = 0) ∧
        (s.1 = MARKER_UINT8 → (segment_bytes val s.2).length % 1 = 0) ∧
        assert_ok s.1 (segment_bytes val s.2) = true := by
    intro s hs
    obtain ⟨h1, h2, ⟨x, hx, hxo⟩, h4, h5⟩ :=
      write_typed_segments_mem val.length ms MARKER_NONE _ hord2 s hs
    obtain ⟨t, a, l⟩ := s
    simp only at h1 h2 hxo h4 h5 ⊢
    have ht : t = guess_type val ms val.length := by
      rcases h5 with h | ⟨y, hy, hyt, _⟩
      · have hty : is_type_marker (guess_type val ms val.length) = true := by
          rcases hg with h | h | h
          · rw [h.1]; rfl
          · rw [h.1]; rfl
          · rw [h]; rfl
        rw [h]
        simp [next_emit_type, hty]
      · rw [hlab y hy] at hyt
        exact absurd hyt (by decide)
    have hlenseg := segment_bytes_length val a l h2
    have hlast := segment_bytes_getLast val a l h1 h2
    -- the start is 0 or the offset of a label, the end the length or such an offset
    have ha : a = 0 ∨ ∃ m ∈ ms, m.offset = a := by
      rcases List.mem_cons.1 hx with rfl | hx
      · exact Or.inl hxo.symm
      · exact Or.inr ⟨x, hx, hxo⟩
    rcases hg with ⟨hS, hend, hlbl⟩ | ⟨hU, h4len, hlbl⟩ | h8
    · have hnul : (segment_bytes val (a, l)).getLast? = some 0 := by
        rw [hlast]
        congr 1
        apply Fin.ext
        rcases h4 with h | ⟨y, hy, hyo⟩
        · rw [h]; exact hend
        · by_cases hlt : y.offset < val.length
          · have := hlbl y hy hlt (by omega)
            rw [hyo] at this
            exact this
          · have : a + l = val.length := by omega
            rw [this]; exact hend
      rw [ht, hS]
      refine ⟨h1, h2, Or.inl rfl, fun _ => hnul, fun h => (by cases h), fun h => (by cases h), ?_⟩
      simp [assert_ok, hnul]
    · have ha4 : a % 4 = 0 := by
        rcases ha with h | ⟨y, hy, hyo⟩
        · omega
        · have := hlbl y hy (by omega)
          omega
      have hb4 : (a + l) % 4 = 0 := by
        rcases h4 with h | ⟨y, hy, hyo⟩
        · omega
        · by_cases hlt : y.offset < val.length
          · have := hlbl y hy hlt
            omega
          · have : a + l = val.length := by omega
            omega
      have hl4 : (segment_bytes val (a, l)).length % 4 = 0 := by rw [hlenseg]; omega
      rw [ht, hU]
      refine ⟨h1, h2, Or.inr (Or.inl rfl), fun h => (by cases h), fun _ => hl4,
        fun h => (by cases h), ?_⟩
      simp [assert_ok, hl4]
    · rw [ht, h8]
      refine ⟨h1, h2, Or.inr (Or.inr rfl), fun h => (by cases h), fun h => (by cases h),
        fun _ => Nat.mod_one _, ?_⟩
      simp [assert_ok, Nat.mod_one]
  refine ⟨_, hchain, hsegs, ?_⟩
  have hloop := write_propval_loop_isSome sc val _ MARKER_NONE hord2
    (fun s hs => (hsegs s hs).2.2.2.2.2.2)
  simp only [write_propval, data.len, hlen, if_false, hchain]
  simpa using hloop


theorem guess_never_asserts_witness :
    write_propval_chain ex_labelled_strings =
        some (⟨MARKER_STRING, 0, ""⟩ :: ex_labelled_strings.markers) ∧
      write_typed_segments ex_labelled_strings.len MARKER_NONE
          (⟨MARKER_STRING, 0, ""⟩ :: ex_labelled_strings.markers) =
        [(MARKER_STRING, 0, 3), (MARKER_STRING, 3, 3)] ∧
      ∃ ms, write_propval_chain ex_labelled_strings = some ms ∧
        (∀ s ∈ write_typed_segments ex_labelled_strings.len MARKER_NONE ms,
          0 < s.2.2 ∧ s.2.1 + s.2.2 ≤ ex_labelled_strings.len ∧
          (s.1 = MARKER_STRING ∨ s.1 = MARKER_UINT32 ∨ s.1 = MARKER_UINT8) ∧
          (s.1 = MARKER_STRING → (segment_bytes ex_labelled_strings.val s.2).getLast? = some 0) ∧
          (s.1 = MARKER_UINT32 → (segment_bytes ex_labelled_strings.val s.2).length % 4 = 0) ∧
          (s.1 = MARKER_UINT8 → (segment_bytes ex_labelled_strings.val s.2).length % 1 = 0) ∧
          assert_ok s.1 (segment_bytes ex_labelled_strings.val s.2) = true) ∧
        (write_propval true ⟨"p", ex_labelled_strings⟩).isSome = true :=
  ⟨by decide, by decide,
    guess_never_asserts true "p" ex_labelled_strings (by decide) (by decide) (by decide)⟩

/-! ## Labels and the types of the YAML segments (C19) -/

theorem yaml_typed_segments_cons (len : Nat) (e : markertype) (m : marker)
    (rest : List marker) (h : m.offset ≤ next_offset len rest) :
    yaml_typed_segments len e (m :: rest) =
      if next_offset len rest = m.offset then
        yaml_typed_segments len (yaml_next_emit_type e m) rest
      else (yaml_next_emit_type e m, m.offset, next_offset len rest - m.offset) ::
        yaml_typed_segments len (yaml_next_emit_type e m) rest := by
  rw [yaml_typed_segments]
  by_cases h0 : next_offset len rest = m.offset
  · rw [if_pos h0, if_pos (show (next_offset len rest : Int) - (m.offset : Int) ≤ 0 by omega)]
  · rw [if_neg h0, if_neg (show ¬ (next_offset len rest : Int) - (m.offset : Int) ≤ 0 by omega)]

/-- On an ordered chain the loop of `yaml_propval` renders its typed segments
in order. -/
theorem yaml_propval_loop_typed (val : List Byte) :
    ∀ (ms : List marker) (e : markertype), markers_ordered val.length ms →
      yaml_propval_loop val val.length e ms =
        yaml_render_segments val (yaml_typed_segments val.length e ms) := by
  intro ms
  induction ms with
  | nil => intro e _; rfl
  | cons m rest ih =>
    intro e hord
    have hge := next_offset_ge val.length m rest hord
    have hle : next_offset val.length rest ≤ val.length := by
      cases rest with
      | nil => exact le_refl _
      | cons n r => exact hord.2 n (by simp)
    have htl := markers_ordered_tail val.length m rest hord
    rw [yaml_typed_segments_cons val.length e m rest hge]
    by_cases h0 : next_offset val.length rest = m.offset
    · rw [if_pos h0, yaml_propval_loop_empty val val.length e m rest (by omega)]
      exact ih _ htl
    · rw [if_neg h0, yaml_propval_loop_data val val.length e m rest (by omega) hle]
      rw [yaml_render_segments, ih _ htl]
      rfl

/-- Every typed segment starts at the offset of a marker. -/
theorem yaml_typed_segments_start (len : Nat) :
    ∀ (ms : List marker) (e : markertype), ∀ s ∈ yaml_typed_segments len e ms,
      ∃ m ∈ ms, m.offset = s.2.1 := by
  intro ms
  induction ms with
  | nil => intro e s hs; cases hs
  | cons m rest ih =>
    intro e s hs
    rw [yaml_typed_segments] at hs
    split_ifs at hs with h
    · obtain ⟨x, hx, hxo⟩ := ih _ s hs
      exact ⟨x, List.mem_cons_of_mem _ hx, hxo⟩
    · rcases List.mem_cons.1 hs with rfl | hs
      · exact ⟨m, List.mem_cons_self _ _, rfl⟩
      · obtain ⟨x, hx, hxo⟩ := ih _ s hs
        exact ⟨x, List.mem_cons_of_mem _ hx, hxo⟩

/-- The type of the segment that holds byte `i`, on an ordered chain whose
first marker is not behind `i`: `emit_type` after the markers up to `i`. -/
theorem yaml_typed_segments_find (len i : Nat) (hi : i < len) (rest : List marker) :
    ∀ (e : markertype) (m : marker), markers_ordered len (m :: rest) → m.offset ≤ i →
      ((yaml_typed_segments len e (m :: rest)).find?
          (fun s => decide (s.2.1 ≤ i) && decide (i < s.2.1 + s.2.2))).map (fun s => s.1) =
        some (((m :: rest).filter (fun x => decide (x.offset ≤ i))).foldl yaml_next_emit_type e) := by
  induction rest with
  | nil =>
    intro e m hord hm
    rw [yaml_typed_segments_cons len e m [] (by simp [next_offset]; omega)]
    simp only [next_offset]
    rw [if_neg (by omega)]
    have hc : (decide (m.offset ≤ i) && decide (i < m.offset + (len - m.offset))) = true := by
      simp; omega
    rw [List.find?_cons_of_pos (p := fun s : markertype × Nat × Nat =>
      decide (s.2.1 ≤ i) && decide (i < s.2.1 + s.2.2)) _ hc]
    simp [List.filter_cons, hm]
  | cons n rest ih =>
    intro e m hord hm
    have hmn : m.offset ≤ n.offset := by
      simpa [next_offset] using next_offset_ge len m (n :: rest) hord
    have htl := markers_ordered_tail len m (n :: rest) hord
    rw [yaml_typed_segments_cons len e m (n :: rest) (by simpa [next_offset] using hmn)]
    simp only [next_offset]
    have hf : (m :: n :: rest).filter (fun x => decide (x.offset ≤ i)) =
        m :: (n :: rest).filter (fun x => decide (x.offset ≤ i)) := by
      rw [List.filter_cons, if_pos (by simpa using hm)]
    rw [hf, List.foldl_cons]
    by_cases hni : n.offset ≤ i
    · have hrec := ih (yaml_next_emit_type e m) n htl hni
      by_cases h0 : n.offset = m.offset
      · rw [if_pos h0]; exact hrec
      · rw [if_neg h0, List.find?_cons]
        have hc : (decide (m.offset ≤ i) && decide (i < m.offset + (n.offset - m.offset)))
            = false := by
          simp; omega
        simp only [hc]
        exact hrec
    · have hnil : (n :: rest).filter (fun x => decide (x.offset ≤ i)) = [] := by
        rw [List.filter_eq_nil_iff]
        intro x hx
        have : n.offset ≤ x.offset := by
          rcases List.mem_cons.1 hx with rfl | hx
          · exact le_refl _
          · exact (List.pairwise_cons.1 htl.1).1 x hx
        simp; omega
      rw [hnil, if_neg (by omega), List.find?_cons]
      have hc : (decide (m.offset ≤ i) && decide (i < m.offset + (n.offset - m.offset)))
          = true := by
        simp; omega
      simp [hc]

/-- The type left by a run of markers: that of the last one that is not a
LABEL, the type before them when there is none. -/
theorem foldl_yaml_next_emit_type (l : List marker) (e : markertype) :
    l.foldl yaml_next_emit_type e =
      match (l.filter (fun m => m.type != LABEL)).getLast? with
      | some m => m.type
      | none => e := by
  induction l using List.reverseRecOn with
  | nil => rfl
  | append_singleton l x ih =>
    rw [List.foldl_append, List.filter_append]
    simp only [List.foldl_cons, List.foldl_nil]
    by_cases hx : x.type = LABEL
    · have : [x].filter (fun m => m.type != LABEL) = [] := by simp [hx]
      rw [this, List.append_nil, ← ih]
      simp [yaml_next_emit_type, hx]
    · have : [x].filter (fun m => m.type != LABEL) = [x] := by simp [hx]
      rw [this, List.getLast?_append]
      simp [yaml_next_emit_type, hx]

theorem type_in_force_eq (ms : List marker) (i : Nat) :
    type_in_force ms i =
      (ms.filter (fun x => decide (x.offset ≤ i))).foldl yaml_next_emit_type MARKER_UINT8 := by
  rw [foldl_yaml_next_emit_type, List.filter_filter]
  rfl

theorem type_in_force_remove_labels (ms : List marker) (i : Nat) :
    type_in_force (ms.filter (fun m => m.type != LABEL)) i = type_in_force ms i := by
  unfold type_in_force
  rw [List.filter_filter]
  congr 2
  apply List.filter_congr
  intro x _
  cases h : (x.type != LABEL) <;> simp [h]

theorem markers_ordered_filter (len : Nat) (ms : List marker) (p : marker → Bool)
    (hord : markers_ordered len ms) : markers_ordered len (ms.filter p) :=
  ⟨hord.1.sublist (List.filter_sublist _), fun x hx => hord.2 x (List.mem_of_mem_filter hx)⟩

/-- The type under which a byte is rendered, on an ordered chain. -/
theorem yaml_byte_type_eq (d : data) (hord : markers_ordered d.len d.markers) (i : Nat)
    (hi : i < d.len) :
    yaml_byte_type d i =
      if d.markers = [] then some MARKER_UINT8
      else if d.markers.any (fun m => decide (m.offset ≤ i)) then
        some (type_in_force d.markers i)
      else none := by
  obtain ⟨val, ms⟩ := d
  simp only [data.len] at hord hi ⊢
  have hlen : val.length ≠ 0 := by omega
  unfold yaml_byte_type yaml_propval_typed_segments
  simp only [data.len, hlen, if_false]
  cases ms with
  | nil => simp; omega
  | cons m rest =>
    simp only [ne_eq, reduceCtorEq, not_false_eq_true, if_true, if_false]
    by_cases hany : (m :: rest).any (fun m => decide (m.offset ≤ i)) = true
    · rw [if_pos hany]
      have hm : m.offset ≤ i := by
        obtain ⟨x, hx, hxo⟩ := List.any_eq_true.1 hany
        have hxo : x.offset ≤ i := by simpa using hxo
        rcases List.mem_cons.1 hx with rfl | hx
        · exact hxo
        · have := (List.pairwise_cons.1 hord.1).1 x hx
          omega
      rw [yaml_typed_segments_find val.length i hi rest MARKER_UINT8 m hord hm,
        type_in_force_eq]
    · rw [if_neg hany]
      have hnone : (yaml_typed_segments val.length MARKER_UINT8 (m :: rest)).find?
          (fun s => decide (s.2.1 ≤ i) && decide (i < s.2.1 + s.2.2)) = none := by
        rw [List.find?_eq_none]
        intro s hs
        obtain ⟨x, hx, hxo⟩ := yaml_typed_segments_start val.length _ _ s hs
        have : ¬ x.offset ≤ i := by
          intro hle
          exact hany (List.any_eq_true.2 ⟨x, hx, by simpa using hle⟩)
        simp; omega
      rw [hnone]
      rfl

/-- C19, amended: on an ordered chain `yaml_propval` renders its typed
segments in order, and a LABEL marker never sets the type: byte `i` is
rendered under the type of the last marker at or before `i` that is not a
LABEL, under UINT8 when there is none (and not at all when a non-empty chain
has no marker at or before `i`). Removing all LABEL markers leaves the type of
every byte that is rendered with and without them unchanged, and changes
nothing at all for the bytes at or behind the first marker that is not a
LABEL. -/
theorem yaml_label_types (d : data) (hord : markers_ordered d.len d.markers) (i : Nat)
    (hi : i < d.len) :
    yaml_propval_loop d.val d.len MARKER_UINT8 d.markers =
        yaml_render_segments d.val (yaml_typed_segments d.len MARKER_UINT8 d.markers) ∧
      (yaml_byte_type d i =
        if d.markers = [] then some MARKER_UINT8
        else if d.markers.any (fun m => decide (m.offset ≤ i)) then
          some (type_in_force d.markers i)
        else none) ∧
      (∀ t t', yaml_byte_type d i = some t → yaml_byte_type (remove_labels d) i = some t' →
        t = t') ∧
      ((∃ m ∈ d.markers, m.type ≠ LABEL ∧ m.offset ≤ i) →
        yaml_byte_type (remove_labels d) i = yaml_byte_type d i) := by
  have h1 := yaml_byte_type_eq d hord i hi
  have hord2 : markers_ordered (remove_labels d).len (remove_labels d).markers :=
    markers_ordered_filter d.len d.markers _ hord
  have h2 := yaml_byte_type_eq (remove_labels d) hord2 i hi
  have hf : type_in_force (remove_labels d).markers i = type_in_force d.markers i :=
    type_in_force_remove_labels d.markers i
  rw [hf] at h2
  have hkeep : (∃ m ∈ d.markers, m.type ≠ LABEL ∧ m.offset ≤ i) →
      yaml_byte_type (remove_labels d) i = some (type_in_force d.markers i) ∧
      yaml_byte_type d i = some (type_in_force d.markers i) := by
    rintro ⟨m, hm, hml, hmo⟩
    have hm2 : m ∈ (remove_labels d).markers := by
      simp only [remove_labels]
      exact List.mem_filter.2 ⟨hm, by simpa using hml⟩
    have hne1 : d.markers ≠ [] := List.ne_nil_of_mem hm
    have hne2 : (remove_labels d).markers ≠ [] := List.ne_nil_of_mem hm2
    have ha1 : d.markers.any (fun m => decide (m.offset ≤ i)) = true :=
      List.any_eq_true.2 ⟨m, hm, by simpa using hmo⟩
    have ha2 : (remove_labels d).markers.any (fun m => decide (m.offset ≤ i)) = true :=
      List.any_eq_true.2 ⟨m, hm2, by simpa using hmo⟩
    rw [h1, h2, if_neg hne1, if_neg hne2, if_pos ha1, if_pos ha2]
    exact ⟨rfl, rfl⟩
  refine ⟨?_, h1, ?_, ?_⟩
  · have := yaml_propval_loop_typed d.val d.markers MARKER_UINT8 hord
    exact this
  · intro t t' ht ht'
    by_cases hex : ∃ m ∈ d.markers, m.type ≠ LABEL ∧ m.offset ≤ i
    · obtain ⟨e2, e1⟩ := hkeep hex
      rw [e1] at ht; rw [e2] at ht'
      exact (Option.some.inj ht).symm.trans (Option.some.inj ht')
    · -- no marker other than a LABEL up to `i`: the type in force is UINT8
      have hu : type_in_force d.markers i = MARKER_UINT8 := by
        unfold type_in_force
        have : d.markers.filter (fun m => m.type != LABEL && decide (m.offset ≤ i)) = [] := by
          rw [List.filter_eq_nil_iff]
          intro x hx hc
          simp only [Bool.and_eq_true, bne_iff_ne, ne_eq, decide_eq_true_eq] at hc
          exact hex ⟨x, hx, hc.1, hc.2⟩
        rw [this]
        rfl
      rw [hu] at h1 h2
      have e1 : t = MARKER_UINT8 := by
        rw [h1] at ht
        split_ifs at ht <;> exact (Option.some.inj ht).symm
      have e2 : t' = MARKER_UINT8 := by
        rw [h2] at ht'
        split_ifs at ht' <;> exact (Option.some.inj ht').symm
      rw [e1, e2]
  · intro hex
    obtain ⟨e2, e1⟩ := hkeep hex
    rw [e1, e2]


theorem yaml_label_types_witness :
    yaml_byte_type ex_labelled_chunks 1 = some MARKER_STRING ∧
      yaml_byte_type (remove_labels ex_labelled_chunks) 1 = some MARKER_STRING ∧
      (yaml_propval_loop ex_labelled_chunks.val ex_labelled_chunks.len MARKER_UINT8
          ex_labelled_chunks.markers =
        yaml_render_segments ex_labelled_chunks.val
          (yaml_typed_segments ex_labelled_chunks.len MARKER_UINT8 ex_labelled_chunks.markers) ∧
      (yaml_byte_type ex_labelled_chunks 1 =
        if ex_labelled_chunks.markers = [] then some MARKER_UINT8
        else if ex_labelled_chunks.markers.any (fun m => decide (m.offset ≤ 1)) then
          some (type_in_force ex_labelled_chunks.markers 1)
        else none) ∧
      (∀ t t', yaml_byte_type ex_labelled_chunks 1 = some t →
        yaml_byte_type (remove_labels ex_labelled_chunks) 1 = some t' → t = t') ∧
      ((∃ m ∈ ex_labelled_chunks.markers, m.type ≠ LABEL ∧ m.offset ≤ 1) →
        yaml_byte_type (remove_labels ex_labelled_chunks) 1 =
          yaml_byte_type ex_labelled_chunks 1)) :=
  ⟨by decide, by decide, yaml_label_types ex_labelled_chunks (by decide) 1 (by decide)⟩

/-- C19 as stated fails: a REF_PATH marker at the start of a STRING chunk sets
the type, and the chunk is rendered as `!u8` bytes instead of a string scalar;
and with a LABEL at offset 2 as the only marker, byte 0 is not rendered, while
without the label it is rendered as UINT8. -/
theorem yaml_label_types_counterexample :
    markers_ordered ex_path_string.len ex_path_string.markers ∧
      yaml_propval ⟨"p", ex_path_string⟩ =
        some (scalar YAML_STR_TAG "p".toList true true YAML_PLAIN_SCALAR_STYLE ::
          sequence_start YAML_SEQ_TAG true YAML_FLOW_SEQUENCE_STYLE ::
          (yaml_sequence "!u8" false [0x61, 0x62, 0x63, 0] ++ [sequence_end])) ∧
      yaml_propval ⟨"p", ex_string_only⟩ =
        some [scalar YAML_STR_TAG "p".toList true true YAML_PLAIN_SCALAR_STYLE,
          sequence_start YAML_SEQ_TAG true YAML_FLOW_SEQUENCE_STYLE,
          scalar YAML_STR_TAG "abc".toList false true YAML_DOUBLE_QUOTED_SCALAR_STYLE,
          sequence_end] ∧
      yaml_byte_type ex_path_string 0 = some REF_PATH ∧
      yaml_byte_type ex_string_only 0 = some MARKER_STRING ∧
      markers_ordered ex_label_gap.len ex_label_gap.markers ∧
      yaml_byte_type ex_label_gap 0 = none ∧
      yaml_byte_type (remove_labels ex_label_gap) 0 = some MARKER_UINT8 := by
  decide

/-! ## The event stream of `dt_to_yaml` (C21) -/

theorem yaml_run_append (a b : List yaml_event) :
    ∀ st, yaml_run st (a ++ b) = (yaml_run st a).bind (fun s => yaml_run s b) := by
  induction a with
  | nil => intro st; rfl
  | cons ev a ih =>
    intro st
    simp only [List.cons_append, yaml_run]
    cases yaml_step st ev with
    | none => rfl
    | some s => simp only [Option.some_bind]; exact ih s

theorem seq_write_eq_some {α : Type} (a b : Option (List α)) (c : List α)
    (h : seq_write a b = some c) : ∃ x y, a = some x ∧ b = some y ∧ c = x ++ y := by
  cases a with
  | none => cases h
  | some x =>
    cases b with
    | none => cases h
    | some y =>
      refine ⟨x, y, rfl, rfl, ?_⟩
      simpa [seq_write] using h.symm

theorem seq_write_isSome {α : Type} (a b : Option (List α)) (ha : a.isSome = true)
    (hb : b.isSome = true) : (seq_write a b).isSome = true := by
  obtain ⟨x, rfl⟩ := Option.isSome_iff_exists.1 ha
  obtain ⟨y, rfl⟩ := Option.isSome_iff_exists.1 hb
  rfl

/-- Scalars inside a sequence leave the reader inside the sequence. -/
theorem yaml_run_int_loop (w : Nat) (st : List yaml_frame) :
    ∀ (fuel : Nat) (data : List Byte),
      yaml_run (in_sequence :: st) (yaml_int_loop w fuel data) = some (in_sequence :: st) := by
  intro fuel
  induction fuel with
  | zero => intro data; rfl
  | succ n ih =>
    intro data
    rw [yaml_int_loop]
    split_ifs
    · simp only [yaml_run, yaml_int_scalar, yaml_step, yaml_node_done, Option.some_bind]
      exact ih _
    · rfl

/-- The events of `yaml_propval_int` are one node. -/
theorem yaml_run_int (data : List Byte) (w : Nat) (evs : List yaml_event)
    (h : yaml_propval_int data w = some evs) (st : List yaml_frame)
    (hs : yaml_node_may_start st = true) : yaml_run st evs = yaml_node_done st := by
  unfold yaml_propval_int at h
  simp only at h
  cases ht : yaml_width_tag (if data.length % w ≠ 0 then 1 else w) with
  | none => rw [ht] at h; cases h
  | some tag =>
    rw [ht] at h
    simp only [Option.some.injEq] at h
    subst h
    simp only [yaml_run, yaml_step, hs, if_true, Option.some_bind]
    rw [yaml_run_append, yaml_run_int_loop]
    simp only [Option.some_bind, yaml_run, yaml_step]
    cases yaml_node_done st <;> rfl

/-- The events of `yaml_propval_string` are one node. -/
theorem yaml_run_string (str : List Byte) (evs : List yaml_event)
    (h : yaml_propval_string str = some evs) (st : List yaml_frame)
    (hs : yaml_node_may_start st = true) : yaml_run st evs = yaml_node_done st := by
  unfold yaml_propval_string at h
  cases hl : str.getLast? with
  | none => rw [hl] at h; cases h
  | some e =>
    rw [hl] at h
    simp only at h
    split_ifs at h with h1 h2
    · simp only [Option.some.injEq] at h
      subst h
      simp only [yaml_run, yaml_step]
      cases yaml_node_done st <;> rfl
    · exact yaml_run_int str 1 evs h st hs

/-- The events of one rendered segment are one node. -/
theorem yaml_run_chunk (e : markertype) (data : List Byte) (evs : List yaml_event)
    (h : yaml_chunk e data = some evs) (st : List yaml_frame)
    (hs : yaml_node_may_start st = true) : yaml_run st evs = yaml_node_done st := by
  cases e <;> simp only [yaml_chunk] at h <;>
    first
    | exact yaml_run_int data _ evs h st hs
    | exact yaml_run_string data evs h st hs

/-- The events of the loop of `yaml_propval` are items of the outer sequence. -/
theorem yaml_run_loop (val : List Byte) (len : Nat) :
    ∀ (ms : List marker) (e : markertype) (evs : List yaml_event),
      yaml_propval_loop val len e ms = some evs →
      ∀ st, yaml_run (in_sequence :: st) evs = some (in_sequence :: st) := by
  intro ms
  induction ms with
  | nil =>
    intro e evs h st
    simp only [yaml_propval_loop, Option.some.injEq] at h
    subst h
    rfl
  | cons m rest ih =>
    intro e evs h st
    rw [yaml_propval_loop] at h
    split_ifs at h with h1 h2
    · exact ih _ evs h st
    · obtain ⟨x, y, hx, hy, rfl⟩ := seq_write_eq_some _ _ _ h
      rw [yaml_run_append, yaml_run_chunk _ _ x hx (in_sequence :: st) rfl]
      simp only [yaml_node_done, Option.some_bind]
      exact ih _ y hy st

/-- What `yaml_propval` emits for one property: the name as a key and one
value node. -/
theorem yaml_propval_shape (p : property) (evs : List yaml_event)
    (h : yaml_propval p = some evs) :
    ∃ value, evs = scalar YAML_STR_TAG p.name.toList true true YAML_PLAIN_SCALAR_STYLE :: value ∧
      (∀ st, yaml_node_may_start st = true → yaml_run st value = yaml_node_done st) ∧
      ((p.val.len = 0 ∧
          value = [scalar YAML_BOOL_TAG "true".toList true false YAML_PLAIN_SCALAR_STYLE]) ∨
        (p.val.len ≠ 0 ∧ p.val.markers ≠ [] ∧
          ∃ items, value = sequence_start YAML_SEQ_TAG true YAML_FLOW_SEQUENCE_STYLE ::
            (items ++ [sequence_end])) ∨
        (p.val.len ≠ 0 ∧ p.val.markers = [] ∧
          value = yaml_sequence "!u8" false (p.val.val.map (fun b => b.val)))) := by
  unfold yaml_propval at h
  by_cases h0 : p.val.len = 0
  · rw [if_pos h0] at h
    simp only [Option.some.injEq] at h
    subst h
    refine ⟨_, rfl, ?_, Or.inl ⟨h0, rfl⟩⟩
    intro st _
    simp only [yaml_run, yaml_step]
    cases yaml_node_done st <;> rfl
  · rw [if_neg h0] at h
    by_cases hm : p.val.markers ≠ []
    · rw [if_pos hm] at h
      cases hl : yaml_propval_loop p.val.val p.val.len MARKER_UINT8 p.val.markers with
      | none => rw [hl] at h; cases h
      | some items =>
        rw [hl] at h
        simp only [Option.map_some', Option.some.injEq] at h
        subst h
        refine ⟨_, rfl, ?_, Or.inr (Or.inl ⟨h0, hm, items, rfl⟩)⟩
        intro st hs
        simp only [yaml_run, yaml_step, hs, if_true, Option.some_bind]
        rw [yaml_run_append, yaml_run_loop _ _ _ _ items hl st]
        simp only [Option.some_bind, yaml_run, yaml_step]
        cases yaml_node_done st <;> rfl
    · rw [if_neg hm] at h
      have hm' : p.val.markers = [] := by simpa using hm
      have hi := yaml_propval_int_fit 1 (Or.inl rfl) p.val.val (Nat.mod_one _)
      rw [elements_one] at hi
      rw [hi] at h
      simp only [Option.map_some', Option.some.injEq] at h
      subst h
      refine ⟨_, rfl, ?_, Or.inr (Or.inr ⟨h0, hm', rfl⟩)⟩
      intro st hs
      exact yaml_run_int p.val.val 1 _ hi st hs

/-- The events of a property are a key and its value. -/
theorem yaml_run_propval (p : property) (evs : List yaml_event)
    (h : yaml_propval p = some evs) (st : List yaml_frame) :
    yaml_run (in_mapping_key :: st) evs = some (in_mapping_key :: st) := by
  obtain ⟨value, rfl, hv, _⟩ := yaml_propval_shape p evs h
  simp only [yaml_run, yaml_step, yaml_node_done, Option.some_bind]
  rw [hv (in_mapping_value :: st) rfl]
  rfl

theorem yaml_run_properties :
    ∀ (pl : List (List String × property)) (evs : List yaml_event),
      yaml_properties pl = some evs →
      ∀ st, yaml_run (in_mapping_key :: st) evs = some (in_mapping_key :: st) := by
  intro pl
  induction pl with
  | nil =>
    intro evs h st
    simp only [yaml_properties, Option.some.injEq] at h
    subst h
    rfl
  | cons lp rest ih =>
    intro evs h st
    rw [yaml_properties] at h
    obtain ⟨x, y, hx, hy, rfl⟩ := seq_write_eq_some _ _ _ h
    rw [yaml_run_append, yaml_run_propval lp.2 x hx st]
    simp only [Option.some_bind]
    exact ih y hy st

/-- The events of the children of a node are keys with their values. -/
theorem yaml_run_children :
    ∀ (c : node) (evs : List yaml_event), yaml_children c = some evs →
      ∀ st, yaml_run (in_mapping_key :: st) evs = some (in_mapping_key :: st) := by
  intro c
  induction c with
  | null =>
    intro evs h st
    simp only [yaml_children, Option.some.injEq] at h
    subst h
    rfl
  | mk name labels proplist deleted children next_sibling ihc ihn =>
    intro evs h st
    rw [yaml_children] at h
    cases deleted with
    | true =>
      simp only [if_true] at h
      exact ihn evs h st
    | false =>
      simp only [Bool.false_eq_true, if_false] at h
      obtain ⟨x, y, hx, hy, rfl⟩ := seq_write_eq_some _ _ _ h
      obtain ⟨a, b, ha, hb, rfl⟩ := seq_write_eq_some _ _ _ hx
      obtain ⟨ps, r1, hps, hr1, rfl⟩ := seq_write_eq_some _ _ _ hb
      obtain ⟨cs, r2, hcs, hr2, rfl⟩ := seq_write_eq_some _ _ _ hr1
      simp only [Option.some.injEq] at ha hr2
      subst ha hr2
      rw [yaml_run_append, yaml_run_append]
      simp only [yaml_run, yaml_step, yaml_node_done, yaml_node_may_start, if_true,
        Option.some_bind]
      rw [yaml_run_append, yaml_run_properties proplist ps hps (in_mapping_value :: st)]
      simp only [Option.some_bind]
      rw [yaml_run_append, ihc cs hcs (in_mapping_value :: st)]
      simp only [Option.some_bind, yaml_run, yaml_step, yaml_node_done]
      exact ihn y hy st

/-- Each child that is visited contributes its name as a key and what
`yaml_tree` emits for it. -/
theorem yaml_children_tree (name : String) (labels : List String)
    (proplist : List (List String × property)) (children next_sibling : node) :
    yaml_children (node.mk name labels proplist false children next_sibling) =
      seq_write
        ((yaml_tree (node.mk name labels proplist false children next_sibling)).map
          (fun m => scalar YAML_STR_TAG name.toList true false YAML_PLAIN_SCALAR_STYLE :: m))
        (yaml_children next_sibling) := by
  rw [yaml_children, yaml_tree]
  simp only [Bool.false_eq_true, if_false]
  cases yaml_properties proplist <;> cases yaml_children children <;>
    cases yaml_children next_sibling <;> simp [seq_write]

/-- What `yaml_tree` emits: nothing for a deleted node, else one mapping. -/
theorem yaml_tree_shape (tree : node) (evs : List yaml_event) (h : yaml_tree tree = some evs) :
    evs = [] ∨
      ∃ body, evs = mapping_start YAML_MAP_TAG true YAML_ANY_MAPPING_STYLE ::
          (body ++ [mapping_end]) ∧
        (∀ st, yaml_run (in_mapping_key :: st) body = some (in_mapping_key :: st)) ∧
        ∀ st, yaml_node_may_start st = true → yaml_run st evs = yaml_node_done st := by
  cases tree with
  | null => simp [yaml_tree] at h
  | mk name labels proplist deleted children next_sibling =>
    rw [yaml_tree] at h
    cases deleted with
    | true =>
      simp only [if_true, Option.some.injEq] at h
      exact Or.inl h.symm
    | false =>
      simp only [Bool.false_eq_true, if_false] at h
      obtain ⟨a, b, ha, hb, rfl⟩ := seq_write_eq_some _ _ _ h
      obtain ⟨ps, r1, hps, hr1, rfl⟩ := seq_write_eq_some _ _ _ hb
      obtain ⟨cs, r2, hcs, hr2, rfl⟩ := seq_write_eq_some _ _ _ hr1
      simp only [Option.some.injEq] at ha hr2
      subst ha hr2
      have hbody : ∀ st, yaml_run (in_mapping_key :: st) (ps ++ cs) =
          some (in_mapping_key :: st) := by
        intro st
        rw [yaml_run_append, yaml_run_properties proplist ps hps st]
        simp only [Option.some_bind]
        exact yaml_run_children children cs hcs st
      refine Or.inr ⟨ps ++ cs, by simp, hbody, ?_⟩
      intro st hs
      have e : [mapping_start YAML_MAP_TAG true YAML_ANY_MAPPING_STYLE] ++ (ps ++ (cs ++ [mapping_end]))
          = mapping_start YAML_MAP_TAG true YAML_ANY_MAPPING_STYLE :: ((ps ++ cs) ++ [mapping_end]) := by
        simp
      rw [e]
      simp only [yaml_run, yaml_step, hs, if_true, Option.some_bind]
      rw [yaml_run_append, hbody st]
      simp only [Option.some_bind, yaml_run, yaml_step]
      cases yaml_node_done st <;> rfl

/-- The stream of `dt_to_yaml` is well-formed. -/
theorem yaml_run_document (dti : dt_info) (evs : List yaml_event)
    (h : dt_to_yaml dti = some evs) : yaml_well_formed evs = true := by
  unfold dt_to_yaml at h
  cases ht : yaml_tree dti.dt with
  | none => rw [ht] at h; cases h
  | some t =>
    rw [ht] at h
    simp only [Option.map_some', Option.some.injEq] at h
    subst h
    have hrun : yaml_run [in_sequence, in_document 0, in_stream] t =
        some [in_sequence, in_document 0, in_stream] := by
      rcases yaml_tree_shape dti.dt t ht with rfl | ⟨body, _, _, hn⟩
      · rfl
      · exact hn _ rfl
    show yaml_well_formed (stream_start :: document_start false ::
      sequence_start YAML_SEQ_TAG true YAML_ANY_SEQUENCE_STYLE ::
        (t ++ [sequence_end, document_end false, stream_end])) = true
    unfold yaml_well_formed
    simp only [yaml_run, yaml_step, if_true, yaml_node_may_start, Option.some_bind]
    rw [yaml_run_append, hrun]
    rfl

theorem yaml_propval_int_isSome (data : List Byte) (w : Nat)
    (hw : w = 1 ∨ w = 2 ∨ w = 4 ∨ w = 8) : (yaml_propval_int data w).isSome = true := by
  unfold yaml_propval_int
  simp only
  by_cases h : data.length % w ≠ 0
  · rw [if_pos h]; rfl
  · rw [if_neg h]
    rcases hw with rfl | rfl | rfl | rfl <;> rfl

theorem yaml_chunk_isSome (e : markertype) (data : List Byte)
    (h : (e != MARKER_STRING || data.getLast? == some 0) = true) :
    (yaml_chunk e data).isSome = true := by
  cases e <;> simp only [yaml_chunk] <;>
    first
    | exact yaml_propval_int_isSome data _ (by decide)
    | skip
  have hl : data.getLast? = some 0 := by simpa using h
  unfold yaml_propval_string
  rw [hl]
  simp only [Fin.val_zero, ne_eq, not_true_eq_false, if_false]
  split_ifs
  · rfl
  · exact yaml_propval_int_isSome data 1 (by decide)

theorem yaml_render_segments_isSome (val : List Byte) :
    ∀ (segs : List (markertype × Nat × Nat)),
      segs.all (fun s => s.1 != MARKER_STRING || (segment_bytes val s.2).getLast? == some 0)
        = true →
      (yaml_render_segments val segs).isSome = true := by
  intro segs
  induction segs with
  | nil => intro _; rfl
  | cons s rest ih =>
    intro h
    rw [List.all_cons, Bool.and_eq_true] at h
    rw [yaml_render_segments]
    exact seq_write_isSome _ _ (yaml_chunk_isSome _ _ h.1) (ih h.2)

/-- A value that can be rendered is rendered. -/
theorem yaml_propval_isSome (p : property) (h : yaml_renderable p.val = true) :
    (yaml_propval p).isSome = true := by
  unfold yaml_renderable at h
  rw [Bool.and_eq_true, decide_eq_true_eq] at h
  obtain ⟨hord, hall⟩ := h
  unfold yaml_propval
  by_cases h0 : p.val.len = 0
  · rw [if_pos h0]; rfl
  · rw [if_neg h0]
    by_cases hm : p.val.markers ≠ []
    · rw [if_pos hm]
      unfold yaml_propval_typed_segments at hall
      rw [if_neg h0, if_pos hm] at hall
      have := yaml_propval_loop_typed p.val.val p.val.markers MARKER_UINT8 hord
      have hl : p.val.len = p.val.val.length := rfl
      rw [hl, this, Option.isSome_map']
      exact yaml_render_segments_isSome _ _ hall
    · rw [if_neg hm, Option.isSome_map']
      exact yaml_propval_int_isSome _ 1 (by decide)

theorem yaml_properties_isSome :
    ∀ (pl : List (List String × property)),
      pl.all (fun lp => yaml_renderable lp.2.val) = true →
      (yaml_properties pl).isSome = true := by
  intro pl
  induction pl with
  | nil => intro _; rfl
  | cons lp rest ih =>
    intro h
    rw [List.all_cons, Bool.and_eq_true] at h
    rw [yaml_properties]
    exact seq_write_isSome _ _ (yaml_propval_isSome lp.2 h.1) (ih h.2)

theorem yaml_children_isSome :
    ∀ (c : node), yaml_children_renderable c = true → (yaml_children c).isSome = true := by
  intro c
  induction c with
  | null => intro _; rfl
  | mk name labels proplist deleted children next_sibling ihc ihn =>
    intro h
    rw [yaml_children_renderable, Bool.and_eq_true] at h
    rw [yaml_children]
    cases deleted with
    | true => simp only [if_true]; exact ihn h.2
    | false =>
      simp only [Bool.false_eq_true, if_false]
      have h1 := h.1
      simp only [Bool.false_or, Bool.and_eq_true] at h1
      exact seq_write_isSome _ _
        (seq_write_isSome _ _ rfl
          (seq_write_isSome _ _ (yaml_properties_isSome proplist h1.1)
            (seq_write_isSome _ _ (ihc h1.2) rfl)))
        (ihn h.2)

theorem yaml_tree_isSome (tree : node) (h : yaml_tree_renderable tree = true) :
    (yaml_tree tree).isSome = true := by
  cases tree with
  | null => simp [yaml_tree_renderable] at h
  | mk name labels proplist deleted children next_sibling =>
    rw [yaml_tree_renderable] at h
    rw [yaml_tree]
    cases deleted with
    | true => rfl
    | false =>
      simp only [Bool.false_eq_true, if_false]
      simp only [Bool.false_or, Bool.and_eq_true] at h
      exact seq_write_isSome _ _ rfl
        (seq_write_isSome _ _ (yaml_properties_isSome proplist h.1)
          (seq_write_isSome _ _ (yaml_children_isSome children h.2) rfl))

/-- C21, amended: `dt_to_yaml` returns whenever the root is there and, in every
node that is not deleted, the chain of every property is ordered inside its
buffer and every segment rendered as a string ends in NUL; and whenever it
returns, its event stream is well-formed: every sequence and mapping start has
its end, properly nested, and every mapping holds keys that are scalars, each
followed by its value. Each property contributes its name as a key and
exactly one value node (the scalar `true`, one outer flow sequence, or one
`!u8` sequence); each child that is visited contributes its name as a key
followed by what `yaml_tree` emits for it, which is exactly one mapping. -/
theorem dt_to_yaml_well_formed (dti : dt_info) :
    (yaml_tree_renderable dti.dt = true → (dt_to_yaml dti).isSome = true) ∧
      (∀ evs, dt_to_yaml dti = some evs → yaml_well_formed evs = true) ∧
      (∀ (p : property) (evs : List yaml_event), yaml_propval p = some evs →
        ∃ value,
          evs = scalar YAML_STR_TAG p.name.toList true true YAML_PLAIN_SCALAR_STYLE :: value ∧
          yaml_nodes value = some 1 ∧
          ((p.val.len = 0 ∧
              value = [scalar YAML_BOOL_TAG "true".toList true false YAML_PLAIN_SCALAR_STYLE]) ∨
            (p.val.len ≠ 0 ∧ p.val.markers ≠ [] ∧
              ∃ items, value = sequence_start YAML_SEQ_TAG true YAML_FLOW_SEQUENCE_STYLE ::
                (items ++ [sequence_end])) ∨
            (p.val.len ≠ 0 ∧ p.val.markers = [] ∧
              value = yaml_sequence "!u8" false (p.val.val.map (fun b => b.val))))) ∧
      (∀ (name : String) (labels : List String) (proplist : List (List String × property))
          (children next_sibling : node),
        yaml_children (node.mk name labels proplist false children next_sibling) =
          seq_write
            ((yaml_tree (node.mk name labels proplist false children next_sibling)).map
              (fun m => scalar YAML_STR_TAG name.toList true false YAML_PLAIN_SCALAR_STYLE :: m))
            (yaml_children next_sibling)) ∧
      (∀ (name : String) (labels : List String) (proplist : List (List String × property))
          (children next_sibling : node) (evs : List yaml_event),
        yaml_tree (node.mk name labels proplist false children next_sibling) = some evs →
        yaml_nodes evs = some 1 ∧
        ∃ body, evs = mapping_start YAML_MAP_TAG true YAML_ANY_MAPPING_STYLE ::
          (body ++ [mapping_end])) := by
  refine ⟨?_, yaml_run_document dti, ?_, yaml_children_tree, ?_⟩
  · intro h
    unfold dt_to_yaml
    rw [Option.isSome_map']
    exact yaml_tree_isSome dti.dt h
  · intro p evs h
    obtain ⟨value, he, hv, hshape⟩ := yaml_propval_shape p evs h
    refine ⟨value, he, ?_, hshape⟩
    unfold yaml_nodes
    rw [hv [in_document 0] rfl]
    rfl
  · intro name labels proplist children next_sibling evs h
    rcases yaml_tree_shape _ evs h with rfl | ⟨body, he, _, hn⟩
    · rw [yaml_tree] at h
      simp only [Bool.false_eq_true, if_false] at h
      obtain ⟨a, b, ha, _, hab⟩ := seq_write_eq_some _ _ _ h
      simp only [Option.some.injEq] at ha
      subst ha
      cases hab
    · refine ⟨?_, body, he⟩
      unfold yaml_nodes
      rw [hn [in_document 0] rfl]
      rfl


/-- Streams the reader refuses: a sequence left open, a mapping with a key
without value, a sequence as a key, a mapping closed by a sequence end, two
root nodes in a document. -/
theorem yaml_well_formed_refuses :
    yaml_well_formed [stream_start, document_start false,
        sequence_start YAML_SEQ_TAG true YAML_ANY_SEQUENCE_STYLE,
        document_end false, stream_end] = false ∧
      yaml_well_formed [stream_start, document_start false,
        mapping_start YAML_MAP_TAG true YAML_ANY_MAPPING_STYLE,
        scalar YAML_STR_TAG "k".toList true true YAML_PLAIN_SCALAR_STYLE,
        mapping_end, document_end false, stream_end] = false ∧
      yaml_well_formed [stream_start, document_start false,
        mapping_start YAML_MAP_TAG true YAML_ANY_MAPPING_STYLE,
        sequence_start YAML_SEQ_TAG true YAML_FLOW_SEQUENCE_STYLE, sequence_end,
        scalar YAML_STR_TAG "v".toList true true YAML_PLAIN_SCALAR_STYLE,
        mapping_end, document_end false, stream_end] = false ∧
      yaml_well_formed [stream_start, document_start false,
        mapping_start YAML_MAP_TAG true YAML_ANY_MAPPING_STYLE,
        sequence_end, document_end false, stream_end] = false ∧
      yaml_well_formed [stream_start, document_start false,
        scalar YAML_STR_TAG "a".toList true true YAML_PLAIN_SCALAR_STYLE,
        scalar YAML_STR_TAG "b".toList true true YAML_PLAIN_SCALAR_STYLE,
        document_end false, stream_end] = false := by
  decide

set_option maxRecDepth 100000 in
theorem dt_to_yaml_well_formed_witness :
    yaml_tree_renderable ex_small_tree.dt = true ∧
      dt_to_yaml ex_small_tree = some ex_small_tree_events ∧
      (dt_to_yaml ex_small_tree).isSome = true ∧
      yaml_well_formed ex_small_tree_events = true :=
  ⟨by decide, by decide, (dt_to_yaml_well_formed ex_small_tree).1 (by decide),
    (dt_to_yaml_well_formed ex_small_tree).2.1 ex_small_tree_events (by decide)⟩

set_option maxRecDepth 100000 in
/-- C21 as stated fails: on a tree whose property holds a STRING segment
without a NUL at its end (the chain is ordered), the assertion of
`yaml_propval_string` fails and `dt_to_yaml` does not return; the events
emitted up to there leave two sequences and a mapping open. -/
theorem dt_to_yaml_well_formed_counterexample :
    markers_ordered 1 [⟨MARKER_STRING, 0, ""⟩] ∧
      yaml_propval_string [0x61] = none ∧
      yaml_propval ⟨"p", ⟨[0x61], [⟨MARKER_STRING, 0, ""⟩]⟩⟩ = none ∧
      dt_to_yaml ex_unterminated = none ∧
      yaml_well_formed ex_unterminated_emitted = false := by
  decide

end Dtc
